import Mathlib

/-!
Verification development for the pychecktype matching engine
(`pychecktype/__init__.py`).

The engine works on Python object graphs and keys its memoization tables by
object identity (`id(value)`, `id(type_)`).  We embed this with an explicit
heap: an address (`Nat`) plays the role of an object identity, the heap maps
addresses to object contents, and value graphs / descriptor graphs may be
cyclic through addresses.  The session state of `_check_type_inner`
(`current`, `succeeded`, `failed`, `list_loop` tables) is threaded
explicitly.  Python's `re.search` is external to the repository and is
modelled by an abstract matching function `rs : String → String → Bool`
passed as a parameter.  Recursion in the Python engine is unbounded (cycles
are cut by the tables); the embedding adds an explicit fuel argument, with a
distinguished `fuelOut` outcome that a successful run never produces.
-/

namespace PyCheck

/-- Contents of a Python value object: scalars, mutable lists, immutable
tuples, and dicts (entries are (key address, value address) pairs, in
insertion order). -/
inductive VObj where
  | vnone : VObj
  | vbool : Bool → VObj
  | vint : Int → VObj
  | vstr : String → VObj
  | vlist : List Nat → VObj
  | vtuple : List Nat → VObj
  | vdict : List (Nat × Nat) → VObj
deriving DecidableEq

/-- Contents of a type-descriptor object, mirroring the descriptor shapes
dispatched on in `_check_type_inner`: `None`, the primitive classes that get
special rules, a tuple of alternatives (empty tuple = "any non-None"),
a list descriptor (`ListChecker`, with its `strict` flag), a dict descriptor
(`DictChecker`, keys kept raw with their `!`/`?`/`~` prefixes), a
`TupleChecker` (with `allow_recursive`), and a `MapChecker`. -/
inductive TObj where
  | tNone : TObj
  | tInt : TObj
  | tStr : TObj
  | tBool : TObj
  | tAlt : List Nat → TObj
  | tList : List Nat → Bool → TObj
  | tDict : List (String × Nat) → TObj
  | tTuple : List Nat → Bool → TObj
  | tMap : Nat → Nat → TObj
deriving DecidableEq

/-- Exceptions of the engine: `TypeMismatchException` (carrying the value
and type addresses and the optional info string), `InvalidTypeException`,
a host-level `TypeError` (raised by `re.search` on a non-string key and by
unhashable dict keys), and the artificial out-of-fuel outcome. -/
inductive Err where
  | mismatch : Nat → Nat → Option String → Err
  | invalid : Nat → Option String → Err
  | typeErr : Err
  | fuelOut : Err
deriving DecidableEq

deriving instance DecidableEq for Except

/-- The per-call session of `_check_type_inner`: the value/result heap with
its allocation frontier, plus the four identity-keyed tables
`current_check`, `succeded_check`, `failed_check`, `list_loop`. -/
structure Session where
  heap : Nat → Option VObj
  nextAddr : Nat
  current : Nat × Nat → Option Nat
  succeeded : Nat × Nat → Option Nat
  failed : Nat × Nat → Option Err
  listLoop : Nat × Nat → Bool

/-- Point update of a table. -/
def updF {α : Type} (f : Nat × Nat → Option α) (k : Nat × Nat) (v : Option α) :
    Nat × Nat → Option α :=
  fun k' => if k' = k then v else f k'

/-- Point update of the loop-guard set. -/
def updB (f : Nat × Nat → Bool) (k : Nat × Nat) (v : Bool) : Nat × Nat → Bool :=
  fun k' => if k' = k then v else f k'

/-- Allocate a fresh object on the heap, returning its address. -/
def alloc (s : Session) (o : VObj) : Session × Nat :=
  ({ s with
      heap := fun a => if a = s.nextAddr then some o else s.heap a,
      nextAddr := s.nextAddr + 1 }, s.nextAddr)

/-- Overwrite the contents of an existing address (in-place mutation of a
shell object). -/
def writeH (s : Session) (a : Nat) (o : VObj) : Session :=
  { s with heap := fun a' => if a' = a then some o else s.heap a' }

/-- Append one entry to a list shell (`current_result.extend`, one step). -/
def listAppend (s : Session) (shell r : Nat) : Session :=
  match s.heap shell with
  | some (.vlist es) => writeH s shell (.vlist (es ++ [r]))
  | _ => s

/-- Append one entry to a dict shell (`current_result[k] = r`, one step;
input dicts have distinct keys, so assignment is an append). -/
def dictAppend (s : Session) (shell ka r : Nat) : Session :=
  match s.heap shell with
  | some (.vdict es) => writeH s shell (.vdict (es ++ [(ka, r)]))
  | _ => s

/-- `k.startswith(c)` for a single-character prefix, computed on the
character list (kernel-reducible). -/
def strHead (k : String) (c : Char) : Bool :=
  match k.data with
  | [] => false
  | c0 :: _ => c0 = c

/-- `k[1:]`, computed on the character list (kernel-reducible). -/
def strTail (k : String) : String := String.mk (k.data.drop 1)

/-- Strip the `!` prefix of a required key (`DictChecker.final_check_type`). -/
def reqStrip (k : String) : String := if strHead k '!' then strTail k else k

/-- The `required_keys` table: every descriptor key not starting with `?`
or `~`, with a leading `!` stripped (generic in the rule payload so the same
definition serves address-level and tree-level descriptor entries). -/
def requiredKeys {α : Type} (entries : List (String × α)) : List (String × α) :=
  (entries.filter fun kv => !(strHead kv.1 '?') && !(strHead kv.1 '~')).map
    fun kv => (reqStrip kv.1, kv.2)

/-- The `optional_keys` table: keys with the `?` prefix, stripped. -/
def optionalKeys {α : Type} (entries : List (String × α)) : List (String × α) :=
  (entries.filter fun kv => strHead kv.1 '?').map fun kv => (strTail kv.1, kv.2)

/-- The `regexp_keys` list: keys with the `~` prefix, stripped, in
declaration order. -/
def regexpKeys {α : Type} (entries : List (String × α)) : List (String × α) :=
  (entries.filter fun kv => strHead kv.1 '~').map fun kv => (strTail kv.1, kv.2)

/-- Does the input dict contain a key object equal to string `k`
(`k not in value` test of the required-key loop)? -/
def hasKeyStr (h : Nat → Option VObj) (es : List (Nat × Nat)) (k : String) : Bool :=
  es.any fun kv => h kv.1 = some (.vstr k)

/-- First required key missing from the input dict, in declaration order. -/
def firstMissingReq (h : Nat → Option VObj) (ves : List (Nat × Nat))
    (reqs : List (String × Nat)) : Option String :=
  (reqs.find? fun kv => !hasKeyStr h ves kv.1).map (·.1)

/-- Lookup in `optional_keys.update(required_keys)`: required rules win over
optional ones. -/
def mergedLookup {α : Type} (reqs opts : List (String × α)) (k : String) :
    Option α :=
  match reqs.find? fun kv => kv.1 = k with
  | some kv => some kv.2
  | none => (opts.find? fun kv => kv.1 = k).map (·.2)

/-- First regex rule matching the key, in declaration order
(`re.search` is the abstract matcher `rs`). -/
def regexFind {α : Type} (rs : String → String → Bool)
    (rules : List (String × α)) (ks : String) : Option α :=
  (rules.find? fun rv => rs rv.1 ks).map (·.2)

/-- The error message of a missing required key. -/
def reqMsg (k : String) : String := "key '" ++ k ++ "' is required"

/-- Composite checker dispatched through `_customized_check` (the built-in
checkers needed by the engine's dict/list dispatch and relevant claims). -/
inductive Ck where
  | ckList : List Nat → Bool → Ck
  | ckDict : List (String × Nat) → Ck
  | ckTuple : List Nat → Bool → Ck
  | ckMap : Nat → Nat → Ck

/-- A key is unhashable if it is a mutable container (top-level check;
Python raises `TypeError` when such a key is inserted into a dict). -/
def unhashableTop (h : Nat → Option VObj) (a : Nat) : Bool :=
  match h a with
  | some (.vlist _) => true
  | some (.vdict _) => true
  | _ => false

/-- First phase (`pre_check_type`) of the composite checkers: non-recursive
gate, possibly allocating a result shell. -/
def pre_check_type (ck : Ck) (v t : Nat) (s : Session) :
    Session × Except Err (Option Nat) :=
  match ck with
  | .ckList _ strict =>
    match s.heap v with
    | some (.vlist _) =>
        let (s', a) := alloc s (.vlist []); (s', .ok (some a))
    | some (.vtuple _) =>
        let (s', a) := alloc s (.vlist []); (s', .ok (some a))
    | _ =>
        if strict then
          (s, .error (.mismatch v t
            (some "strict mode disables auto-convert-to-list for single value")))
        else (s, .ok none)
  | .ckDict _ =>
    match s.heap v with
    | some (.vdict _) =>
        let (s', a) := alloc s (.vdict []); (s', .ok (some a))
    | _ => (s, .error (.mismatch v t (some "allowed types are: dict")))
  | .ckTuple tys ar =>
    match s.heap v with
    | some (.vlist es) =>
        if es.length ≠ tys.length then
          (s, .error (.mismatch v t (some "length mismatch")))
        else if ar then
          let (s', a) := alloc s (.vlist []); (s', .ok (some a))
        else (s, .ok none)
    | some (.vtuple es) =>
        if es.length ≠ tys.length then
          (s, .error (.mismatch v t (some "length mismatch")))
        else if ar then
          let (s', a) := alloc s (.vlist []); (s', .ok (some a))
        else (s, .ok none)
    | _ => (s, .error (.mismatch v t (some "allowed types are: (list, tuple)")))
  | .ckMap _ _ =>
    match s.heap v with
    | some (.vdict _) =>
        let (s', a) := alloc s (.vdict []); (s', .ok (some a))
    | _ => (s, .error (.mismatch v t (some "allowed types are: dict")))

/-- Elements of a sequence value, if the value is a list or tuple. -/
def seqElems (h : Nat → Option VObj) (v : Nat) : Option (List Nat) :=
  match h v with
  | some (.vlist es) => some es
  | some (.vtuple es) => some es
  | _ => none

section Engine

variable (rs : String → String → Bool) (tenv : Nat → Option TObj)

/-- Shape of the recursive checking continuation handed to the checkers
(the `recursive_check_type` lambda of `_customized_check`). -/
abbrev Recurse : Type := Nat → Nat → Session → Session × Except Err Nat

/-- The alternation loop (`for subtype in type_:` …): alternatives are
tried in order, `TypeMismatchException` continues to the next one, any
other exception propagates, exhaustion raises a mismatch naming the whole
alternation. -/
def checkAlts (recurse : Recurse) (v t : Nat) :
    List Nat → Session → Session × Except Err Nat
  | [], s => (s, .error (.mismatch v t none))
  | a :: rest, s =>
    match recurse v a s with
    | (s1, .ok r) => (s1, .ok r)
    | (s1, .error (.mismatch _ _ _)) => checkAlts recurse v t rest s1
    | (s1, .error e) => (s1, .error e)

/-- Element loop of `ListChecker.final_check_type` with an inner type:
`current_result.extend(recursive_check_type(o, subtype) for o in value)` —
checked and appended incrementally. -/
def elemsInto (recurse : Recurse) (shell st : Nat) :
    List Nat → Session → Session × Except Err Unit
  | [], s => (s, .ok ())
  | e :: rest, s =>
    match recurse e st s with
    | (s1, .error er) => (s1, .error er)
    | (s1, .ok r) => elemsInto recurse shell st rest (listAppend s1 shell r)

/-- Slot loop of `TupleChecker.final_check_type` without a shell:
`tuple(recursive_check_type(v, t) for v, t in zip(value, self.type_))`. -/
def slots (recurse : Recurse) :
    List (Nat × Nat) → Session → Session × Except Err (List Nat)
  | [], s => (s, .ok [])
  | (e, ty) :: rest, s =>
    match recurse e ty s with
    | (s1, .error er) => (s1, .error er)
    | (s1, .ok r) =>
      match slots recurse rest s1 with
      | (s2, .ok rl) => (s2, .ok (r :: rl))
      | (s2, .error er) => (s2, .error er)

/-- Slot loop of `TupleChecker.final_check_type` with a shell
(`allow_recursive`): results are extended into the mutable list shell. -/
def slotsInto (recurse : Recurse) (shell : Nat) :
    List (Nat × Nat) → Session → Session × Except Err Unit
  | [], s => (s, .ok ())
  | (e, ty) :: rest, s =>
    match recurse e ty s with
    | (s1, .error er) => (s1, .error er)
    | (s1, .ok r) => slotsInto recurse shell rest (listAppend s1 shell r)

/-- The `for k, v in value.items():` loop of `DictChecker.final_check_type`:
exact (required/optional) rules first, then regex rules in declaration
order, otherwise the entry passes through unchanged.  A non-string key with
regex rules present raises `TypeError` inside `re.search`. -/
def dictEntriesInto (recurse : Recurse) (shell : Nat)
    (reqs opts rgx : List (String × Nat)) :
    List (Nat × Nat) → Session → Session × Except Err Unit
  | [], s => (s, .ok ())
  | (ka, va) :: rest, s =>
    match s.heap ka with
    | some (.vstr ks) =>
      match mergedLookup reqs opts ks with
      | some tk =>
        match recurse va tk s with
        | (s1, .error er) => (s1, .error er)
        | (s1, .ok r) =>
            dictEntriesInto recurse shell reqs opts rgx rest (dictAppend s1 shell ka r)
      | none =>
        match regexFind rs rgx ks with
        | some tv =>
          match recurse va tv s with
          | (s1, .error er) => (s1, .error er)
          | (s1, .ok r) =>
              dictEntriesInto recurse shell reqs opts rgx rest (dictAppend s1 shell ka r)
        | none =>
            dictEntriesInto recurse shell reqs opts rgx rest (dictAppend s shell ka va)
    | _ =>
      if rgx.isEmpty then
        dictEntriesInto recurse shell reqs opts rgx rest (dictAppend s shell ka va)
      else (s, .error .typeErr)

/-- The entry loop of `MapChecker.final_check_type`: each key and value is
checked recursively; inserting an unhashable checked key raises
`TypeError`. -/
def mapEntriesInto (recurse : Recurse) (shell kt vt : Nat) :
    List (Nat × Nat) → Session → Session × Except Err Unit
  | [], s => (s, .ok ())
  | (ka, va) :: rest, s =>
    match recurse ka kt s with
    | (s1, .error er) => (s1, .error er)
    | (s1, .ok kr) =>
      match recurse va vt s1 with
      | (s2, .error er) => (s2, .error er)
      | (s2, .ok vr) =>
        if unhashableTop s2.heap kr then (s2, .error .typeErr)
        else mapEntriesInto recurse shell kt vt rest (dictAppend s2 shell kr vr)

/-- `final_check_type` of the composite checkers in the shell case
(`current_result` is the pre-created shell, mutated in place). -/
def final_shell (recurse : Recurse) (v t : Nat) (ck : Ck) (shell : Nat)
    (s : Session) : Session × Except Err Unit :=
  match ck with
  | .ckList inner _ =>
    match seqElems s.heap v with
    | some es =>
      match inner with
      | [] =>
          (match s.heap shell with
           | some (.vlist cur) => (writeH s shell (.vlist (cur ++ es)), .ok ())
           | _ => (s, .error .typeErr))
      | st :: _ => elemsInto recurse shell st es s
    | none => (s, .error .typeErr)
  | .ckDict entries =>
    match s.heap v with
    | some (.vdict ves) =>
      if entries.isEmpty then
        (match s.heap shell with
         | some (.vdict cur) => (writeH s shell (.vdict (cur ++ ves)), .ok ())
         | _ => (s, .error .typeErr))
      else
        match firstMissingReq s.heap ves (requiredKeys entries) with
        | some k => (s, .error (.mismatch v t (some (reqMsg k))))
        | none =>
            dictEntriesInto rs recurse shell (requiredKeys entries)
              (optionalKeys entries) (regexpKeys entries) ves s
    | _ => (s, .error .typeErr)
  | .ckTuple tys _ =>
    match seqElems s.heap v with
    | some es => slotsInto recurse shell (es.zip tys) s
    | none => (s, .error .typeErr)
  | .ckMap kt vt =>
    match s.heap v with
    | some (.vdict ves) => mapEntriesInto recurse shell kt vt ves s
    | _ => (s, .error .typeErr)

/-- `final_check_type` in the no-shell case: only reachable for
`ListChecker` on a non-sequence value (auto-wrap) and `TupleChecker`
without `allow_recursive` (fresh immutable tuple). -/
def final_noshell (recurse : Recurse) (v : Nat) (ck : Ck) (s : Session) :
    Session × Except Err Nat :=
  match ck with
  | .ckList inner _ =>
    match inner with
    | [] => let (s1, a) := alloc s (.vlist [v]); (s1, .ok a)
    | st :: _ =>
      match recurse v st s with
      | (s1, .error e) => (s1, .error e)
      | (s1, .ok r) => let (s2, a) := alloc s1 (.vlist [r]); (s2, .ok a)
  | .ckTuple tys _ =>
    match seqElems s.heap v with
    | some es =>
      match slots recurse (es.zip tys) s with
      | (s1, .error e) => (s1, .error e)
      | (s1, .ok rsl) => let (s2, a) := alloc s1 (.vtuple rsl); (s2, .ok a)
    | none => (s, .error .typeErr)
  | _ => (s, .error .typeErr)

/-- `_customized_check(checker)`: the loop guard, `pre_check_type`, and the
two second-phase strategies — no shell (guarded by `list_loop`) or shell
(registered in `current_check`, run against a snapshot of the succeeded
table that is merged back only on success, with a fresh `list_loop`). -/
def customizedCheck (recurse : Recurse) (v t : Nat) (ck : Ck) (s : Session) :
    Session × Except Err Nat :=
  if s.listLoop (v, t) then (s, .error (.mismatch v t none))
  else
    match pre_check_type ck v t s with
    | (s1, .error e) => (s1, .error e)
    | (s1, .ok none) =>
        let s2 := { s1 with listLoop := updB s1.listLoop (v, t) true }
        match final_noshell recurse v ck s2 with
        | (s3, res) => ({ s3 with listLoop := updB s3.listLoop (v, t) false }, res)
    | (s1, .ok (some shell)) =>
        let s2 := { s1 with
            current := updF s1.current (v, t) (some shell),
            listLoop := fun _ => false }
        match final_shell rs recurse v t ck shell s2 with
        | (s3, .error e) =>
            ({ s3 with succeeded := s1.succeeded, listLoop := s1.listLoop }, .error e)
        | (s3, .ok _) => ({ s3 with listLoop := s1.listLoop }, .ok shell)

/-- The dispatch on descriptor shape inside the `try:` block of
`_check_type_inner` (lines 1183-1235 of the source). -/
def dispatch (recurse : Recurse) (v t : Nat) (s : Session) :
    Session × Except Err Nat :=
  match tenv t with
  | none => (s, .error (.invalid t (some "Unrecognized type")))
  | some .tNone =>
      if s.heap v = some .vnone then (s, .ok v)
      else (s, .error (.mismatch v t none))
  | some .tInt =>
      match s.heap v with
      | some (.vint _) => (s, .ok v)
      | _ => (s, .error (.mismatch v t none))
  | some .tStr =>
      match s.heap v with
      | some (.vstr _) => (s, .ok v)
      | _ => (s, .error (.mismatch v t none))
  | some .tBool =>
      match s.heap v with
      | some (.vbool _) => (s, .ok v)
      | _ => (s, .error (.mismatch v t none))
  | some (.tAlt []) =>
      if s.heap v = some .vnone then (s, .error (.mismatch v t none))
      else (s, .ok v)
  | some (.tAlt (a :: rest)) => checkAlts recurse v t (a :: rest) s
  | some (.tList inner strict) =>
      if inner.length > 1 then
        (s, .error (.invalid t (some "list must contain 0 or 1 valid inner type")))
      else customizedCheck rs recurse v t (.ckList inner strict) s
  | some (.tDict entries) => customizedCheck rs recurse v t (.ckDict entries) s
  | some (.tTuple tys ar) => customizedCheck rs recurse v t (.ckTuple tys ar) s
  | some (.tMap kt vt) => customizedCheck rs recurse v t (.ckMap kt vt) s

/-- The success/failure handler of `_check_type_inner` around the dispatch:
an exception is recorded in `failed_check` and the `current_check` entry
dropped; a success whose pair is registered in `current_check` (shell case)
moves it into `succeded_check`. -/
def handler (v t : Nat) (s : Session) (out : Session × Except Err Nat) :
    Session × Except Err Nat :=
  match out with
  | (s1, .error e) =>
      ({ s1 with
          failed := updF s1.failed (v, t) (some e),
          current := updF s1.current (v, t) none }, .error e)
  | (s1, .ok r) =>
      match s1.current (v, t) with
      | some _ =>
          ({ s1 with
              current := updF s1.current (v, t) none,
              succeeded := updF s1.succeeded (v, t) (some r) }, .ok r)
      | none => (s1, .ok r)

/-- The engine `_check_type_inner(value, type_, _recursive_check)`:
session-table lookups, then dispatch, then the success/failure handler
that maintains `failed_check`, `current_check` and `succeded_check`.
Fuel is peeled at every recursive engine call. -/
def check_type_inner : Nat → Nat → Nat → Session → Session × Except Err Nat
  | 0, _, _, s => (s, .error .fuelOut)
  | f + 1, v, t, s =>
    match s.succeeded (v, t) with
    | some r => (s, .ok r)
    | none =>
      match s.failed (v, t) with
      | some e => (s, .error e)
      | none =>
        match s.current (v, t) with
        | some r => (s, .ok r)
        | none => handler v t s (dispatch rs tenv (check_type_inner f) v t s)

/-- The session at the start of a top-level `check_type` call: all four
tables empty, heap given by the caller. -/
def initSession (h : Nat → Option VObj) (nA : Nat) : Session :=
  ⟨h, nA, fun _ => none, fun _ => none, fun _ => none, fun _ => false⟩

/-- The public entry point `check_type(value, type)`: runs the engine in a
fresh session. -/
def check_type (fuel : Nat) (h : Nat → Option VObj) (nA : Nat) (v t : Nat) :
    Session × Except Err Nat :=
  check_type_inner rs tenv fuel v t (initSession h nA)

end Engine

/-! ### Frame and monotonicity properties of a session step

`ExtN n s s'` says that going from session `s` to session `s'` the
allocation frontier only grows, the heap below address `n` is untouched,
and no `failed_check` entry is dropped.  The engine only ever writes to
addresses it allocated itself, so every run satisfies this for any
baseline `n` at or below the initial frontier. -/

def ExtN (n : Nat) (s s' : Session) : Prop :=
  s.nextAddr ≤ s'.nextAddr ∧ (∀ a, a < n → s'.heap a = s.heap a) ∧
    (∀ k, (s.failed k).isSome → (s'.failed k).isSome)

theorem extN_refl {n : Nat} {s : Session} : ExtN n s s :=
  ⟨le_refl _, fun _ _ => Eq.refl _, fun _ h => h⟩

theorem extN_trans {n : Nat} {s1 s2 s3 : Session}
    (h1 : ExtN n s1 s2) (h2 : ExtN n s2 s3) : ExtN n s1 s3 :=
  ⟨le_trans h1.1 h2.1, fun a ha => (h2.2.1 a ha).trans (h1.2.1 a ha),
    fun k hk => h2.2.2 k (h1.2.2 k hk)⟩

theorem extN_alloc {n : Nat} {s : Session} {o : VObj} (hn : n ≤ s.nextAddr) :
    ExtN n s (alloc s o).1 := by
  refine ⟨by simp [alloc], fun a ha => ?_, fun k hk => hk⟩
  simp only [alloc]
  have : a ≠ s.nextAddr := by omega
  simp [this]

theorem extN_writeH {n : Nat} {s : Session} {a : Nat} {o : VObj}
    (ha : n ≤ a) : ExtN n s (writeH s a o) := by
  refine ⟨le_refl _, fun a' ha' => ?_, fun k hk => hk⟩
  simp only [writeH]
  have : a' ≠ a := by omega
  simp [this]

theorem extN_listAppend {n : Nat} {s : Session} {shell r : Nat}
    (hs : n ≤ shell) : ExtN n s (listAppend s shell r) := by
  unfold listAppend
  split
  · exact extN_writeH hs
  · exact extN_refl

theorem extN_dictAppend {n : Nat} {s : Session} {shell ka r : Nat}
    (hs : n ≤ shell) : ExtN n s (dictAppend s shell ka r) := by
  unfold dictAppend
  split
  · exact extN_writeH hs
  · exact extN_refl

theorem extN_tables {n : Nat} {s s' : Session} (hh : s'.heap = s.heap)
    (hn : s'.nextAddr = s.nextAddr) (hf : s'.failed = s.failed) :
    ExtN n s s' :=
  ⟨le_of_eq hn.symm, fun a _ => congrFun hh a, fun k hk => by rw [hf]; exact hk⟩

/-- Frame property of a recursive continuation. -/
def RecFrame (recurse : Recurse) : Prop :=
  ∀ v t s n, n ≤ s.nextAddr → ExtN n s (recurse v t s).1

theorem extN_pre {ck : Ck} {v t : Nat} {s : Session} {n : Nat}
    (hn : n ≤ s.nextAddr) : ExtN n s (pre_check_type ck v t s).1 := by
  unfold pre_check_type
  cases ck <;> dsimp only <;> (repeat' split) <;>
    first
      | exact extN_refl
      | exact extN_alloc hn

theorem pre_shell_fresh {ck : Ck} {v t : Nat} {s s1 : Session} {shell : Nat}
    (h : pre_check_type ck v t s = (s1, .ok (some shell))) :
    shell = s.nextAddr ∧ s1.nextAddr = s.nextAddr + 1 := by
  unfold pre_check_type at h
  cases ck <;> dsimp only at h <;>
    (repeat' split at h) <;>
    simp only [alloc, Prod.mk.injEq] at h <;>
    first
      | (obtain ⟨h1, h2⟩ := h
         cases h2
         exact ⟨rfl, by rw [← h1]⟩)
      | cases h.2
      | cases h

theorem extN_checkAlts {recurse : Recurse} (hrec : RecFrame recurse)
    {v t : Nat} :
    ∀ (alts : List Nat) (s : Session) (n : Nat), n ≤ s.nextAddr →
      ExtN n s (checkAlts recurse v t alts s).1 := by
  intro alts
  induction alts with
  | nil => intro s n hn; exact extN_refl
  | cons a rest ih =>
    intro s n hn
    simp only [checkAlts]
    have h1 := hrec v a s n hn
    rcases hr : recurse v a s with ⟨s1, res⟩
    rw [hr] at h1
    cases res with
    | ok r => exact h1
    | error e =>
      cases e with
      | mismatch vm tm im =>
          exact extN_trans h1 (ih s1 n (le_trans hn h1.1))
      | invalid t' i => exact h1
      | typeErr => exact h1
      | fuelOut => exact h1

theorem extN_elemsInto {recurse : Recurse} (hrec : RecFrame recurse)
    {shell st : Nat} :
    ∀ (es : List Nat) (s : Session) (n : Nat), n ≤ s.nextAddr → n ≤ shell →
      ExtN n s (elemsInto recurse shell st es s).1 := by
  intro es
  induction es with
  | nil => intro s n hn hs; exact extN_refl
  | cons e rest ih =>
    intro s n hn hs
    simp only [elemsInto]
    have h1 := hrec e st s n hn
    rcases hr : recurse e st s with ⟨s1, res⟩
    rw [hr] at h1
    cases res with
    | error er => exact h1
    | ok r =>
      have h2 : ExtN n s1 (listAppend s1 shell r) := extN_listAppend hs
      have h3 := ih (listAppend s1 shell r) n (le_trans (le_trans hn h1.1) h2.1) hs
      exact extN_trans (extN_trans h1 h2) h3

theorem extN_slots {recurse : Recurse} (hrec : RecFrame recurse) :
    ∀ (l : List (Nat × Nat)) (s : Session) (n : Nat), n ≤ s.nextAddr →
      ExtN n s (slots recurse l s).1 := by
  intro l
  induction l with
  | nil => intro s n hn; exact extN_refl
  | cons p rest ih =>
    intro s n hn
    rcases p with ⟨e, ty⟩
    simp only [slots]
    have h1 := hrec e ty s n hn
    rcases hr : recurse e ty s with ⟨s1, res⟩
    rw [hr] at h1
    cases res with
    | error er => exact h1
    | ok r =>
      dsimp only
      have h2 := ih s1 n (le_trans hn h1.1)
      rcases hr2 : slots recurse rest s1 with ⟨s2, res2⟩
      rw [hr2] at h2
      cases res2 with
      | ok rl => exact extN_trans h1 h2
      | error er => exact extN_trans h1 h2

theorem extN_slotsInto {recurse : Recurse} (hrec : RecFrame recurse)
    {shell : Nat} :
    ∀ (l : List (Nat × Nat)) (s : Session) (n : Nat), n ≤ s.nextAddr → n ≤ shell →
      ExtN n s (slotsInto recurse shell l s).1 := by
  intro l
  induction l with
  | nil => intro s n hn hs; exact extN_refl
  | cons p rest ih =>
    intro s n hn hs
    rcases p with ⟨e, ty⟩
    simp only [slotsInto]
    have h1 := hrec e ty s n hn
    rcases hr : recurse e ty s with ⟨s1, res⟩
    rw [hr] at h1
    cases res with
    | error er => exact h1
    | ok r =>
      have h2 : ExtN n s1 (listAppend s1 shell r) := extN_listAppend hs
      have h3 := ih (listAppend s1 shell r) n (le_trans (le_trans hn h1.1) h2.1) hs
      exact extN_trans (extN_trans h1 h2) h3

theorem extN_dictEntriesInto {rs : String → String → Bool} {recurse : Recurse}
    (hrec : RecFrame recurse) {shell : Nat} {reqs opts rgx : List (String × Nat)} :
    ∀ (ves : List (Nat × Nat)) (s : Session) (n : Nat), n ≤ s.nextAddr → n ≤ shell →
      ExtN n s (dictEntriesInto rs recurse shell reqs opts rgx ves s).1 := by
  intro ves
  induction ves with
  | nil => intro s n hn hs; exact extN_refl
  | cons p rest ih =>
    intro s n hn hs
    rcases p with ⟨ka, va⟩
    simp only [dictEntriesInto]
    cases hk : s.heap ka with
    | none =>
      dsimp only
      split
      · have h2 : ExtN n s (dictAppend s shell ka va) := extN_dictAppend hs
        exact extN_trans h2 (ih _ n (le_trans hn h2.1) hs)
      · exact extN_refl
    | some o =>
      cases o with
      | vstr ks =>
        dsimp only
        cases hm : mergedLookup reqs opts ks with
        | some tk =>
          dsimp only
          have h1 := hrec va tk s n hn
          rcases hr : recurse va tk s with ⟨s1, res⟩
          rw [hr] at h1
          cases res with
          | error er => exact h1
          | ok r =>
            have h2 : ExtN n s1 (dictAppend s1 shell ka r) := extN_dictAppend hs
            exact extN_trans (extN_trans h1 h2)
              (ih _ n (le_trans (le_trans hn h1.1) h2.1) hs)
        | none =>
          dsimp only
          cases hg : regexFind rs rgx ks with
          | some tv =>
            dsimp only
            have h1 := hrec va tv s n hn
            rcases hr : recurse va tv s with ⟨s1, res⟩
            rw [hr] at h1
            cases res with
            | error er => exact h1
            | ok r =>
              have h2 : ExtN n s1 (dictAppend s1 shell ka r) := extN_dictAppend hs
              exact extN_trans (extN_trans h1 h2)
                (ih _ n (le_trans (le_trans hn h1.1) h2.1) hs)
          | none =>
            dsimp only
            have h2 : ExtN n s (dictAppend s shell ka va) := extN_dictAppend hs
            exact extN_trans h2 (ih _ n (le_trans hn h2.1) hs)
      | vnone =>
        dsimp only
        split
        · have h2 : ExtN n s (dictAppend s shell ka va) := extN_dictAppend hs
          exact extN_trans h2 (ih _ n (le_trans hn h2.1) hs)
        · exact extN_refl
      | vbool b =>
        dsimp only
        split
        · have h2 : ExtN n s (dictAppend s shell ka va) := extN_dictAppend hs
          exact extN_trans h2 (ih _ n (le_trans hn h2.1) hs)
        · exact extN_refl
      | vint m =>
        dsimp only
        split
        · have h2 : ExtN n s (dictAppend s shell ka va) := extN_dictAppend hs
          exact extN_trans h2 (ih _ n (le_trans hn h2.1) hs)
        · exact extN_refl
      | vlist es =>
        dsimp only
        split
        · have h2 : ExtN n s (dictAppend s shell ka va) := extN_dictAppend hs
          exact extN_trans h2 (ih _ n (le_trans hn h2.1) hs)
        · exact extN_refl
      | vtuple es =>
        dsimp only
        split
        · have h2 : ExtN n s (dictAppend s shell ka va) := extN_dictAppend hs
          exact extN_trans h2 (ih _ n (le_trans hn h2.1) hs)
        · exact extN_refl
      | vdict es =>
        dsimp only
        split
        · have h2 : ExtN n s (dictAppend s shell ka va) := extN_dictAppend hs
          exact extN_trans h2 (ih _ n (le_trans hn h2.1) hs)
        · exact extN_refl

theorem extN_mapEntriesInto {recurse : Recurse} (hrec : RecFrame recurse)
    {shell kt vt : Nat} :
    ∀ (ves : List (Nat × Nat)) (s : Session) (n : Nat), n ≤ s.nextAddr → n ≤ shell →
      ExtN n s (mapEntriesInto recurse shell kt vt ves s).1 := by
  intro ves
  induction ves with
  | nil => intro s n hn hs; exact extN_refl
  | cons p rest ih =>
    intro s n hn hs
    rcases p with ⟨ka, va⟩
    simp only [mapEntriesInto]
    have h1 := hrec ka kt s n hn
    rcases hr : recurse ka kt s with ⟨s1, res⟩
    rw [hr] at h1
    cases res with
    | error er => exact h1
    | ok kr =>
      dsimp only
      have h2 := hrec va vt s1 n (le_trans hn h1.1)
      rcases hr2 : recurse va vt s1 with ⟨s2, res2⟩
      rw [hr2] at h2
      cases res2 with
      | error er => exact extN_trans h1 h2
      | ok vr =>
        dsimp only
        split
        · exact extN_trans h1 h2
        · have h3 : ExtN n s2 (dictAppend s2 shell kr vr) := extN_dictAppend hs
          exact extN_trans (extN_trans (extN_trans h1 h2) h3)
            (ih _ n (le_trans (le_trans (le_trans hn h1.1) h2.1) h3.1) hs)

theorem extN_final_shell {rs : String → String → Bool} {recurse : Recurse}
    (hrec : RecFrame recurse) {v t : Nat} {ck : Ck} {shell : Nat}
    {s : Session} {n : Nat} (hn : n ≤ s.nextAddr) (hs : n ≤ shell) :
    ExtN n s (final_shell rs recurse v t ck shell s).1 := by
  unfold final_shell
  cases ck with
  | ckList inner strict =>
    dsimp only
    cases seqElems s.heap v with
    | none => exact extN_refl
    | some es =>
      dsimp only
      cases inner with
      | nil =>
        dsimp only
        split
        · exact extN_writeH hs
        · exact extN_refl
      | cons st rest => exact extN_elemsInto hrec es s n hn hs
  | ckDict entries =>
    dsimp only
    cases hv : s.heap v with
    | none => exact extN_refl
    | some o =>
      cases o <;> dsimp only <;> try exact extN_refl
      split
      · split
        · exact extN_writeH hs
        · exact extN_refl
      · split
        · exact extN_refl
        · exact extN_dictEntriesInto hrec _ s n hn hs
  | ckTuple tys ar =>
    dsimp only
    cases seqElems s.heap v with
    | none => exact extN_refl
    | some es => exact extN_slotsInto hrec _ s n hn hs
  | ckMap kt vt =>
    dsimp only
    cases hv : s.heap v with
    | none => exact extN_refl
    | some o =>
      cases o <;> dsimp only <;> try exact extN_refl
      exact extN_mapEntriesInto hrec _ s n hn hs

theorem extN_final_noshell {recurse : Recurse} (hrec : RecFrame recurse)
    {v : Nat} {ck : Ck} {s : Session} {n : Nat} (hn : n ≤ s.nextAddr) :
    ExtN n s (final_noshell recurse v ck s).1 := by
  unfold final_noshell
  cases ck with
  | ckList inner strict =>
    dsimp only
    cases inner with
    | nil => exact extN_alloc hn
    | cons st rest =>
      dsimp only
      have h1 := hrec v st s n hn
      rcases hr : recurse v st s with ⟨s1, res⟩
      rw [hr] at h1
      cases res with
      | error e => exact h1
      | ok r =>
        exact extN_trans h1 (extN_alloc (le_trans hn h1.1))
  | ckTuple tys ar =>
    dsimp only
    cases seqElems s.heap v with
    | none => exact extN_refl
    | some es =>
      dsimp only
      have h1 := extN_slots hrec (es.zip tys) s n hn
      rcases hr : slots recurse (es.zip tys) s with ⟨s1, res⟩
      rw [hr] at h1
      cases res with
      | error e => exact h1
      | ok rl => exact extN_trans h1 (extN_alloc (le_trans hn h1.1))
  | ckDict entries => exact extN_refl
  | ckMap kt vt => exact extN_refl

theorem extN_customizedCheck {rs : String → String → Bool} {recurse : Recurse}
    (hrec : RecFrame recurse) {v t : Nat} {ck : Ck} {s : Session} {n : Nat}
    (hn : n ≤ s.nextAddr) :
    ExtN n s (customizedCheck rs recurse v t ck s).1 := by
  unfold customizedCheck
  split
  · exact extN_refl
  · have hp : ExtN n s (pre_check_type ck v t s).1 := extN_pre hn
    rcases hpre : pre_check_type ck v t s with ⟨s1, pres⟩
    rw [hpre] at hp
    cases pres with
    | error e => exact hp
    | ok sh =>
      cases sh with
      | none =>
        dsimp only
        have h2 : ExtN n s1
            { s1 with listLoop := updB s1.listLoop (v, t) true } :=
          extN_tables rfl rfl rfl
        have h3 : ExtN n { s1 with listLoop := updB s1.listLoop (v, t) true }
            (final_noshell recurse v ck
              { s1 with listLoop := updB s1.listLoop (v, t) true }).1 :=
          extN_final_noshell hrec (le_trans (le_trans hn hp.1) h2.1)
        rcases hfn : final_noshell recurse v ck
            { s1 with listLoop := updB s1.listLoop (v, t) true } with ⟨s3, res⟩
        rw [hfn] at h3
        exact extN_trans (extN_trans hp (extN_trans h2 h3)) (extN_tables rfl rfl rfl)
      | some shell =>
        dsimp only
        obtain ⟨hsh, hna⟩ := pre_shell_fresh hpre
        have hshn : n ≤ shell := by omega
        have h2 : ExtN n s1
            { s1 with current := updF s1.current (v, t) (some shell),
                      listLoop := fun _ => false } :=
          extN_tables rfl rfl rfl
        have h3 : ExtN n
            { s1 with current := updF s1.current (v, t) (some shell),
                      listLoop := fun _ => false }
            (final_shell rs recurse v t ck shell
              { s1 with current := updF s1.current (v, t) (some shell),
                        listLoop := fun _ => false }).1 :=
          extN_final_shell hrec (le_trans (le_trans hn hp.1) h2.1) hshn
        rcases hfs : final_shell rs recurse v t ck shell
            { s1 with current := updF s1.current (v, t) (some shell),
                      listLoop := fun _ => false } with ⟨s3, res⟩
        rw [hfs] at h3
        cases res with
        | error e =>
            exact extN_trans (extN_trans hp (extN_trans h2 h3))
              (extN_tables rfl rfl rfl)
        | ok u =>
            exact extN_trans (extN_trans hp (extN_trans h2 h3))
              (extN_tables rfl rfl rfl)

theorem extN_dispatch {rs : String → String → Bool} {tenv : Nat → Option TObj}
    {recurse : Recurse} (hrec : RecFrame recurse) {v t : Nat} {s : Session}
    {n : Nat} (hn : n ≤ s.nextAddr) :
    ExtN n s (dispatch rs tenv recurse v t s).1 := by
  unfold dispatch
  cases tenv t with
  | none => exact extN_refl
  | some tobj =>
    cases tobj with
    | tNone =>
      dsimp only
      split
      · exact extN_refl
      · exact extN_refl
    | tInt =>
      dsimp only
      cases s.heap v with
      | none => exact extN_refl
      | some o => cases o <;> exact extN_refl
    | tStr =>
      dsimp only
      cases s.heap v with
      | none => exact extN_refl
      | some o => cases o <;> exact extN_refl
    | tBool =>
      dsimp only
      cases s.heap v with
      | none => exact extN_refl
      | some o => cases o <;> exact extN_refl
    | tAlt alts =>
      cases alts with
      | nil =>
        dsimp only
        split
        · exact extN_refl
        · exact extN_refl
      | cons a rest => exact extN_checkAlts hrec _ s n hn
    | tList inner strict =>
      dsimp only
      split
      · exact extN_refl
      · exact extN_customizedCheck hrec hn
    | tDict entries => exact extN_customizedCheck hrec hn
    | tTuple tys ar => exact extN_customizedCheck hrec hn
    | tMap kt vt => exact extN_customizedCheck hrec hn

theorem updF_isSome {α : Type} {f : Nat × Nat → Option α} {k k' : Nat × Nat}
    {e : α} (h : (f k').isSome) : (updF f k (some e) k').isSome := by
  unfold updF
  split
  · rfl
  · exact h

theorem extN_handler {v t : Nat} {n : Nat} {s1 : Session} {res : Except Err Nat} :
    ExtN n s1 (handler v t s1 (s1, res)).1 := by
  unfold handler
  cases res with
  | error e =>
    dsimp only
    exact ⟨le_refl _, fun a _ => Eq.refl _, fun k hk => updF_isSome hk⟩
  | ok r =>
    dsimp only
    cases s1.current (v, t) with
    | some u => exact extN_tables rfl rfl rfl
    | none => exact extN_refl

/-- Every engine run only grows the allocation frontier, leaves the heap
below the initial frontier untouched, and never drops a `failed_check`
entry. -/
theorem extN_check_type_inner (rs : String → String → Bool)
    (tenv : Nat → Option TObj) :
    ∀ (f : Nat) (v t : Nat) (s : Session) (n : Nat), n ≤ s.nextAddr →
      ExtN n s (check_type_inner rs tenv f v t s).1 := by
  intro f
  induction f with
  | zero => intro v t s n hn; exact extN_refl
  | succ f ih =>
    intro v t s n hn
    simp only [check_type_inner]
    cases s.succeeded (v, t) with
    | some r => exact extN_refl
    | none =>
      dsimp only
      cases s.failed (v, t) with
      | some e => exact extN_refl
      | none =>
        dsimp only
        cases s.current (v, t) with
        | some r => exact extN_refl
        | none =>
          dsimp only
          have hd : ExtN n s
              (dispatch rs tenv (check_type_inner rs tenv f) v t s).1 :=
            extN_dispatch (fun v t s n hn => ih v t s n hn) hn
          rcases hdp : dispatch rs tenv (check_type_inner rs tenv f) v t s with ⟨s', res⟩
          rw [hdp] at hd
          have hh : ExtN n s' (handler v t s' (s', res)).1 := extN_handler
          exact extN_trans hd hh

/-! ### Restoration of `current_check` and `list_loop`

Every engine run restores the `current_check` and `list_loop` tables to
exactly their state at the start of the run: each `_customized_check`
removes its own `list_loop` entry in its `finally:` block and the engine's
handler removes the pair's `current_check` entry on both success and
failure. -/

/-- Table restoration property of a recursive continuation. -/
def RecTab (recurse : Recurse) : Prop :=
  ∀ v t s, (recurse v t s).1.current = s.current ∧
    (recurse v t s).1.listLoop = s.listLoop

theorem tab_listAppend {s : Session} {shell r : Nat} :
    (listAppend s shell r).current = s.current ∧
      (listAppend s shell r).listLoop = s.listLoop := by
  unfold listAppend
  split
  · exact ⟨rfl, rfl⟩
  · exact ⟨rfl, rfl⟩

theorem tab_dictAppend {s : Session} {shell ka r : Nat} :
    (dictAppend s shell ka r).current = s.current ∧
      (dictAppend s shell ka r).listLoop = s.listLoop := by
  unfold dictAppend
  split
  · exact ⟨rfl, rfl⟩
  · exact ⟨rfl, rfl⟩

theorem tab_pre {ck : Ck} {v t : Nat} {s : Session} :
    (pre_check_type ck v t s).1.current = s.current ∧
      (pre_check_type ck v t s).1.listLoop = s.listLoop := by
  unfold pre_check_type
  cases ck <;> dsimp only <;> (repeat' split) <;> exact ⟨rfl, rfl⟩

theorem tab_checkAlts {recurse : Recurse} (hrec : RecTab recurse) {v t : Nat} :
    ∀ (alts : List Nat) (s : Session),
      (checkAlts recurse v t alts s).1.current = s.current ∧
        (checkAlts recurse v t alts s).1.listLoop = s.listLoop := by
  intro alts
  induction alts with
  | nil => intro s; exact ⟨rfl, rfl⟩
  | cons a rest ih =>
    intro s
    simp only [checkAlts]
    have h1 := hrec v a s
    rcases hr : recurse v a s with ⟨s1, res⟩
    rw [hr] at h1
    cases res with
    | ok r => exact h1
    | error e =>
      cases e with
      | mismatch vm tm im =>
        have h2 := ih s1
        exact ⟨h2.1.trans h1.1, h2.2.trans h1.2⟩
      | invalid t' i => exact h1
      | typeErr => exact h1
      | fuelOut => exact h1

theorem tab_elemsInto {recurse : Recurse} (hrec : RecTab recurse)
    {shell st : Nat} :
    ∀ (es : List Nat) (s : Session),
      (elemsInto recurse shell st es s).1.current = s.current ∧
        (elemsInto recurse shell st es s).1.listLoop = s.listLoop := by
  intro es
  induction es with
  | nil => intro s; exact ⟨rfl, rfl⟩
  | cons e rest ih =>
    intro s
    simp only [elemsInto]
    have h1 := hrec e st s
    rcases hr : recurse e st s with ⟨s1, res⟩
    rw [hr] at h1
    cases res with
    | error er => exact h1
    | ok r =>
      have h2 := ih (listAppend s1 shell r)
      have h3 : (listAppend s1 shell r).current = s1.current ∧
          (listAppend s1 shell r).listLoop = s1.listLoop := tab_listAppend
      exact ⟨(h2.1.trans h3.1).trans h1.1, (h2.2.trans h3.2).trans h1.2⟩

theorem tab_slots {recurse : Recurse} (hrec : RecTab recurse) :
    ∀ (l : List (Nat × Nat)) (s : Session),
      (slots recurse l s).1.current = s.current ∧
        (slots recurse l s).1.listLoop = s.listLoop := by
  intro l
  induction l with
  | nil => intro s; exact ⟨rfl, rfl⟩
  | cons p rest ih =>
    intro s
    rcases p with ⟨e, ty⟩
    simp only [slots]
    have h1 := hrec e ty s
    rcases hr : recurse e ty s with ⟨s1, res⟩
    rw [hr] at h1
    cases res with
    | error er => exact h1
    | ok r =>
      dsimp only
      have h2 := ih s1
      rcases hr2 : slots recurse rest s1 with ⟨s2, res2⟩
      rw [hr2] at h2
      cases res2 with
      | ok rl => exact ⟨h2.1.trans h1.1, h2.2.trans h1.2⟩
      | error er => exact ⟨h2.1.trans h1.1, h2.2.trans h1.2⟩

theorem tab_slotsInto {recurse : Recurse} (hrec : RecTab recurse) {shell : Nat} :
    ∀ (l : List (Nat × Nat)) (s : Session),
      (slotsInto recurse shell l s).1.current = s.current ∧
        (slotsInto recurse shell l s).1.listLoop = s.listLoop := by
  intro l
  induction l with
  | nil => intro s; exact ⟨rfl, rfl⟩
  | cons p rest ih =>
    intro s
    rcases p with ⟨e, ty⟩
    simp only [slotsInto]
    have h1 := hrec e ty s
    rcases hr : recurse e ty s with ⟨s1, res⟩
    rw [hr] at h1
    cases res with
    | error er => exact h1
    | ok r =>
      have h2 := ih (listAppend s1 shell r)
      have h3 : (listAppend s1 shell r).current = s1.current ∧
          (listAppend s1 shell r).listLoop = s1.listLoop := tab_listAppend
      exact ⟨(h2.1.trans h3.1).trans h1.1, (h2.2.trans h3.2).trans h1.2⟩

theorem tab_dictEntriesInto {rs : String → String → Bool} {recurse : Recurse}
    (hrec : RecTab recurse) {shell : Nat} {reqs opts rgx : List (String × Nat)} :
    ∀ (ves : List (Nat × Nat)) (s : Session),
      (dictEntriesInto rs recurse shell reqs opts rgx ves s).1.current = s.current ∧
        (dictEntriesInto rs recurse shell reqs opts rgx ves s).1.listLoop = s.listLoop := by
  intro ves
  induction ves with
  | nil => intro s; exact ⟨rfl, rfl⟩
  | cons p rest ih =>
    intro s
    rcases p with ⟨ka, va⟩
    simp only [dictEntriesInto]
    have hpass : ∀ s' : Session,
        (dictEntriesInto rs recurse shell reqs opts rgx rest
            (dictAppend s' shell ka va)).1.current = s'.current ∧
          (dictEntriesInto rs recurse shell reqs opts rgx rest
            (dictAppend s' shell ka va)).1.listLoop = s'.listLoop := by
      intro s'
      have h2 := ih (dictAppend s' shell ka va)
      have h3 : (dictAppend s' shell ka va).current = s'.current ∧
          (dictAppend s' shell ka va).listLoop = s'.listLoop := tab_dictAppend
      exact ⟨h2.1.trans h3.1, h2.2.trans h3.2⟩
    have hcov : ∀ (tk : Nat),
        ((match recurse va tk s with
          | (s1, .error er) => (s1, .error er)
          | (s1, .ok r) =>
              dictEntriesInto rs recurse shell reqs opts rgx rest
                (dictAppend s1 shell ka r)) : Session × Except Err Unit).1.current
            = s.current ∧
        ((match recurse va tk s with
          | (s1, .error er) => (s1, .error er)
          | (s1, .ok r) =>
              dictEntriesInto rs recurse shell reqs opts rgx rest
                (dictAppend s1 shell ka r)) : Session × Except Err Unit).1.listLoop
            = s.listLoop := by
      intro tk
      have h1 := hrec va tk s
      rcases hr : recurse va tk s with ⟨s1, res⟩
      rw [hr] at h1
      cases res with
      | error er => exact h1
      | ok r =>
        have h2 := ih (dictAppend s1 shell ka r)
        have h3 : (dictAppend s1 shell ka r).current = s1.current ∧
            (dictAppend s1 shell ka r).listLoop = s1.listLoop := tab_dictAppend
        exact ⟨(h2.1.trans h3.1).trans h1.1, (h2.2.trans h3.2).trans h1.2⟩
    cases hk : s.heap ka with
    | none =>
      dsimp only
      split
      · exact hpass s
      · exact ⟨rfl, rfl⟩
    | some o =>
      cases o with
      | vstr ks =>
        dsimp only
        cases hm : mergedLookup reqs opts ks with
        | some tk => exact hcov tk
        | none =>
          dsimp only
          cases hg : regexFind rs rgx ks with
          | some tv => exact hcov tv
          | none => exact hpass s
      | vnone =>
        dsimp only
        split
        · exact hpass s
        · exact ⟨rfl, rfl⟩
      | vbool b =>
        dsimp only
        split
        · exact hpass s
        · exact ⟨rfl, rfl⟩
      | vint m =>
        dsimp only
        split
        · exact hpass s
        · exact ⟨rfl, rfl⟩
      | vlist es =>
        dsimp only
        split
        · exact hpass s
        · exact ⟨rfl, rfl⟩
      | vtuple es =>
        dsimp only
        split
        · exact hpass s
        · exact ⟨rfl, rfl⟩
      | vdict es =>
        dsimp only
        split
        · exact hpass s
        · exact ⟨rfl, rfl⟩

theorem tab_mapEntriesInto {recurse : Recurse} (hrec : RecTab recurse)
    {shell kt vt : Nat} :
    ∀ (ves : List (Nat × Nat)) (s : Session),
      (mapEntriesInto recurse shell kt vt ves s).1.current = s.current ∧
        (mapEntriesInto recurse shell kt vt ves s).1.listLoop = s.listLoop := by
  intro ves
  induction ves with
  | nil => intro s; exact ⟨rfl, rfl⟩
  | cons p rest ih =>
    intro s
    rcases p with ⟨ka, va⟩
    simp only [mapEntriesInto]
    have h1 := hrec ka kt s
    rcases hr : recurse ka kt s with ⟨s1, res⟩
    rw [hr] at h1
    cases res with
    | error er => exact h1
    | ok kr =>
      dsimp only
      have h2 := hrec va vt s1
      rcases hr2 : recurse va vt s1 with ⟨s2, res2⟩
      rw [hr2] at h2
      cases res2 with
      | error er => exact ⟨h2.1.trans h1.1, h2.2.trans h1.2⟩
      | ok vr =>
        dsimp only
        split
        · exact ⟨h2.1.trans h1.1, h2.2.trans h1.2⟩
        · have h3 := ih (dictAppend s2 shell kr vr)
          have h4 : (dictAppend s2 shell kr vr).current = s2.current ∧
              (dictAppend s2 shell kr vr).listLoop = s2.listLoop :=
            tab_dictAppend
          exact ⟨((h3.1.trans h4.1).trans h2.1).trans h1.1,
            ((h3.2.trans h4.2).trans h2.2).trans h1.2⟩

theorem tab_final_shell {rs : String → String → Bool} {recurse : Recurse}
    (hrec : RecTab recurse) {v t : Nat} {ck : Ck} {shell : Nat} {s : Session} :
    (final_shell rs recurse v t ck shell s).1.current = s.current ∧
      (final_shell rs recurse v t ck shell s).1.listLoop = s.listLoop := by
  unfold final_shell
  cases ck with
  | ckList inner strict =>
    dsimp only
    cases seqElems s.heap v with
    | none => exact ⟨rfl, rfl⟩
    | some es =>
      dsimp only
      cases inner with
      | nil =>
        dsimp only
        split
        · exact ⟨rfl, rfl⟩
        · exact ⟨rfl, rfl⟩
      | cons st rest => exact tab_elemsInto hrec es s
  | ckDict entries =>
    dsimp only
    cases hv : s.heap v with
    | none => exact ⟨rfl, rfl⟩
    | some o =>
      cases o <;> dsimp only <;> try exact ⟨rfl, rfl⟩
      split
      · split
        · exact ⟨rfl, rfl⟩
        · exact ⟨rfl, rfl⟩
      · split
        · exact ⟨rfl, rfl⟩
        · exact tab_dictEntriesInto hrec _ s
  | ckTuple tys ar =>
    dsimp only
    cases seqElems s.heap v with
    | none => exact ⟨rfl, rfl⟩
    | some es => exact tab_slotsInto hrec _ s
  | ckMap kt vt =>
    dsimp only
    cases hv : s.heap v with
    | none => exact ⟨rfl, rfl⟩
    | some o =>
      cases o <;> dsimp only <;> try exact ⟨rfl, rfl⟩
      exact tab_mapEntriesInto hrec _ s

theorem tab_final_noshell {recurse : Recurse} (hrec : RecTab recurse)
    {v : Nat} {ck : Ck} {s : Session} :
    (final_noshell recurse v ck s).1.current = s.current ∧
      (final_noshell recurse v ck s).1.listLoop = s.listLoop := by
  unfold final_noshell
  cases ck with
  | ckList inner strict =>
    dsimp only
    cases inner with
    | nil => exact ⟨rfl, rfl⟩
    | cons st rest =>
      dsimp only
      have h1 := hrec v st s
      rcases hr : recurse v st s with ⟨s1, res⟩
      rw [hr] at h1
      cases res with
      | error e => exact h1
      | ok r => exact h1
  | ckTuple tys ar =>
    dsimp only
    cases seqElems s.heap v with
    | none => exact ⟨rfl, rfl⟩
    | some es =>
      dsimp only
      have h1 := tab_slots hrec (es.zip tys) s
      rcases hr : slots recurse (es.zip tys) s with ⟨s1, res⟩
      rw [hr] at h1
      cases res with
      | error e => exact h1
      | ok rl => exact h1
  | ckDict entries => exact ⟨rfl, rfl⟩
  | ckMap kt vt => exact ⟨rfl, rfl⟩

theorem tab_customizedCheck {rs : String → String → Bool} {recurse : Recurse}
    (hrec : RecTab recurse) {v t : Nat} {ck : Ck} {s : Session} :
    (∀ k, k ≠ (v, t) →
        (customizedCheck rs recurse v t ck s).1.current k = s.current k) ∧
      (customizedCheck rs recurse v t ck s).1.listLoop = s.listLoop := by
  unfold customizedCheck
  split
  · exact ⟨fun _ _ => rfl, rfl⟩
  · rename_i hguard
    have hp : (pre_check_type ck v t s).1.current = s.current ∧
        (pre_check_type ck v t s).1.listLoop = s.listLoop := tab_pre
    rcases hpre : pre_check_type ck v t s with ⟨s1, pres⟩
    rw [hpre] at hp
    cases pres with
    | error e => exact ⟨fun k _ => congrFun hp.1 k, hp.2⟩
    | ok sh =>
      cases sh with
      | none =>
        dsimp only
        have h3 : (final_noshell recurse v ck
              { s1 with listLoop := updB s1.listLoop (v, t) true }).1.current
            = s1.current ∧
            (final_noshell recurse v ck
              { s1 with listLoop := updB s1.listLoop (v, t) true }).1.listLoop
            = updB s1.listLoop (v, t) true := tab_final_noshell hrec
        rcases hfn : final_noshell recurse v ck
            { s1 with listLoop := updB s1.listLoop (v, t) true } with ⟨s3, res⟩
        rw [hfn] at h3
        refine ⟨fun k _ => (congrFun h3.1 k).trans (congrFun hp.1 k), ?_⟩
        have hl : s3.listLoop = updB s1.listLoop (v, t) true := h3.2
        dsimp only
        rw [hl, hp.2]
        funext k
        unfold updB
        by_cases hk : k = (v, t)
        · rw [if_pos hk, hk]
          exact ((Bool.not_eq_true _).mp hguard).symm
        · rw [if_neg hk, if_neg hk]
      | some shell =>
        dsimp only
        have h3 : (final_shell rs recurse v t ck shell
              { s1 with current := updF s1.current (v, t) (some shell),
                        listLoop := fun _ => false }).1.current
            = updF s1.current (v, t) (some shell) ∧
            (final_shell rs recurse v t ck shell
              { s1 with current := updF s1.current (v, t) (some shell),
                        listLoop := fun _ => false }).1.listLoop
            = (fun _ => false) := tab_final_shell hrec
        rcases hfs : final_shell rs recurse v t ck shell
            { s1 with current := updF s1.current (v, t) (some shell),
                      listLoop := fun _ => false } with ⟨s3, res⟩
        rw [hfs] at h3
        have hc3 : s3.current = updF s1.current (v, t) (some shell) := h3.1
        have hoff : ∀ k, k ≠ (v, t) → s3.current k = s.current k := by
          intro k hk
          rw [hc3]
          unfold updF
          rw [if_neg hk]
          exact congrFun hp.1 k
        cases res with
        | error e => exact ⟨hoff, hp.2⟩
        | ok u => exact ⟨hoff, hp.2⟩

theorem tab_dispatch {rs : String → String → Bool} {tenv : Nat → Option TObj}
    {recurse : Recurse} (hrec : RecTab recurse) {v t : Nat} {s : Session} :
    (∀ k, k ≠ (v, t) →
        (dispatch rs tenv recurse v t s).1.current k = s.current k) ∧
      (dispatch rs tenv recurse v t s).1.listLoop = s.listLoop := by
  unfold dispatch
  cases tenv t with
  | none => exact ⟨fun _ _ => rfl, rfl⟩
  | some tobj =>
    cases tobj with
    | tNone =>
      dsimp only
      split
      · exact ⟨fun _ _ => rfl, rfl⟩
      · exact ⟨fun _ _ => rfl, rfl⟩
    | tInt =>
      dsimp only
      cases s.heap v with
      | none => exact ⟨fun _ _ => rfl, rfl⟩
      | some o => cases o <;> exact ⟨fun _ _ => rfl, rfl⟩
    | tStr =>
      dsimp only
      cases s.heap v with
      | none => exact ⟨fun _ _ => rfl, rfl⟩
      | some o => cases o <;> exact ⟨fun _ _ => rfl, rfl⟩
    | tBool =>
      dsimp only
      cases s.heap v with
      | none => exact ⟨fun _ _ => rfl, rfl⟩
      | some o => cases o <;> exact ⟨fun _ _ => rfl, rfl⟩
    | tAlt alts =>
      cases alts with
      | nil =>
        dsimp only
        split
        · exact ⟨fun _ _ => rfl, rfl⟩
        · exact ⟨fun _ _ => rfl, rfl⟩
      | cons a rest =>
        have h := tab_checkAlts hrec (v := v) (t := t) (a :: rest) s
        exact ⟨fun k _ => congrFun h.1 k, h.2⟩
    | tList inner strict =>
      dsimp only
      split
      · exact ⟨fun _ _ => rfl, rfl⟩
      · exact tab_customizedCheck hrec
    | tDict entries => exact tab_customizedCheck hrec
    | tTuple tys ar => exact tab_customizedCheck hrec
    | tMap kt vt => exact tab_customizedCheck hrec

/-- Every engine run restores `current_check` and `list_loop` exactly. -/
theorem tab_check_type_inner (rs : String → String → Bool)
    (tenv : Nat → Option TObj) :
    ∀ (f : Nat) (v t : Nat) (s : Session),
      (check_type_inner rs tenv f v t s).1.current = s.current ∧
        (check_type_inner rs tenv f v t s).1.listLoop = s.listLoop := by
  intro f
  induction f with
  | zero => intro v t s; exact ⟨rfl, rfl⟩
  | succ f ih =>
    intro v t s
    simp only [check_type_inner]
    cases s.succeeded (v, t) with
    | some r => exact ⟨rfl, rfl⟩
    | none =>
      dsimp only
      cases s.failed (v, t) with
      | some e => exact ⟨rfl, rfl⟩
      | none =>
        dsimp only
        cases hcur : s.current (v, t) with
        | some r => exact ⟨rfl, rfl⟩
        | none =>
          dsimp only
          have hd : (∀ k, k ≠ (v, t) →
                (dispatch rs tenv (check_type_inner rs tenv f) v t s).1.current
                  k = s.current k) ∧
              (dispatch rs tenv (check_type_inner rs tenv f)
                v t s).1.listLoop = s.listLoop :=
            tab_dispatch (fun v t s => ih v t s)
          rcases hdp : dispatch rs tenv (check_type_inner rs tenv f) v t s with ⟨s2, res⟩
          rw [hdp] at hd
          unfold handler
          cases res with
          | error e =>
            dsimp only
            refine ⟨?_, hd.2⟩
            funext k
            unfold updF
            by_cases hk : k = (v, t)
            · rw [if_pos hk, hk, hcur]
            · rw [if_neg hk]; exact hd.1 k hk
          | ok r =>
            dsimp only
            cases hc2 : s2.current (v, t) with
            | some u =>
              dsimp only
              refine ⟨?_, hd.2⟩
              funext k
              unfold updF
              by_cases hk : k = (v, t)
              · rw [if_pos hk, hk, hcur]
              · rw [if_neg hk]; exact hd.1 k hk
            | none =>
              dsimp only
              refine ⟨?_, hd.2⟩
              funext k
              by_cases hk : k = (v, t)
              · rw [hk, hc2, hcur]
              · exact hd.1 k hk

/-! ### Unfolding helpers -/

theorem check_type_eq (rs : String → String → Bool) (tenv : Nat → Option TObj)
    (f : Nat) (h : Nat → Option VObj) (nA v t : Nat) :
    check_type rs tenv (f + 1) h nA v t =
      handler v t (initSession h nA)
        (dispatch rs tenv (check_type_inner rs tenv f) v t (initSession h nA)) :=
  rfl

theorem inner_main_eq (rs : String → String → Bool) (tenv : Nat → Option TObj)
    {f v t : Nat} {s : Session}
    (h1 : s.succeeded (v, t) = none) (h2 : s.failed (v, t) = none)
    (h3 : s.current (v, t) = none) :
    check_type_inner rs tenv (f + 1) v t s =
      handler v t s (dispatch rs tenv (check_type_inner rs tenv f) v t s) := by
  simp only [check_type_inner, h1, h2, h3]

/-! ### Claim theorems -/

/-- C7: matching against absence.  `check_type(None, None)` returns `None`
and `check_type(v, None)` raises `TypeMismatchException` for every non-None
`v`; `check_type(None, ())` raises `TypeMismatchException` while
`check_type(v, ())` returns `v` itself for every non-None `v`; and the
plain primitive descriptors (`int`, `str`, `bool`) raise a
`TypeMismatchException` on `None`. -/
theorem c7_absence_rules (rs : String → String → Bool)
    (tenv : Nat → Option TObj) (f : Nat) (h : Nat → Option VObj)
    (nA v t : Nat) :
    (tenv t = some .tNone → h v = some .vnone →
      (check_type rs tenv (f + 1) h nA v t).2 = .ok v) ∧
    (tenv t = some .tNone → ∀ w, h v = some w → w ≠ .vnone →
      (check_type rs tenv (f + 1) h nA v t).2 = .error (.mismatch v t none)) ∧
    (tenv t = some (.tAlt []) → h v = some .vnone →
      (check_type rs tenv (f + 1) h nA v t).2 = .error (.mismatch v t none)) ∧
    (tenv t = some (.tAlt []) → ∀ w, h v = some w → w ≠ .vnone →
      (check_type rs tenv (f + 1) h nA v t).2 = .ok v) ∧
    (h v = some .vnone →
      tenv t = some .tInt ∨ tenv t = some .tStr ∨ tenv t = some .tBool →
      (check_type rs tenv (f + 1) h nA v t).2 = .error (.mismatch v t none)) := by
  refine ⟨?_, ?_, ?_, ?_, ?_⟩
  · intro ht hv
    rw [check_type_eq]
    simp [dispatch, ht, initSession, hv, handler]
  · intro ht w hv hw
    rw [check_type_eq]
    simp [dispatch, ht, initSession, hv, hw, handler]
  · intro ht hv
    rw [check_type_eq]
    simp [dispatch, ht, initSession, hv, handler]
  · intro ht w hv hw
    rw [check_type_eq]
    simp [dispatch, ht, initSession, hv, hw, handler]
  · intro hv ht
    rw [check_type_eq]
    rcases ht with ht | ht | ht <;>
      simp [dispatch, ht, initSession, hv, handler]

/-- C9: auto-wrap of a scalar by a one-inner-type list descriptor.  If the
value is not a list or tuple: in strict mode the check raises a
`TypeMismatchException` with the strict-mode message; otherwise the inner
check of the value against the inner type, run in the loop-guarded session,
determines the outcome, and on success the result is a freshly allocated
one-element list holding the converted value. -/
theorem c9_autowrap (rs : String → String → Bool) (tenv : Nat → Option TObj)
    (f : Nat) (h : Nat → Option VObj) (nA v t st : Nat) (strict : Bool)
    (ht : tenv t = some (.tList [st] strict))
    (hscalar : seqElems h v = none) :
    (strict = true →
      (check_type rs tenv (f + 1) h nA v t).2 = .error (.mismatch v t
        (some "strict mode disables auto-convert-to-list for single value"))) ∧
    (strict = false → ∀ s1 r,
      check_type_inner rs tenv f v st
          { initSession h nA with
              listLoop := updB (initSession h nA).listLoop (v, t) true } =
        (s1, .ok r) →
      (check_type rs tenv (f + 1) h nA v t).2 = .ok s1.nextAddr ∧
      (check_type rs tenv (f + 1) h nA v t).1.heap s1.nextAddr =
        some (.vlist [r])) := by
  constructor
  · intro hstrict
    subst hstrict
    rw [check_type_eq]
    simp only [dispatch, ht]
    have hpre : pre_check_type (.ckList [st] true) v t (initSession h nA) =
        (initSession h nA, .error (.mismatch v t
          (some "strict mode disables auto-convert-to-list for single value"))) := by
      unfold pre_check_type
      unfold seqElems at hscalar
      cases ho : h v with
      | none => simp [initSession, ho]
      | some o => rw [ho] at hscalar; cases o <;> simp_all [initSession]
    simp only [initSession] at hpre
    simp [customizedCheck, hpre, handler, initSession]
  · intro hstrict s1 r hinner
    subst hstrict
    rw [check_type_eq]
    simp only [dispatch, ht]
    have htab := tab_check_type_inner rs tenv f v st
      { initSession h nA with
          listLoop := updB (initSession h nA).listLoop (v, t) true }
    rw [hinner] at htab
    have hcur1 : s1.current = fun _ => none := htab.1
    have hpre : pre_check_type (.ckList [st] false) v t (initSession h nA) =
        (initSession h nA, .ok none) := by
      unfold pre_check_type
      unfold seqElems at hscalar
      cases ho : h v with
      | none => simp [initSession, ho]
      | some o => rw [ho] at hscalar; cases o <;> simp_all [initSession]
    simp only [initSession] at hpre hinner
    simp [customizedCheck, hpre, final_noshell, hinner, alloc, handler,
      initSession, hcur1]

/-- A trivial concrete matcher standing in for `re.search` in witnesses. -/
def wrs : String → String → Bool := fun p s => p = s

/-- C7 witness environment: address 0 holds `None`, address 1 holds `5`;
descriptor 0 is `None`, descriptor 1 is `()`, descriptor 2 is `int`. -/
def c7h : Nat → Option VObj := fun a =>
  if a = 0 then some .vnone else if a = 1 then some (.vint 5) else none

def c7te : Nat → Option TObj := fun a =>
  if a = 0 then some .tNone else if a = 1 then some (.tAlt []) else
  if a = 2 then some .tInt else none

theorem c7_absence_rules_witness :
    c7te 0 = some .tNone ∧ c7h 0 = some .vnone ∧
      (check_type wrs c7te 3 c7h 2 0 0).2 = .ok 0 :=
  ⟨rfl, rfl, (c7_absence_rules wrs c7te 2 c7h 2 0 0).1 rfl rfl⟩

/-- C9 witness environment: `check_type("abc", [str])`. -/
def c9h : Nat → Option VObj := fun a => if a = 0 then some (.vstr "abc") else none

def c9te : Nat → Option TObj := fun a =>
  if a = 0 then some (.tList [1] false) else if a = 1 then some .tStr else none

theorem c9_autowrap_witness :
    (check_type wrs c9te 3 c9h 1 0 0).2 = .ok 1 ∧
      (check_type wrs c9te 3 c9h 1 0 0).1.heap 1 = some (.vlist [0]) := by
  have happ := (c9_autowrap wrs c9te 2 c9h 1 0 0 1 false rfl rfl).2 rfl
    (check_type_inner wrs c9te 2 0 1
      { initSession c9h 1 with
          listLoop := updB (initSession c9h 1).listLoop (0, 0) true }).1 0
    (by rfl)
  exact ⟨happ.1.trans (by decide), happ.2.trans (by decide)⟩

/-- C6 environments: the three `TupleChecker` doctest scenarios.
`c6h` is the direct self-referential list `l = [l]`; `c6te1` is a tuple
checker containing itself directly; `c6te2` contains itself through an
intermediate list checker; `c6h3`/`c6te3` is the `allow_recursive`
scenario `l = [l, 123]` against `tuple_((tuple_type, int),
allow_recursive=True)`. -/
def c6h : Nat → Option VObj := fun a => if a = 0 then some (.vlist [0]) else none

def c6te1 : Nat → Option TObj := fun a =>
  if a = 0 then some (.tTuple [0] false) else none

def c6te2 : Nat → Option TObj := fun a =>
  if a = 0 then some (.tTuple [1] false) else
  if a = 1 then some (.tList [0] false) else none

def c6h3 : Nat → Option VObj := fun a =>
  if a = 0 then some (.vlist [0, 1]) else if a = 1 then some (.vint 123) else none

def c6te3 : Nat → Option TObj := fun a =>
  if a = 0 then some (.tTuple [0, 1] true) else if a = 1 then some .tInt else none

/-- C6: the tuple checker's `allow_recursive` option.  (1) Without it, a
value that is a direct cycle onto the same (value, descriptor) pair is a
`TypeMismatchException`.  (2) An indirect self-reference through an
intermediate list checker succeeds and produces a properly cyclic result
(the fresh tuple at 3 contains the fresh list at 1, which contains the
fresh tuple at 2, which closes the cycle back onto the list at 1).
(3) With `allow_recursive`, a directly self-referential value is accepted
and the result is a mutable list (not a tuple) that contains itself. -/
theorem c6_tuple_allow_recursive :
    ((check_type wrs c6te1 10 c6h 1 0 0).2 = .error (.mismatch 0 0 none)) ∧
    ((check_type wrs c6te2 10 c6h 1 0 0).2 = .ok 3 ∧
      (check_type wrs c6te2 10 c6h 1 0 0).1.heap 3 = some (.vtuple [1]) ∧
      (check_type wrs c6te2 10 c6h 1 0 0).1.heap 1 = some (.vlist [2]) ∧
      (check_type wrs c6te2 10 c6h 1 0 0).1.heap 2 = some (.vtuple [1])) ∧
    ((check_type wrs c6te3 10 c6h3 2 0 0).2 = .ok 2 ∧
      (check_type wrs c6te3 10 c6h3 2 0 0).1.heap 2 = some (.vlist [2, 1])) := by
  refine ⟨by decide, ⟨by decide, by decide, by decide, by decide⟩,
    by decide, by decide⟩

/-- C4 counterexample environment: value 5 checked against the malformed
list descriptor `[int, str]`. -/
def c4h : Nat → Option VObj := fun a => if a = 0 then some (.vint 5) else none

def c4te : Nat → Option TObj := fun a =>
  if a = 0 then some (.tList [1, 2] false) else
  if a = 1 then some .tInt else if a = 2 then some .tStr else none

/-- C4 counterexample: an `InvalidTypeException` does propagate out of
`check_type`, but contrary to the claim it IS cached as a value-level
failure: after the failed call the session's failed-table holds the
`InvalidTypeException` under the (value, descriptor) pair. -/
theorem c4_counterexample :
    (check_type wrs c4te 10 c4h 1 0 0).2 =
      .error (.invalid 0 (some "list must contain 0 or 1 valid inner type")) ∧
    (check_type wrs c4te 10 c4h 1 0 0).1.failed (0, 0) =
      some (.invalid 0 (some "list must contain 0 or 1 valid inner type")) := by
  exact ⟨by decide, by decide⟩

/-- C4 (amended): an `InvalidTypeException` raised while trying an
alternative of an alternation is not caught by the alternation's
backtracking loop — it aborts the whole match and propagates out — and,
like every exception, the engine records it in the session's failed-table
under the (value, descriptor) pair that raised it. -/
theorem c4_invalid_aborts (rs : String → String → Bool)
    (tenv : Nat → Option TObj) (f : Nat) :
    (∀ (v t a : Nat) (rest : List Nat) (s s1 : Session) (t' : Nat)
        (i : Option String),
      check_type_inner rs tenv f v a s = (s1, .error (.invalid t' i)) →
      checkAlts (check_type_inner rs tenv f) v t (a :: rest) s =
        (s1, .error (.invalid t' i))) ∧
    (∀ (v t : Nat) (s : Session) (e : Err),
      (check_type_inner rs tenv (f + 1) v t s).2 = .error e →
      ((check_type_inner rs tenv (f + 1) v t s).1).failed (v, t) = some e) := by
  constructor
  · intro v t a rest s s1 t' i hr
    simp only [checkAlts, hr]
  · intro v t s e herr
    simp only [check_type_inner] at herr ⊢
    cases hsu : s.succeeded (v, t) with
    | some r => rw [hsu] at herr; simp at herr
    | none =>
      rw [hsu] at herr
      dsimp only at herr ⊢
      cases hfa : s.failed (v, t) with
      | some e0 =>
        rw [hfa] at herr
        dsimp only at herr ⊢
        injection herr with h0
        rw [hfa, h0]
      | none =>
        rw [hfa] at herr
        dsimp only at herr ⊢
        cases hcu : s.current (v, t) with
        | some r => rw [hcu] at herr; simp at herr
        | none =>
          rw [hcu] at herr
          dsimp only at herr ⊢
          rcases hdp : dispatch rs tenv (check_type_inner rs tenv f) v t s with ⟨s2, res⟩
          rw [hdp] at herr
          unfold handler at herr ⊢
          cases res with
          | error e0 =>
            dsimp only at herr ⊢
            injection herr with h0
            rw [← h0]
            simp [updF]
          | ok r =>
            dsimp only at herr ⊢
            cases hc2 : s2.current (v, t) with
            | some u => rw [hc2] at herr; simp at herr
            | none => rw [hc2] at herr; simp at herr

/-- C4 amended-theorem witness: instantiating the abort property at the
alternation `(​[int, str], str)` over the value `"x"` — the malformed
first alternative aborts the whole alternation — and the caching property
at the counterexample environment. -/
def c4wh : Nat → Option VObj := fun a => if a = 0 then some (.vstr "x") else none

def c4wte : Nat → Option TObj := fun a =>
  if a = 0 then some (.tAlt [1, 4]) else
  if a = 1 then some (.tList [2, 3] false) else
  if a = 2 then some .tInt else if a = 3 then some .tStr else
  if a = 4 then some .tStr else none

theorem c4_invalid_aborts_witness :
    checkAlts (check_type_inner wrs c4wte 9) 0 0 [1, 4] (initSession c4wh 1) =
      ((check_type_inner wrs c4wte 9 0 1 (initSession c4wh 1)).1,
        .error (.invalid 1 (some "list must contain 0 or 1 valid inner type"))) ∧
    ((check_type_inner wrs c4wte 10 0 0 (initSession c4wh 1)).1).failed (0, 0) =
      some (.invalid 1 (some "list must contain 0 or 1 valid inner type")) := by
  constructor
  · exact (c4_invalid_aborts wrs c4wte 9).1 0 0 1 [4] (initSession c4wh 1)
      (check_type_inner wrs c4wte 9 0 1 (initSession c4wh 1)).1 1
      (some "list must contain 0 or 1 valid inner type")
      (by rfl)
  · exact (c4_invalid_aborts wrs c4wte 9).2 0 0 (initSession c4wh 1)
      (.invalid 1 (some "list must contain 0 or 1 valid inner type")) (by decide)

/-- Trace of a successful alternation run: a prefix of alternatives each
fails with a `TypeMismatchException` (failures threaded through the same
session), then the first succeeding alternative delivers the result. -/
inductive AltOk (recurse : Recurse) (v : Nat) :
    List Nat → Session → Session → Nat → Prop where
  | head {a : Nat} {rest : List Nat} {s s1 : Session} {r : Nat} :
      recurse v a s = (s1, .ok r) → AltOk recurse v (a :: rest) s s1 r
  | step {a : Nat} {rest : List Nat} {s s1 s2 : Session} {r vm tm : Nat}
      {im : Option String} :
      recurse v a s = (s1, .error (.mismatch vm tm im)) →
      AltOk recurse v rest s1 s2 r → AltOk recurse v (a :: rest) s s2 r

/-- Trace of a fully failed alternation run: every alternative fails with
a `TypeMismatchException`, in declaration order, sessions threaded. -/
inductive AltFail (recurse : Recurse) (v : Nat) :
    List Nat → Session → Session → Prop where
  | nil {s : Session} : AltFail recurse v [] s s
  | step {a : Nat} {rest : List Nat} {s s1 s2 : Session} {vm tm : Nat}
      {im : Option String} :
      recurse v a s = (s1, .error (.mismatch vm tm im)) →
      AltFail recurse v rest s1 s2 → AltFail recurse v (a :: rest) s s2

/-- C3: alternation tries its alternatives strictly in declared order
within the same session.  A run of the alternation loop succeeds with `r`
exactly when some prefix of alternatives fails with type mismatches and
the next one succeeds with `r` (first match wins); it fails with a
`TypeMismatchException` exactly when every alternative fails with a type
mismatch, and then the exception names the whole alternation descriptor
`t` itself.  The engine dispatches a non-empty tuple descriptor to this
loop. -/
theorem c3_alternation_order (rs : String → String → Bool)
    (tenv : Nat → Option TObj) (f v t : Nat) :
    (∀ (alts : List Nat) (s s' : Session) (r : Nat),
      checkAlts (check_type_inner rs tenv f) v t alts s = (s', .ok r) ↔
        AltOk (check_type_inner rs tenv f) v alts s s' r) ∧
    (∀ (alts : List Nat) (s s' : Session) (vm tm : Nat) (im : Option String),
      checkAlts (check_type_inner rs tenv f) v t alts s =
          (s', .error (.mismatch vm tm im)) ↔
        (vm = v ∧ tm = t ∧ im = none ∧
          AltFail (check_type_inner rs tenv f) v alts s s')) ∧
    (∀ (alts : List Nat) (s : Session),
      tenv t = some (.tAlt alts) → alts ≠ [] →
      s.succeeded (v, t) = none → s.failed (v, t) = none →
      s.current (v, t) = none →
      check_type_inner rs tenv (f + 1) v t s =
        handler v t s (checkAlts (check_type_inner rs tenv f) v t alts s)) := by
  refine ⟨?_, ?_, ?_⟩
  · intro alts
    induction alts with
    | nil =>
      intro s s' r
      constructor
      · intro hh; cases hh
      · intro hh; cases hh
    | cons a rest ih =>
      intro s s' r
      constructor
      · intro hh
        simp only [checkAlts] at hh
        rcases hr : check_type_inner rs tenv f v a s with ⟨s1, res⟩
        rw [hr] at hh
        cases res with
        | ok r0 =>
          dsimp only at hh
          injection hh with h1 h2
          subst h1
          injection h2 with h2
          subst h2
          exact AltOk.head hr
        | error e =>
          cases e with
          | mismatch vm tm im =>
            dsimp only at hh
            exact AltOk.step hr ((ih s1 s' r).mp hh)
          | invalid t' i => dsimp only at hh; cases hh
          | typeErr => dsimp only at hh; cases hh
          | fuelOut => dsimp only at hh; cases hh
      · intro hh
        cases hh with
        | head hr => simp only [checkAlts, hr]
        | step hr htail =>
          simp only [checkAlts, hr]
          exact (ih _ s' r).mpr htail
  · intro alts
    induction alts with
    | nil =>
      intro s s' vm tm im
      constructor
      · intro hh
        simp only [checkAlts] at hh
        injection hh with h1 h2
        subst h1
        injection h2 with h2
        injection h2 with e1 e2 e3
        exact ⟨e1.symm, e2.symm, e3.symm, AltFail.nil⟩
      · rintro ⟨rfl, rfl, rfl, htr⟩
        cases htr
        simp only [checkAlts]
    | cons a rest ih =>
      intro s s' vm tm im
      constructor
      · intro hh
        simp only [checkAlts] at hh
        rcases hr : check_type_inner rs tenv f v a s with ⟨s1, res⟩
        rw [hr] at hh
        cases res with
        | ok r0 => dsimp only at hh; cases hh
        | error e =>
          cases e with
          | mismatch vm0 tm0 im0 =>
            dsimp only at hh
            obtain ⟨e1, e2, e3, htr⟩ := (ih s1 s' vm tm im).mp hh
            exact ⟨e1, e2, e3, AltFail.step hr htr⟩
          | invalid t' i =>
            dsimp only at hh
            injection hh with h1 h2
            injection h2 with h2
            cases h2
          | typeErr =>
            dsimp only at hh
            injection hh with h1 h2
            injection h2 with h2
            cases h2
          | fuelOut =>
            dsimp only at hh
            injection hh with h1 h2
            injection h2 with h2
            cases h2
      · rintro ⟨rfl, rfl, rfl, htr⟩
        cases htr with
        | step hr htail =>
          simp only [checkAlts, hr]
          exact (ih _ s' _ _ _).mpr ⟨rfl, rfl, rfl, htail⟩
  · intro alts s ht hne h1 h2 h3
    rw [inner_main_eq rs tenv h1 h2 h3]
    cases alts with
    | nil => exact absurd rfl hne
    | cons a rest => simp only [dispatch, ht]

/-- C3 witness environment: `check_type(5, (str, int))` — the first
alternative fails with a mismatch, the second succeeds with the value
itself. -/
def c3wh : Nat → Option VObj := fun a => if a = 0 then some (.vint 5) else none

def c3wte : Nat → Option TObj := fun a =>
  if a = 0 then some (.tAlt [1, 2]) else
  if a = 1 then some .tStr else if a = 2 then some .tInt else none

theorem c3_alternation_order_witness :
    AltOk (check_type_inner wrs c3wte 9) 0 [1, 2] (initSession c3wh 1)
      (checkAlts (check_type_inner wrs c3wte 9) 0 0 [1, 2] (initSession c3wh 1)).1
      0 ∧
    check_type_inner wrs c3wte 10 0 0 (initSession c3wh 1) =
      handler 0 0 (initSession c3wh 1)
        (checkAlts (check_type_inner wrs c3wte 9) 0 0 [1, 2] (initSession c3wh 1)) := by
  constructor
  · exact ((c3_alternation_order wrs c3wte 9 0 0).1 [1, 2] (initSession c3wh 1)
      (checkAlts (check_type_inner wrs c3wte 9) 0 0 [1, 2] (initSession c3wh 1)).1
      0).mp (by rfl)
  · exact (c3_alternation_order wrs c3wte 9 0 0).2.2 [1, 2] (initSession c3wh 1)
      rfl (by simp) rfl rfl rfl

/-- A successful recorded pair is answered from `succeded_check` with the
reference-identical result, leaving the session untouched. -/
theorem succeeded_hit (rs : String → String → Bool) (tenv : Nat → Option TObj)
    {f' v t : Nat} {s : Session} {r : Nat}
    (hs : s.succeeded (v, t) = some r) :
    check_type_inner rs tenv (f' + 1) v t s = (s, .ok r) := by
  simp only [check_type_inner, hs]

/-- The shell-producing `pre_check_type` situations: a list checker on a
sequence value, a dict or map checker on a dict value, and an
`allow_recursive` tuple checker on a sequence of matching length. -/
def IsShellPre (tenv : Nat → Option TObj) (h : Nat → Option VObj)
    (v t : Nat) : Prop :=
  (∃ inner strict es, tenv t = some (.tList inner strict) ∧
      inner.length ≤ 1 ∧ seqElems h v = some es) ∨
  (∃ entries es, tenv t = some (.tDict entries) ∧ h v = some (.vdict es)) ∨
  (∃ kt vt es, tenv t = some (.tMap kt vt) ∧ h v = some (.vdict es)) ∨
  (∃ tys es, tenv t = some (.tTuple tys true) ∧ seqElems h v = some es ∧
      es.length = tys.length)

theorem pre_list_shell {inner : List Nat} {strict : Bool} {v t : Nat}
    {s : Session} {es : List Nat} (hse : seqElems s.heap v = some es) :
    pre_check_type (.ckList inner strict) v t s =
      ((alloc s (.vlist [])).1, .ok (some (alloc s (.vlist [])).2)) := by
  unfold pre_check_type
  unfold seqElems at hse
  cases hv : s.heap v with
  | none => rw [hv] at hse; cases hse
  | some o =>
    rw [hv] at hse
    cases o with
    | vlist a => rfl
    | vtuple a => rfl
    | vnone => cases hse
    | vbool b => cases hse
    | vint n => cases hse
    | vstr st => cases hse
    | vdict d => cases hse

theorem pre_dict_shell {entries : List (String × Nat)} {v t : Nat}
    {s : Session} {es : List (Nat × Nat)} (hv : s.heap v = some (.vdict es)) :
    pre_check_type (.ckDict entries) v t s =
      ((alloc s (.vdict [])).1, .ok (some (alloc s (.vdict [])).2)) := by
  unfold pre_check_type
  rw [hv]

theorem pre_map_shell {kt vt v t : Nat} {s : Session} {es : List (Nat × Nat)}
    (hv : s.heap v = some (.vdict es)) :
    pre_check_type (.ckMap kt vt) v t s =
      ((alloc s (.vdict [])).1, .ok (some (alloc s (.vdict [])).2)) := by
  unfold pre_check_type
  rw [hv]

theorem pre_tuple_shell {tys : List Nat} {v t : Nat} {s : Session}
    {es : List Nat} (hse : seqElems s.heap v = some es)
    (hlen : es.length = tys.length) :
    pre_check_type (.ckTuple tys true) v t s =
      ((alloc s (.vlist [])).1, .ok (some (alloc s (.vlist [])).2)) := by
  unfold pre_check_type
  unfold seqElems at hse
  cases hv : s.heap v with
  | none => rw [hv] at hse; cases hse
  | some o =>
    rw [hv] at hse
    cases o with
    | vlist a =>
      injection hse with hse2
      subst hse2
      dsimp only
      rw [if_neg (by omega)]
      rfl
    | vtuple a =>
      injection hse with hse2
      subst hse2
      dsimp only
      rw [if_neg (by omega)]
      rfl
    | vnone => cases hse
    | vbool b => cases hse
    | vint n => cases hse
    | vstr st => cases hse
    | vdict d => cases hse

/-- The two outcomes of `_customized_check` once `pre_check_type` has
produced a shell: the second phase fails and the succeeded-table snapshot
is restored, or it succeeds and the shell is returned with the pair still
registered in `current_check`. -/
theorem customized_shell_cases {rs : String → String → Bool}
    {recurse : Recurse} (hrec : RecTab recurse) {v t : Nat} {ck : Ck}
    {s s1 : Session} {shell : Nat}
    (hloop : s.listLoop (v, t) = false)
    (hpre : pre_check_type ck v t s = (s1, .ok (some shell))) :
    (∃ s3 e, final_shell rs recurse v t ck shell
          { s1 with current := updF s1.current (v, t) (some shell),
                    listLoop := fun _ => false } = (s3, .error e) ∧
        customizedCheck rs recurse v t ck s =
          ({ s3 with succeeded := s1.succeeded, listLoop := s1.listLoop },
            .error e)) ∨
    (∃ s3 u, final_shell rs recurse v t ck shell
          { s1 with current := updF s1.current (v, t) (some shell),
                    listLoop := fun _ => false } = (s3, .ok u) ∧
        customizedCheck rs recurse v t ck s =
          ({ s3 with listLoop := s1.listLoop }, .ok shell) ∧
        s3.current (v, t) = some shell) := by
  unfold customizedCheck
  rw [if_neg (by rw [hloop]; exact Bool.false_ne_true), hpre]
  dsimp only
  have htab : (final_shell rs recurse v t ck shell
        { s1 with current := updF s1.current (v, t) (some shell),
                  listLoop := fun _ => false }).1.current
      = updF s1.current (v, t) (some shell) ∧
      (final_shell rs recurse v t ck shell
        { s1 with current := updF s1.current (v, t) (some shell),
                  listLoop := fun _ => false }).1.listLoop
      = (fun _ => false) := tab_final_shell hrec
  rcases hfs : final_shell rs recurse v t ck shell
      { s1 with current := updF s1.current (v, t) (some shell),
                listLoop := fun _ => false } with ⟨s3, res⟩
  rw [hfs] at htab
  cases res with
  | error e => exact Or.inl ⟨s3, e, rfl, rfl⟩
  | ok u =>
    refine Or.inr ⟨s3, u, rfl, rfl, ?_⟩
    rw [htab.1]
    simp [updF]

/-- C1 (amended): sharing and cycles are preserved per (value identity,
descriptor identity) pair for the shell-based composite checks.  When the
engine succeeds on such a pair with result `r`, the pair is recorded in the
succeeded-table with `r`, and any later check of the same pair in that
session returns the reference-identical result `r` with the session
unchanged — so two paths reaching the same value node under the same
descriptor node yield the same result node.  (For no-shell conversions,
such as the scalar auto-wrap, results are not recorded; see the
counterexample.) -/
theorem c1_shell_sharing (rs : String → String → Bool)
    (tenv : Nat → Option TObj) (f v t : Nat) (s : Session) (r : Nat)
    (hsu : s.succeeded (v, t) = none) (hfa : s.failed (v, t) = none)
    (hcu : s.current (v, t) = none) (hlo : s.listLoop (v, t) = false)
    (hshell : IsShellPre tenv s.heap v t)
    (hok : (check_type_inner rs tenv (f + 1) v t s).2 = .ok r) :
    ((check_type_inner rs tenv (f + 1) v t s).1).succeeded (v, t) = some r ∧
    ∀ f', check_type_inner rs tenv (f' + 1) v t
        (check_type_inner rs tenv (f + 1) v t s).1 =
      ((check_type_inner rs tenv (f + 1) v t s).1, .ok r) := by
  have hrec : RecTab (check_type_inner rs tenv f) := fun v' t' s' =>
    tab_check_type_inner rs tenv f v' t' s'
  have main : ∀ (ck : Ck),
      dispatch rs tenv (check_type_inner rs tenv f) v t s =
        customizedCheck rs (check_type_inner rs tenv f) v t ck s →
      (∃ s1 shell, pre_check_type ck v t s = (s1, .ok (some shell))) →
      ((check_type_inner rs tenv (f + 1) v t s).1).succeeded (v, t) = some r := by
    intro ck hdisp ⟨s1, shell, hpre⟩
    rw [inner_main_eq rs tenv hsu hfa hcu] at hok ⊢
    rw [hdisp] at hok ⊢
    rcases @customized_shell_cases rs _ hrec _ _ _ _ _ _ hlo hpre with
      ⟨s3, e, hfs, hcc⟩ | ⟨s3, u, hfs, hcc, hc3⟩
    · rw [hcc] at hok
      unfold handler at hok
      dsimp only at hok
      cases hok
    · rw [hcc] at hok ⊢
      unfold handler at hok ⊢
      dsimp only at hok ⊢
      rw [hc3] at hok ⊢
      dsimp only at hok ⊢
      injection hok with hok
      subst hok
      simp [updF]
  have hsucc : ((check_type_inner rs tenv (f + 1) v t s).1).succeeded (v, t)
      = some r := by
    rcases hshell with ⟨inner, strict, es, ht, hlen, hse⟩ |
      ⟨entries, es, ht, hv⟩ | ⟨kt, vt, es, ht, hv⟩ | ⟨tys, es, ht, hse, hlen⟩
    · exact main (.ckList inner strict)
        (by simp only [dispatch, ht]; rw [if_neg (by omega)])
        ⟨_, _, pre_list_shell hse⟩
    · exact main (.ckDict entries) (by simp only [dispatch, ht])
        ⟨_, _, pre_dict_shell hv⟩
    · exact main (.ckMap kt vt) (by simp only [dispatch, ht])
        ⟨_, _, pre_map_shell hv⟩
    · exact main (.ckTuple tys true) (by simp only [dispatch, ht])
        ⟨_, _, pre_tuple_shell hse hlen⟩
  exact ⟨hsucc, fun f' => succeeded_hit rs tenv hsucc⟩

/-- C1 counterexample environment: the value `[y, y]` whose two elements
are the same object `y = 5`, checked against the descriptor `[[int]]`. -/
def c1h : Nat → Option VObj := fun a =>
  if a = 0 then some (.vlist [1, 1]) else if a = 1 then some (.vint 5) else none

def c1te : Nat → Option TObj := fun a =>
  if a = 0 then some (.tList [1] false) else
  if a = 1 then some (.tList [2] false) else
  if a = 2 then some .tInt else none

/-- C1 counterexample: the input reaches the same node `y` (address 1)
through both paths `[0]` and `[1]`, yet the corresponding two paths of the
result reach two distinct output nodes (addresses 3 and 4) that are only
value-equal — the scalar auto-wrap takes the no-shell path, whose result
is not recorded in the succeeded-table, so the second path rebuilds a
fresh object instead of reusing the first. -/
theorem c1_counterexample :
    c1h 0 = some (.vlist [1, 1]) ∧
    (check_type wrs c1te 10 c1h 2 0 0).2 = .ok 2 ∧
    (check_type wrs c1te 10 c1h 2 0 0).1.heap 2 = some (.vlist [3, 4]) ∧
    (check_type wrs c1te 10 c1h 2 0 0).1.heap 3 = some (.vlist [1]) ∧
    (check_type wrs c1te 10 c1h 2 0 0).1.heap 4 = some (.vlist [1]) ∧
    (3 : Nat) ≠ 4 := by
  exact ⟨by decide, by decide, by decide, by decide, by decide, by decide⟩

/-- C1 amended-theorem witness: the cyclic value `a = [a]` checked against
the descriptor `a_t = [a_t]` — a shell-based pair — records its result and
returns the identical node on a re-check. -/
def c1wh : Nat → Option VObj := fun a => if a = 0 then some (.vlist [0]) else none

def c1wte : Nat → Option TObj := fun a =>
  if a = 0 then some (.tList [0] false) else none

theorem c1_shell_sharing_witness :
    ((check_type_inner wrs c1wte 10 0 0 (initSession c1wh 1)).1).succeeded
        (0, 0) = some 1 ∧
    check_type_inner wrs c1wte 5 0 0
        (check_type_inner wrs c1wte 10 0 0 (initSession c1wh 1)).1 =
      ((check_type_inner wrs c1wte 10 0 0 (initSession c1wh 1)).1, .ok 1) := by
  have happ := c1_shell_sharing wrs c1wte 9 0 0 (initSession c1wh 1) 1
    rfl rfl rfl rfl
    (Or.inl ⟨[0], false, [0], rfl, by decide, rfl⟩) (by decide)
  exact ⟨happ.1, happ.2 4⟩

theorem pre_succeeded {ck : Ck} {v t : Nat} {s : Session} :
    (pre_check_type ck v t s).1.succeeded = s.succeeded := by
  unfold pre_check_type
  cases ck <;> dsimp only <;> (repeat' split) <;> rfl

/-- C2: speculative rollback.  When a composite checker's second phase is
run with a pre-created shell and fails, the shared succeeded-table is left
exactly as it was before the attempt (every success entry recorded during
the attempt is discarded), while the failed-table of the final session is
exactly the attempt's failed-table extended with the failing pair — so
every failure recorded during the attempt is kept and shared for the rest
of the session, and a later alternative may recompute the attempt's pairs. -/
theorem c2_speculative_rollback (rs : String → String → Bool)
    (tenv : Nat → Option TObj) (f v t : Nat) (ck : Ck) (s s1 : Session)
    (shell : Nat) (e : Err)
    (hsu : s.succeeded (v, t) = none) (hfa : s.failed (v, t) = none)
    (hcu : s.current (v, t) = none) (hlo : s.listLoop (v, t) = false)
    (hdisp : dispatch rs tenv (check_type_inner rs tenv f) v t s =
      customizedCheck rs (check_type_inner rs tenv f) v t ck s)
    (hpre : pre_check_type ck v t s = (s1, .ok (some shell)))
    (herr : (check_type_inner rs tenv (f + 1) v t s).2 = .error e) :
    ((check_type_inner rs tenv (f + 1) v t s).1).succeeded = s.succeeded ∧
    ∃ s3, final_shell rs (check_type_inner rs tenv f) v t ck shell
        { s1 with current := updF s1.current (v, t) (some shell),
                  listLoop := fun _ => false } = (s3, .error e) ∧
      ((check_type_inner rs tenv (f + 1) v t s).1).failed =
        updF s3.failed (v, t) (some e) := by
  have hrec : RecTab (check_type_inner rs tenv f) := fun v' t' s' =>
    tab_check_type_inner rs tenv f v' t' s'
  rw [inner_main_eq rs tenv hsu hfa hcu] at herr ⊢
  rw [hdisp] at herr ⊢
  rcases @customized_shell_cases rs _ hrec _ _ _ _ _ _ hlo hpre with
    ⟨s3, e0, hfs, hcc⟩ | ⟨s3, u, hfs, hcc, hc3⟩
  · rw [hcc] at herr ⊢
    unfold handler at herr ⊢
    dsimp only at herr ⊢
    injection herr with herr
    subst herr
    refine ⟨?_, s3, hfs, rfl⟩
    have : (pre_check_type ck v t s).1.succeeded = s.succeeded :=
      pre_succeeded
    rw [hpre] at this
    exact this
  · rw [hcc] at herr
    unfold handler at herr
    dsimp only at herr
    rw [hc3] at herr
    dsimp only at herr
    cases herr

/-- C2 witness environment: the value `[x, b]` with `x = [1]` and
`b = "zzz"`, checked against `[[int]]`.  The outer list's shell-based
second phase first succeeds on `(x, [int])` — recording a speculative
success — and then fails on `(b, [int])`: the success entry is rolled
back while the failure entries stay. -/
def c2wh : Nat → Option VObj := fun a =>
  if a = 0 then some (.vlist [1, 3]) else
  if a = 1 then some (.vlist [2]) else
  if a = 2 then some (.vint 1) else
  if a = 3 then some (.vstr "zzz") else none

def c2wte : Nat → Option TObj := fun a =>
  if a = 0 then some (.tList [1] false) else
  if a = 1 then some (.tList [2] false) else
  if a = 2 then some .tInt else none

theorem c2_speculative_rollback_witness :
    ((check_type_inner wrs c2wte 10 0 0 (initSession c2wh 4)).1).succeeded =
      (initSession c2wh 4).succeeded ∧
    ((check_type_inner wrs c2wte 10 0 0 (initSession c2wh 4)).1).succeeded
        (1, 1) = none ∧
    ((check_type_inner wrs c2wte 10 0 0 (initSession c2wh 4)).1).failed
        (3, 1) = some (.mismatch 3 2 none) ∧
    ((check_type_inner wrs c2wte 10 0 0 (initSession c2wh 4)).1).failed
        (3, 2) = some (.mismatch 3 2 none) := by
  have happ := c2_speculative_rollback wrs c2wte 9 0 0 (.ckList [1] false)
    (initSession c2wh 4) (alloc (initSession c2wh 4) (.vlist [])).1
    (alloc (initSession c2wh 4) (.vlist [])).2 (.mismatch 3 2 none)
    rfl rfl rfl rfl rfl rfl (by decide)
  exact ⟨happ.1, by rw [happ.1]; rfl, by decide, by decide⟩

/-- The descriptor kinds routed to a composite checker (list, dict, tuple,
map). -/
def IsComposite (tenv : Nat → Option TObj) (t : Nat) : Prop :=
  (∃ inner strict, tenv t = some (.tList inner strict)) ∨
  (∃ entries, tenv t = some (.tDict entries)) ∨
  (∃ tys ar, tenv t = some (.tTuple tys ar)) ∨
  (∃ kt vt, tenv t = some (.tMap kt vt))

/-- C10: the engine never mutates the input.  Every run only grows the
allocation frontier and leaves every address below the initial frontier —
in particular the whole input value graph — untouched; and a successful
composite check (list, dict, fixed-arity tuple, homogeneous map descriptor)
that is not answered from the session cache returns a freshly allocated
container, i.e. a result address at or above the initial frontier. -/
theorem c10_no_input_mutation (rs : String → String → Bool)
    (tenv : Nat → Option TObj) (f v t : Nat) (s : Session) :
    (s.nextAddr ≤ (check_type_inner rs tenv f v t s).1.nextAddr ∧
      ∀ a, a < s.nextAddr →
        (check_type_inner rs tenv f v t s).1.heap a = s.heap a) ∧
    (∀ r, s.succeeded (v, t) = none → s.current (v, t) = none →
      IsComposite tenv t →
      (check_type_inner rs tenv (f + 1) v t s).2 = .ok r →
      s.nextAddr ≤ r) := by
  constructor
  · have h := extN_check_type_inner rs tenv f v t s s.nextAddr (le_refl _)
    exact ⟨h.1, h.2.1⟩
  · intro r hsu hcu hcomp hok
    have hfacase : s.failed (v, t) = none ∨ ∃ e0, s.failed (v, t) = some e0 := by
      cases s.failed (v, t) with
      | none => exact Or.inl rfl
      | some e0 => exact Or.inr ⟨e0, rfl⟩
    rcases hfacase with hfa | ⟨e0, hfa⟩
    · rw [inner_main_eq rs tenv hsu hfa hcu] at hok
      have hext : ∀ (ck : Ck),
          (customizedCheck rs (check_type_inner rs tenv f) v t ck s).2 = .ok r →
          s.nextAddr ≤ r := by
        intro ck hok2
        unfold customizedCheck at hok2
        by_cases hlo : s.listLoop (v, t) = true
        · rw [if_pos hlo] at hok2; cases hok2
        · rw [if_neg hlo] at hok2
          rcases hpre : pre_check_type ck v t s with ⟨s1, pres⟩
          rw [hpre] at hok2
          cases pres with
          | error e => cases hok2
          | ok sh =>
            cases sh with
            | some shell =>
              dsimp only at hok2
              rcases hfs : final_shell rs (check_type_inner rs tenv f) v t ck
                  shell { s1 with
                    current := updF s1.current (v, t) (some shell),
                    listLoop := fun _ => false } with ⟨s3, res⟩
              rw [hfs] at hok2
              cases res with
              | error e => cases hok2
              | ok u =>
                dsimp only at hok2
                injection hok2 with hok2
                subst hok2
                exact le_of_eq (pre_shell_fresh hpre).1.symm
            | none =>
              dsimp only at hok2
              rcases hfn : final_noshell (check_type_inner rs tenv f) v ck
                  { s1 with listLoop := updB s1.listLoop (v, t) true } with ⟨s3, res⟩
              rw [hfn] at hok2
              cases res with
              | error e => cases hok2
              | ok u =>
                dsimp only at hok2
                injection hok2 with hok2
                subst hok2
                have hs1 : s1 = s := by
                  have : (pre_check_type ck v t s).2 = .ok none := by
                    rw [hpre]
                  unfold pre_check_type at this hpre
                  cases ck <;> dsimp only at this hpre <;>
                    (repeat' split at hpre) <;>
                    simp_all <;> exact hpre.1.symm
                subst hs1
                have hfr : RecFrame (check_type_inner rs tenv f) :=
                  fun v' t' s' n hn => extN_check_type_inner rs tenv f v' t' s' n hn
                unfold final_noshell at hfn
                cases ck with
                | ckList inner strict =>
                  dsimp only at hfn
                  cases inner with
                  | nil =>
                    simp only [alloc] at hfn
                    injection hfn with h1 h2
                    injection h2 with h2
                    omega
                  | cons st rest =>
                    dsimp only at hfn
                    rcases hr : check_type_inner rs tenv f v st
                        { s1 with listLoop := updB s1.listLoop (v, t) true } with
                      ⟨s4, res4⟩
                    rw [hr] at hfn
                    cases res4 with
                    | error e => cases hfn
                    | ok r4 =>
                      have hext4 := hfr v st
                        { s1 with listLoop := updB s1.listLoop (v, t) true }
                        s1.nextAddr (le_refl _)
                      rw [hr] at hext4
                      dsimp only at hfn
                      simp only [alloc] at hfn
                      injection hfn with h1 h2
                      injection h2 with h2
                      have h5 := hext4.1
                      dsimp only at h5
                      omega
                | ckTuple tys ar =>
                  dsimp only at hfn
                  cases hq : seqElems s1.heap v with
                  | none => rw [hq] at hfn; cases hfn
                  | some es =>
                    rw [hq] at hfn
                    dsimp only at hfn
                    rcases hsl : slots (check_type_inner rs tenv f) (es.zip tys)
                        { s1 with listLoop := updB s1.listLoop (v, t) true } with
                      ⟨s4, res4⟩
                    rw [hsl] at hfn
                    cases res4 with
                    | error e => cases hfn
                    | ok rl =>
                      have hext4 := extN_slots hfr (es.zip tys)
                        { s1 with listLoop := updB s1.listLoop (v, t) true }
                        s1.nextAddr (le_refl _)
                      rw [hsl] at hext4
                      dsimp only at hfn
                      simp only [alloc] at hfn
                      injection hfn with h1 h2
                      injection h2 with h2
                      have h5 := hext4.1
                      dsimp only at h5
                      omega
                | ckDict entries => dsimp only at hfn; cases hfn
                | ckMap kt vt => dsimp only at hfn; cases hfn
      rcases hcomp with ⟨inner, strict, ht⟩ | ⟨entries, ht⟩ |
        ⟨tys, ar, ht⟩ | ⟨kt, vt, ht⟩
      · unfold handler at hok
        rw [show dispatch rs tenv (check_type_inner rs tenv f) v t s =
            (if inner.length > 1 then
              (s, .error (.invalid t (some "list must contain 0 or 1 valid inner type")))
            else customizedCheck rs (check_type_inner rs tenv f) v t
              (.ckList inner strict) s) from by simp only [dispatch, ht]] at hok
        by_cases hl : inner.length > 1
        · rw [if_pos hl] at hok
          dsimp only at hok
          cases hok
        · rw [if_neg hl] at hok
          rcases hcx : customizedCheck rs (check_type_inner rs tenv f) v t
              (.ckList inner strict) s with ⟨sx, resx⟩
          rw [hcx] at hok
          cases resx with
          | error e => dsimp only at hok; cases hok
          | ok r0 =>
            have : r0 = r := by
              dsimp only at hok
              cases hx : sx.current (v, t) with
              | some u => rw [hx] at hok; dsimp only at hok; injection hok
              | none => rw [hx] at hok; dsimp only at hok; injection hok
            subst this
            exact hext _ (by rw [hcx])
      · unfold handler at hok
        rw [show dispatch rs tenv (check_type_inner rs tenv f) v t s =
            customizedCheck rs (check_type_inner rs tenv f) v t
              (.ckDict entries) s from by simp only [dispatch, ht]] at hok
        rcases hcx : customizedCheck rs (check_type_inner rs tenv f) v t
            (.ckDict entries) s with ⟨sx, resx⟩
        rw [hcx] at hok
        cases resx with
        | error e => dsimp only at hok; cases hok
        | ok r0 =>
          have : r0 = r := by
            dsimp only at hok
            cases hx : sx.current (v, t) with
            | some u => rw [hx] at hok; dsimp only at hok; injection hok
            | none => rw [hx] at hok; dsimp only at hok; injection hok
          subst this
          exact hext _ (by rw [hcx])
      · unfold handler at hok
        rw [show dispatch rs tenv (check_type_inner rs tenv f) v t s =
            customizedCheck rs (check_type_inner rs tenv f) v t
              (.ckTuple tys ar) s from by simp only [dispatch, ht]] at hok
        rcases hcx : customizedCheck rs (check_type_inner rs tenv f) v t
            (.ckTuple tys ar) s with ⟨sx, resx⟩
        rw [hcx] at hok
        cases resx with
        | error e => dsimp only at hok; cases hok
        | ok r0 =>
          have : r0 = r := by
            dsimp only at hok
            cases hx : sx.current (v, t) with
            | some u => rw [hx] at hok; dsimp only at hok; injection hok
            | none => rw [hx] at hok; dsimp only at hok; injection hok
          subst this
          exact hext _ (by rw [hcx])
      · unfold handler at hok
        rw [show dispatch rs tenv (check_type_inner rs tenv f) v t s =
            customizedCheck rs (check_type_inner rs tenv f) v t
              (.ckMap kt vt) s from by simp only [dispatch, ht]] at hok
        rcases hcx : customizedCheck rs (check_type_inner rs tenv f) v t
            (.ckMap kt vt) s with ⟨sx, resx⟩
        rw [hcx] at hok
        cases resx with
        | error e => dsimp only at hok; cases hok
        | ok r0 =>
          have : r0 = r := by
            dsimp only at hok
            cases hx : sx.current (v, t) with
            | some u => rw [hx] at hok; dsimp only at hok; injection hok
            | none => rw [hx] at hok; dsimp only at hok; injection hok
          subst this
          exact hext _ (by rw [hcx])
    · simp only [check_type_inner, hsu, hfa] at hok
      cases hok

/-- C10 witness: the tuple-conversion doctest
`check_type(["abc", 123], tuple_((str, int)))`: the input addresses 0-2
are untouched and the result is the fresh tuple at address 3. -/
def c10wh : Nat → Option VObj := fun a =>
  if a = 0 then some (.vlist [1, 2]) else
  if a = 1 then some (.vstr "abc") else
  if a = 2 then some (.vint 123) else none

def c10wte : Nat → Option TObj := fun a =>
  if a = 0 then some (.tTuple [1, 2] false) else
  if a = 1 then some .tStr else if a = 2 then some .tInt else none

theorem dictAppend_heap_ne {s : Session} {shell ka r k' : Nat}
    (hk : k' ≠ shell) : (dictAppend s shell ka r).heap k' = s.heap k' := by
  unfold dictAppend
  split
  · unfold writeH
    dsimp only
    rw [if_neg hk]
  · rfl

theorem dictAppend_heap_shell {s : Session} {shell ka r : Nat}
    {cur : List (Nat × Nat)} (hc : s.heap shell = some (.vdict cur)) :
    (dictAppend s shell ka r).heap shell = some (.vdict (cur ++ [(ka, r)])) := by
  unfold dictAppend
  rw [hc]
  unfold writeH
  dsimp only
  rw [if_pos rfl]

theorem dictAppend_nextAddr {s : Session} {shell ka r : Nat} :
    (dictAppend s shell ka r).nextAddr = s.nextAddr := by
  unfold dictAppend
  split
  · rfl
  · rfl

/-- An input key that no rule of the dict descriptor covers: either a
string key matched by no exact (required/optional) rule and no regex rule,
or a non-string key when there are no regex rules at all. -/
def Uncovered (rs : String → String → Bool) (h0 : Nat → Option VObj)
    (reqs opts rgx : List (String × Nat)) (ka : Nat) : Prop :=
  (∃ ks, h0 ka = some (.vstr ks) ∧ mergedLookup reqs opts ks = none ∧
    regexFind rs rgx ks = none) ∨
  ((∀ ks, h0 ka ≠ some (.vstr ks)) ∧ rgx = [])

theorem uncovered_congr {rs : String → String → Bool}
    {h0 h0' : Nat → Option VObj} {reqs opts rgx : List (String × Nat)}
    {ka : Nat} (hagree : h0' ka = h0 ka) :
    Uncovered rs h0' reqs opts rgx ka ↔ Uncovered rs h0 reqs opts rgx ka := by
  unfold Uncovered
  rw [hagree]

/-- The entry loop of `DictChecker.final_check_type` on success appends one
output entry per input entry into the shell, and every uncovered input
entry passes through as the identical (key object, value object) pair. -/
theorem dictInto_passthrough (rs : String → String → Bool)
    (tenv : Nat → Option TObj) (f : Nat) {shell : Nat}
    {reqs opts rgx : List (String × Nat)} :
    ∀ (ves : List (Nat × Nat)) (s : Session) (cur : List (Nat × Nat)),
      s.heap shell = some (.vdict cur) →
      shell < s.nextAddr →
      (∀ p ∈ ves, p.1 < shell) →
      ∀ s' u, dictEntriesInto rs (check_type_inner rs tenv f) shell reqs opts
          rgx ves s = (s', .ok u) →
      ∃ outs, s'.heap shell = some (.vdict (cur ++ outs)) ∧
        outs.length = ves.length ∧
        ∀ i (hi : i < ves.length) (ho : i < outs.length),
          Uncovered rs s.heap reqs opts rgx (ves.get ⟨i, hi⟩).1 →
          outs.get ⟨i, ho⟩ = ves.get ⟨i, hi⟩ := by
  intro ves
  induction ves with
  | nil =>
    intro s cur hc _ _ s' u hrun
    simp only [dictEntriesInto] at hrun
    injection hrun with h1 h2
    subst h1
    exact ⟨[], by simpa using hc, rfl, fun i hi => absurd hi (by simp)⟩
  | cons p rest ih =>
    intro s cur hc hsh hkeys s' u hrun
    rcases p with ⟨ka, va⟩
    have hka : ka < shell := hkeys (ka, va) (by simp)
    simp only [dictEntriesInto] at hrun
    have step_checked : ∀ (tk : Nat) (s1 : Session) (r : Nat),
        check_type_inner rs tenv f va tk s = (s1, .ok r) →
        dictEntriesInto rs (check_type_inner rs tenv f) shell reqs opts rgx
          rest (dictAppend s1 shell ka r) = (s', .ok u) →
        (¬ Uncovered rs s.heap reqs opts rgx ka ∨ r = va) →
        ∃ outs, s'.heap shell = some (.vdict (cur ++ outs)) ∧
          outs.length = rest.length + 1 ∧
          ∀ i (hi : i < rest.length + 1) (ho : i < outs.length),
            Uncovered rs s.heap reqs opts rgx
              ((⟨ka, va⟩ :: rest).get ⟨i, hi⟩).1 →
            outs.get ⟨i, ho⟩ = ((⟨ka, va⟩ :: rest) : List (Nat × Nat)).get ⟨i, hi⟩ := by
      intro tk s1 r hr hrun2 hcov
      have hext : ExtN s.nextAddr s s1 := by
        have := extN_check_type_inner rs tenv f va tk s s.nextAddr (le_refl _)
        rwa [hr] at this
      have hc1 : s1.heap shell = some (.vdict cur) :=
        (hext.2.1 shell hsh).trans hc
      have hkeep : ∀ k', k' < shell → s1.heap k' = s.heap k' :=
        fun k' hk' => hext.2.1 k' (lt_trans hk' hsh)
      set s2 := dictAppend s1 shell ka r with hs2
      have hc2 : s2.heap shell = some (.vdict (cur ++ [(ka, r)])) :=
        dictAppend_heap_shell hc1
      have hkeep2 : ∀ k', k' < shell → s2.heap k' = s.heap k' := by
        intro k' hk'
        rw [hs2, dictAppend_heap_ne (Nat.ne_of_lt hk'), hkeep k' hk']
      have hsh2 : shell < s2.nextAddr := by
        rw [hs2, dictAppend_nextAddr]
        have := hext.1
        omega
      obtain ⟨outs, ho1, ho2, ho3⟩ := ih s2 (cur ++ [(ka, r)]) hc2 hsh2
        (fun p hp => hkeys p (by simp [hp])) s' u hrun2
      refine ⟨(ka, r) :: outs, by simpa using ho1, by simpa using ho2, ?_⟩
      intro i hi ho hunc
      cases i with
      | zero =>
        rcases hcov with hncov | hr_eq
        · exact absurd hunc hncov
        · subst hr_eq
          rfl
      | succ j =>
        have hj : j < rest.length := by simpa using hi
        have hunc2 : Uncovered rs s2.heap reqs opts rgx
            (rest.get ⟨j, hj⟩).1 := by
          rw [uncovered_congr (hkeep2 _ (hkeys _ (List.mem_cons_of_mem _
            (List.get_mem rest _ hj))))]
          exact hunc
        exact ho3 j hj (by simpa using ho) hunc2
    have step_pass :
        dictEntriesInto rs (check_type_inner rs tenv f) shell reqs opts rgx
          rest (dictAppend s shell ka va) = (s', .ok u) →
        ∃ outs, s'.heap shell = some (.vdict (cur ++ outs)) ∧
          outs.length = rest.length + 1 ∧
          ∀ i (hi : i < rest.length + 1) (ho : i < outs.length),
            Uncovered rs s.heap reqs opts rgx
              ((⟨ka, va⟩ :: rest).get ⟨i, hi⟩).1 →
            outs.get ⟨i, ho⟩ = ((⟨ka, va⟩ :: rest) : List (Nat × Nat)).get ⟨i, hi⟩ := by
      intro hrun2
      set s2 := dictAppend s shell ka va with hs2
      have hc2 : s2.heap shell = some (.vdict (cur ++ [(ka, va)])) :=
        dictAppend_heap_shell hc
      have hkeep2 : ∀ k', k' < shell → s2.heap k' = s.heap k' := by
        intro k' hk'
        rw [hs2, dictAppend_heap_ne (Nat.ne_of_lt hk')]
      have hsh2 : shell < s2.nextAddr := by
        rw [hs2, dictAppend_nextAddr]
        exact hsh
      obtain ⟨outs, ho1, ho2, ho3⟩ := ih s2 (cur ++ [(ka, va)]) hc2 hsh2
        (fun p hp => hkeys p (by simp [hp])) s' u hrun2
      refine ⟨(ka, va) :: outs, by simpa using ho1, by simpa using ho2, ?_⟩
      intro i hi ho hunc
      cases i with
      | zero => rfl
      | succ j =>
        have hj : j < rest.length := by simpa using hi
        have hunc2 : Uncovered rs s2.heap reqs opts rgx
            (rest.get ⟨j, hj⟩).1 := by
          rw [uncovered_congr (hkeep2 _ (hkeys _ (List.mem_cons_of_mem _
            (List.get_mem rest _ hj))))]
          exact hunc
        exact ho3 j hj (by simpa using ho) hunc2
    cases hha : s.heap ka with
    | none =>
      rw [hha] at hrun
      dsimp only at hrun
      by_cases hrg : rgx.isEmpty
      · rw [if_pos hrg] at hrun
        exact step_pass hrun
      · rw [if_neg hrg] at hrun
        cases hrun
    | some o =>
      rw [hha] at hrun
      cases o with
      | vstr ks =>
        dsimp only at hrun
        cases hm : mergedLookup reqs opts ks with
        | some tk =>
          rw [hm] at hrun
          dsimp only at hrun
          rcases hr : check_type_inner rs tenv f va tk s with ⟨s1, res⟩
          rw [hr] at hrun
          cases res with
          | error er => cases hrun
          | ok r =>
            refine step_checked tk s1 r hr hrun (Or.inl ?_)
            rintro (⟨ks', hks', hm', _⟩ | ⟨hnstr, _⟩)
            · rw [hha] at hks'
              injection hks' with hks'
              injection hks' with hks'
              rw [← hks'] at hm'
              rw [hm] at hm'
              cases hm'
            · exact hnstr ks hha
        | none =>
          rw [hm] at hrun
          dsimp only at hrun
          cases hg : regexFind rs rgx ks with
          | some tv =>
            rw [hg] at hrun
            dsimp only at hrun
            rcases hr : check_type_inner rs tenv f va tv s with ⟨s1, res⟩
            rw [hr] at hrun
            cases res with
            | error er => cases hrun
            | ok r =>
              refine step_checked tv s1 r hr hrun (Or.inl ?_)
              rintro (⟨ks', hks', _, hg'⟩ | ⟨hnstr, _⟩)
              · rw [hha] at hks'
                injection hks' with hks'
                injection hks' with hks'
                rw [← hks'] at hg'
                rw [hg] at hg'
                cases hg'
              · exact hnstr ks hha
          | none =>
            rw [hg] at hrun
            dsimp only at hrun
            exact step_pass hrun
      | vnone =>
        dsimp only at hrun
        by_cases hrg : rgx.isEmpty
        · rw [if_pos hrg] at hrun
          exact step_pass hrun
        · rw [if_neg hrg] at hrun
          cases hrun
      | vbool b =>
        dsimp only at hrun
        by_cases hrg : rgx.isEmpty
        · rw [if_pos hrg] at hrun
          exact step_pass hrun
        · rw [if_neg hrg] at hrun
          cases hrun
      | vint n =>
        dsimp only at hrun
        by_cases hrg : rgx.isEmpty
        · rw [if_pos hrg] at hrun
          exact step_pass hrun
        · rw [if_neg hrg] at hrun
          cases hrun
      | vlist es =>
        dsimp only at hrun
        by_cases hrg : rgx.isEmpty
        · rw [if_pos hrg] at hrun
          exact step_pass hrun
        · rw [if_neg hrg] at hrun
          cases hrun
      | vtuple es =>
        dsimp only at hrun
        by_cases hrg : rgx.isEmpty
        · rw [if_pos hrg] at hrun
          exact step_pass hrun
        · rw [if_neg hrg] at hrun
          cases hrun
      | vdict es =>
        dsimp only at hrun
        by_cases hrg : rgx.isEmpty
        · rw [if_pos hrg] at hrun
          exact step_pass hrun
        · rw [if_neg hrg] at hrun
          cases hrun

theorem hasKeyStr_congr {h h' : Nat → Option VObj} {ves : List (Nat × Nat)}
    {k : String} (hag : ∀ p ∈ ves, h' p.1 = h p.1) :
    hasKeyStr h' ves k = hasKeyStr h ves k := by
  unfold hasKeyStr
  induction ves with
  | nil => rfl
  | cons p rest ih =>
    simp only [List.any_cons]
    rw [hag p (by simp), ih fun q hq => hag q (by simp [hq])]

theorem firstMissingReq_congr {h h' : Nat → Option VObj}
    {ves : List (Nat × Nat)} {reqs : List (String × Nat)}
    (hag : ∀ p ∈ ves, h' p.1 = h p.1) :
    firstMissingReq h' ves reqs = firstMissingReq h ves reqs := by
  unfold firstMissingReq
  have hfun : (fun kv : String × Nat => !hasKeyStr h' ves kv.1) =
      fun kv : String × Nat => !hasKeyStr h ves kv.1 := by
    funext kv
    rw [hasKeyStr_congr hag]
  rw [hfun]

theorem firstMissing_of_missing {h : Nat → Option VObj}
    {ves : List (Nat × Nat)} {reqs : List (String × Nat)}
    (hmiss : ∃ kp ∈ reqs, hasKeyStr h ves kp.1 = false) :
    ∃ k, firstMissingReq h ves reqs = some k ∧
      (∃ tk, (k, tk) ∈ reqs) ∧ hasKeyStr h ves k = false := by
  obtain ⟨kp, hmem, hfalse⟩ := hmiss
  have hsome : (reqs.find? fun kv => !hasKeyStr h ves kv.1).isSome := by
    rw [List.find?_isSome]
    exact ⟨kp, hmem, by simp [hfalse]⟩
  obtain ⟨kv0, hf⟩ := Option.isSome_iff_exists.mp hsome
  refine ⟨kv0.1, ?_, ⟨kv0.2, ?_⟩, ?_⟩
  · unfold firstMissingReq
    rw [hf]
    rfl
  · have := List.mem_of_find?_eq_some hf
    simpa using this
  · have := List.find?_some hf
    simpa using this

/-- C8: the record (dict) checker.  Part 1: if some key written bare or
with the `!` prefix (i.e. some entry of the required-keys table) has no
matching key in the input mapping, the check raises a
`TypeMismatchException` naming a required key that is absent.  Part 2: on
success the result is a dict with exactly one output entry per input
entry, and every input entry whose key is covered by no exact rule and no
regex rule is copied through as the identical (key object, value object)
pair — unchecked and unmodified. -/
theorem c8_record_keys (rs : String → String → Bool)
    (tenv : Nat → Option TObj) (f : Nat) (h : Nat → Option VObj)
    (nA v t : Nat) (entries : List (String × Nat)) (ves : List (Nat × Nat))
    (ht : tenv t = some (.tDict entries)) (hne : entries ≠ [])
    (hv : h v = some (.vdict ves)) (hvlt : v < nA)
    (hkeys : ∀ p ∈ ves, p.1 < nA) :
    ((∃ kp ∈ requiredKeys entries, hasKeyStr h ves kp.1 = false) →
      ∃ k, (∃ tk, (k, tk) ∈ requiredKeys entries) ∧
        hasKeyStr h ves k = false ∧
        (check_type rs tenv (f + 1) h nA v t).2 =
          .error (.mismatch v t (some (reqMsg k)))) ∧
    (∀ r, (check_type rs tenv (f + 1) h nA v t).2 = .ok r →
      ∃ outs, (check_type rs tenv (f + 1) h nA v t).1.heap r =
          some (.vdict outs) ∧
        outs.length = ves.length ∧
        ∀ i (hi : i < ves.length) (ho : i < outs.length),
          Uncovered rs h (requiredKeys entries) (optionalKeys entries)
            (regexpKeys entries) (ves.get ⟨i, hi⟩).1 →
          outs.get ⟨i, ho⟩ = ves.get ⟨i, hi⟩) := by
  have hrec : RecTab (check_type_inner rs tenv f) := fun v' t' s' =>
    tab_check_type_inner rs tenv f v' t' s'
  set s0 := initSession h nA with hs0
  set s1 := (alloc s0 (.vdict [])).1 with hs1
  set shell := (alloc s0 (.vdict [])).2 with hshell
  set s2 : Session := { s1 with current := updF s1.current (v, t) (some shell),
                                listLoop := fun _ => false } with hs2def
  have hshellA : shell = nA := rfl
  have hs2heap : ∀ a, a ≠ nA → s2.heap a = h a := by
    intro a ha
    show (if a = nA then some (.vdict []) else h a) = h a
    rw [if_neg ha]
  have hs2v : s2.heap v = some (.vdict ves) := by
    rw [hs2heap v (by omega)]
    exact hv
  have hs2shell : s2.heap shell = some (.vdict []) := by
    show (if nA = nA then some (.vdict []) else h nA) = some (.vdict [])
    rw [if_pos rfl]
  have hs2next : s2.nextAddr = nA + 1 := rfl
  have hagree : ∀ p ∈ ves, s2.heap p.1 = h p.1 := by
    intro p hp
    exact hs2heap p.1 (by have := hkeys p hp; omega)
  have hec : check_type rs tenv (f + 1) h nA v t =
      handler v t s0 (customizedCheck rs (check_type_inner rs tenv f) v t
        (.ckDict entries) s0) := by
    rw [check_type_eq]
    simp only [dispatch, ht]
  have hpre : pre_check_type (.ckDict entries) v t s0 =
      (s1, .ok (some shell)) :=
    pre_dict_shell (show s0.heap v = some (.vdict ves) from hv)
  have hcc : customizedCheck rs (check_type_inner rs tenv f) v t
      (.ckDict entries) s0 =
      (match final_shell rs (check_type_inner rs tenv f) v t
          (.ckDict entries) shell s2 with
       | (s3, .error e) =>
          ({ s3 with succeeded := s1.succeeded, listLoop := s1.listLoop },
            .error e)
       | (s3, .ok _) => ({ s3 with listLoop := s1.listLoop }, .ok shell)) := by
    unfold customizedCheck
    rw [if_neg (show ¬s0.listLoop (v, t) = true from by
      show ¬false = true
      simp), hpre]
  have hemp : ¬entries.isEmpty = true := by
    cases entries with
    | nil => exact absurd rfl hne
    | cons a b => simp
  have hfs : final_shell rs (check_type_inner rs tenv f) v t
      (.ckDict entries) shell s2 =
      (match firstMissingReq h ves (requiredKeys entries) with
       | some k => (s2, .error (.mismatch v t (some (reqMsg k))))
       | none =>
          dictEntriesInto rs (check_type_inner rs tenv f) shell
            (requiredKeys entries) (optionalKeys entries)
            (regexpKeys entries) ves s2) := by
    unfold final_shell
    rw [hs2v]
    dsimp only
    rw [if_neg hemp, firstMissingReq_congr hagree]
  constructor
  · intro hmiss
    obtain ⟨k, hfm, hmem, habs⟩ := firstMissing_of_missing hmiss
    refine ⟨k, hmem, habs, ?_⟩
    rw [hec, hcc, hfs, hfm]
    rfl
  · intro r hok
    rw [hec, hcc, hfs] at hok ⊢
    cases hfm : firstMissingReq h ves (requiredKeys entries) with
    | some k =>
      rw [hfm] at hok
      dsimp only at hok
      unfold handler at hok
      dsimp only at hok
      cases hok
    | none =>
      rw [hfm] at hok
      dsimp only at hok ⊢
      rcases hrun : dictEntriesInto rs (check_type_inner rs tenv f) shell
          (requiredKeys entries) (optionalKeys entries)
          (regexpKeys entries) ves s2 with ⟨s3, res⟩
      rw [hrun] at hok
      cases res with
      | error e =>
        dsimp only at hok
        unfold handler at hok
        dsimp only at hok
        cases hok
      | ok u =>
        dsimp only at hok ⊢
        have hc3cur : s3.current (v, t) = some shell := by
          have htb : (dictEntriesInto rs (check_type_inner rs tenv f)
                shell (requiredKeys entries) (optionalKeys entries)
                (regexpKeys entries) ves s2).1.current = s2.current ∧
              (dictEntriesInto rs (check_type_inner rs tenv f) shell
                (requiredKeys entries) (optionalKeys entries)
                (regexpKeys entries) ves s2).1.listLoop = s2.listLoop :=
            tab_dictEntriesInto hrec ves s2
          rw [show (dictEntriesInto rs (check_type_inner rs tenv f) shell
            (requiredKeys entries) (optionalKeys entries)
            (regexpKeys entries) ves s2) = (s3, .ok u) from hrun] at htb
          have : s3.current = s2.current := htb.1
          rw [this]
          show updF s1.current (v, t) (some shell) (v, t) = some shell
          simp [updF]
        unfold handler at hok ⊢
        dsimp only at hok ⊢
        rw [hc3cur] at hok ⊢
        dsimp only at hok ⊢
        injection hok with hok
        subst hok
        obtain ⟨outs, hh1, hh2, hh3⟩ := dictInto_passthrough rs tenv f ves s2
          [] hs2shell (by omega) (fun p hp => by
            have := hkeys p hp
            omega) s3 u hrun
        refine ⟨outs, by simpa using hh1, hh2, ?_⟩
        intro i hi ho hunc
        refine hh3 i hi ho ?_
        rw [uncovered_congr (hagree _ (List.get_mem ves _ hi))]
        exact hunc

/-- C8 witness: `check_type({"a": 1}, {"b": int})` raises the
missing-required-key mismatch naming `'b'`, and
`check_type({"a": 1}, {"?zz": int})` passes the unknown entry through
unchanged. -/
def c8wh : Nat → Option VObj := fun a =>
  if a = 0 then some (.vdict [(1, 2)]) else
  if a = 1 then some (.vstr "a") else
  if a = 2 then some (.vint 1) else none

def c8wte : Nat → Option TObj := fun a =>
  if a = 0 then some (.tDict [("b", 1)]) else
  if a = 1 then some .tInt else
  if a = 2 then some (.tDict [("?zz", 1)]) else none

theorem c8_record_keys_witness :
    (check_type wrs c8wte 3 c8wh 3 0 0).2 =
      .error (.mismatch 0 0 (some (reqMsg "b"))) ∧
    (∃ outs, (check_type wrs c8wte 3 c8wh 3 0 2).1.heap 3 =
        some (.vdict outs) ∧ outs.length = 1 ∧
      ∀ i (hi : i < 1) (ho : i < outs.length),
        Uncovered wrs c8wh (requiredKeys [("?zz", 1)])
          (optionalKeys [("?zz", 1)]) (regexpKeys [("?zz", 1)])
          (([(1, 2)] : List (Nat × Nat)).get ⟨i, hi⟩).1 →
        outs.get ⟨i, ho⟩ = ([(1, 2)] : List (Nat × Nat)).get ⟨i, hi⟩) := by
  constructor
  · obtain ⟨k, hk, habs, hres⟩ := (c8_record_keys wrs c8wte 2 c8wh 3 0 0
      [("b", 1)] [(1, 2)] rfl (by simp) rfl (by omega)
      (by intro p hp; simp at hp; simp [hp])).1
      ⟨("b", 1), by decide, by decide⟩
    have hkb : k = "b" := by
      obtain ⟨tk, hmem⟩ := hk
      have : requiredKeys [("b", 1)] = [("b", 1)] := by decide
      rw [this] at hmem
      simp at hmem
      exact hmem.1
    rw [hkb] at hres
    exact hres
  · exact (c8_record_keys wrs c8wte 2 c8wh 3 0 2
      [("?zz", 1)] [(1, 2)] rfl (by simp) rfl (by omega)
      (by intro p hp; simp at hp; simp [hp])).2 3 (by decide)

theorem c10_no_input_mutation_witness :
    ((check_type wrs c10wte 10 c10wh 3 0 0).1.heap 0 = some (.vlist [1, 2]) ∧
      (check_type wrs c10wte 10 c10wh 3 0 0).1.heap 1 = some (.vstr "abc") ∧
      (check_type wrs c10wte 10 c10wh 3 0 0).1.heap 2 = some (.vint 123)) ∧
    (check_type wrs c10wte 10 c10wh 3 0 0).2 = .ok 3 ∧ (3 : Nat) ≤ 3 := by
  have hfr := (c10_no_input_mutation wrs c10wte 10 0 0 (initSession c10wh 3)).1
  have hfresh := (c10_no_input_mutation wrs c10wte 9 0 0
    (initSession c10wh 3)).2 3 rfl rfl
    (Or.inr (Or.inr (Or.inl ⟨[1, 2], false, rfl⟩))) (by decide)
  refine ⟨⟨?_, ?_, ?_⟩, by decide, hfresh⟩
  · exact (hfr.2 0 (by decide)).trans (by decide)
  · exact (hfr.2 1 (by decide)).trans (by decide)
  · exact (hfr.2 2 (by decide)).trans (by decide)

/-- C5 counterexample environments.  First: `d = (tuple_((int,)), [int])`
on `v = 5` — the first check returns the list `[5]` (second alternative),
the recheck matches the first alternative and returns the tuple `(5,)`,
which is not equal to `[5]`.  Second: `d = (list_([[int]], strict=True),
[int])` on `v = 5` — the first check returns `[5]`, the recheck takes the
now-satisfiable strict branch and returns `[[5]]`. -/
def c5h : Nat → Option VObj := fun a => if a = 0 then some (.vint 5) else none

def c5te : Nat → Option TObj := fun a =>
  if a = 0 then some (.tAlt [1, 2]) else
  if a = 1 then some (.tTuple [3] false) else
  if a = 2 then some (.tList [3] false) else
  if a = 3 then some .tInt else none

def c5te2 : Nat → Option TObj := fun a =>
  if a = 0 then some (.tAlt [1, 2]) else
  if a = 1 then some (.tList [4] true) else
  if a = 2 then some (.tList [3] false) else
  if a = 3 then some .tInt else
  if a = 4 then some (.tList [3] false) else none

/-- C5 counterexample: two instances where `check_type(v, d)` succeeds but
`check_type(check_type(v, d), d)` returns a value that is not equal to
`check_type(v, d)`.  With `d = (tuple_((int,)), [int])` and `v = 5` the
first check yields the list `[5]` and the recheck yields the tuple `(5,)`;
with `d = (list_([[int]], strict=True), [int])` the first check yields
`[5]` and the recheck yields `[[5]]`. -/
theorem c5_counterexample :
    ((check_type wrs c5te 10 c5h 1 0 0).2 = .ok 1 ∧
      (check_type wrs c5te 10 c5h 1 0 0).1.heap 1 = some (.vlist [0]) ∧
      (check_type wrs c5te 10
          (check_type wrs c5te 10 c5h 1 0 0).1.heap
          (check_type wrs c5te 10 c5h 1 0 0).1.nextAddr 1 0).2 = .ok 2 ∧
      (check_type wrs c5te 10
          (check_type wrs c5te 10 c5h 1 0 0).1.heap
          (check_type wrs c5te 10 c5h 1 0 0).1.nextAddr 1 0).1.heap 2 =
        some (.vtuple [0]) ∧
      (∀ es : List Nat, VObj.vlist es ≠ VObj.vtuple es)) ∧
    ((check_type wrs c5te2 10 c5h 1 0 0).2 = .ok 1 ∧
      (check_type wrs c5te2 10 c5h 1 0 0).1.heap 1 = some (.vlist [0]) ∧
      (check_type wrs c5te2 10
          (check_type wrs c5te2 10 c5h 1 0 0).1.heap
          (check_type wrs c5te2 10 c5h 1 0 0).1.nextAddr 1 0).2 = .ok 2 ∧
      (check_type wrs c5te2 10
          (check_type wrs c5te2 10 c5h 1 0 0).1.heap
          (check_type wrs c5te2 10 c5h 1 0 0).1.nextAddr 1 0).1.heap 2 =
        some (.vlist [3]) ∧
      (check_type wrs c5te2 10
          (check_type wrs c5te2 10 c5h 1 0 0).1.heap
          (check_type wrs c5te2 10 c5h 1 0 0).1.nextAddr 1 0).1.heap 3 =
        some (.vlist [0]) ∧
      (check_type wrs c5te2 10 c5h 1 0 0).1.heap 0 = some (.vint 5)) := by
  refine ⟨⟨by decide, by decide, by decide, by decide, by intro es; simp⟩,
    by decide, by decide, by decide, by decide, by decide, by decide⟩

/-! ### C5, amended: idempotence for the restricted descriptor grammar

The counterexamples above (and the further interactions of auto-wrap with
alternation, of `MapChecker` key conversion with hashability, and of regex
rules with non-string keys) show that idempotence requires cutting the
descriptor grammar down to: `None`, the primitives, the not-None
descriptor `()`, non-strict lists, and dict descriptors without regex
rules — no alternation, no tuple checker, no strict lists, no maps.
For this fragment we build a pure, heap-free checker on value trees and
prove the engine simulates it; idempotence of the pure checker then
transfers to the engine. -/

/-- Value trees: the unfolding of an acyclic heap value. -/
inductive VTree where
  | vtN : VTree
  | vtB : Bool → VTree
  | vtI : Int → VTree
  | vtS : String → VTree
  | vtL : List VTree → VTree
  | vtT : List VTree → VTree
  | vtD : List (VTree × VTree) → VTree

/-- Descriptor trees of the restricted grammar: `None`, `int`, `str`,
`bool`, `()` (not-None), `[]`, a one-inner-type non-strict list, and a
dict descriptor without regex rules. -/
inductive DTree where
  | dN : DTree
  | dI : DTree
  | dS : DTree
  | dB : DTree
  | dNN : DTree
  | dL0 : DTree
  | dL1 : DTree → DTree
  | dDict : List (String × DTree) → DTree

/-- Is the value tree a sequence (list or tuple)? -/
def isSeqT : VTree → Bool
  | .vtL _ => true
  | .vtT _ => true
  | _ => false

/-- Is the value tree a string? -/
def isStrT : VTree → Bool
  | .vtS _ => true
  | _ => false

/-- Is the value tree a dict? -/
def isDictT : VTree → Bool
  | .vtD _ => true
  | _ => false

/-- Does the entry list contain the string key `k` (`k not in value`)? -/
def HasKeyT (ves : List (VTree × VTree)) (k : String) : Prop :=
  ∃ p ∈ ves, p.1 = VTree.vtS k

mutual
/-- The pure checker, success form: `POk d u w` — checking value tree `u`
against descriptor tree `d` succeeds with result tree `w`.  Mirrors the
engine case by case on the restricted grammar. -/
inductive POk : DTree → VTree → VTree → Prop where
  | pN : POk .dN .vtN .vtN
  | pI {n : Int} : POk .dI (.vtI n) (.vtI n)
  | pS {s : String} : POk .dS (.vtS s) (.vtS s)
  | pB {b : Bool} : POk .dB (.vtB b) (.vtB b)
  | pNN {u : VTree} : u ≠ .vtN → POk .dNN u u
  | pL0l {es : List VTree} : POk .dL0 (.vtL es) (.vtL es)
  | pL0t {es : List VTree} : POk .dL0 (.vtT es) (.vtL es)
  | pL0w {u : VTree} : isSeqT u = false → POk .dL0 u (.vtL [u])
  | pL1l {d : DTree} {es ws : List VTree} :
      POkL d es ws → POk (.dL1 d) (.vtL es) (.vtL ws)
  | pL1t {d : DTree} {es ws : List VTree} :
      POkL d es ws → POk (.dL1 d) (.vtT es) (.vtL ws)
  | pL1w {d : DTree} {u w : VTree} :
      isSeqT u = false → POk d u w → POk (.dL1 d) u (.vtL [w])
  | pD {ents : List (String × DTree)} {ves outs : List (VTree × VTree)} :
      (∀ kv ∈ requiredKeys ents, HasKeyT ves kv.1) →
      PEntryL (requiredKeys ents) (optionalKeys ents) ves outs →
      POk (.dDict ents) (.vtD ves) (.vtD outs)

/-- Pointwise success on a list of elements against one inner type. -/
inductive POkL : DTree → List VTree → List VTree → Prop where
  | nil {d : DTree} : POkL d [] []
  | cons {d : DTree} {e w : VTree} {es ws : List VTree} :
      POk d e w → POkL d es ws → POkL d (e :: es) (w :: ws)

/-- One dict entry of the pure checker: covered by an exact rule (checked
recursively) or passed through (uncovered string key, or non-string key —
there are no regex rules in the restricted grammar). -/
inductive PEntry : List (String × DTree) → List (String × DTree) →
    VTree × VTree → VTree × VTree → Prop where
  | cov {reqs opts : List (String × DTree)} {ks : String} {vu o : VTree}
      {tk : DTree} :
      mergedLookup reqs opts ks = some tk → POk tk vu o →
      PEntry reqs opts (.vtS ks, vu) (.vtS ks, o)
  | unc {reqs opts : List (String × DTree)} {ks : String} {vu : VTree} :
      mergedLookup reqs opts ks = none →
      PEntry reqs opts (.vtS ks, vu) (.vtS ks, vu)
  | nonstr {reqs opts : List (String × DTree)} {ku vu : VTree} :
      isStrT ku = false → PEntry reqs opts (ku, vu) (ku, vu)

/-- Pointwise `PEntry` over the entries of an input dict. -/
inductive PEntryL : List (String × DTree) → List (String × DTree) →
    List (VTree × VTree) → List (VTree × VTree) → Prop where
  | nil {reqs opts : List (String × DTree)} : PEntryL reqs opts [] []
  | cons {reqs opts : List (String × DTree)} {p q : VTree × VTree}
      {ps qs : List (VTree × VTree)} :
      PEntry reqs opts p q → PEntryL reqs opts ps qs →
      PEntryL reqs opts (p :: ps) (q :: qs)
end

/-- The pure checker, failure form: `PFail d u` — checking `u` against
`d` raises `TypeMismatchException`.  Element/entry failures are recorded
by membership (the engine stops at the first one, but which failing
member is hit does not matter for failure itself). -/
inductive PFail : DTree → VTree → Prop where
  | fN {u : VTree} : u ≠ .vtN → PFail .dN u
  | fI {u : VTree} : (∀ n : Int, u ≠ .vtI n) → PFail .dI u
  | fS {u : VTree} : (∀ s : String, u ≠ .vtS s) → PFail .dS u
  | fB {u : VTree} : (∀ b : Bool, u ≠ .vtB b) → PFail .dB u
  | fNN : PFail .dNN .vtN
  | fL1l {d : DTree} {es : List VTree} {e : VTree} :
      e ∈ es → PFail d e → PFail (.dL1 d) (.vtL es)
  | fL1t {d : DTree} {es : List VTree} {e : VTree} :
      e ∈ es → PFail d e → PFail (.dL1 d) (.vtT es)
  | fL1w {d : DTree} {u : VTree} :
      isSeqT u = false → PFail d u → PFail (.dL1 d) u
  | fDpre {ents : List (String × DTree)} {u : VTree} :
      isDictT u = false → PFail (.dDict ents) u
  | fDreq {ents : List (String × DTree)} {ves : List (VTree × VTree)}
      {kv : String × DTree} :
      kv ∈ requiredKeys ents → ¬ HasKeyT ves kv.1 →
      PFail (.dDict ents) (.vtD ves)
  | fDval {ents : List (String × DTree)} {ves : List (VTree × VTree)}
      {ks : String} {vu : VTree} {tk : DTree} :
      (VTree.vtS ks, vu) ∈ ves →
      mergedLookup (requiredKeys ents) (optionalKeys ents) ks = some tk →
      PFail tk vu → PFail (.dDict ents) (.vtD ves)

/-- Every descriptor tree has positive size. -/
theorem dtree_sizeOf_pos (d : DTree) : 0 < sizeOf d := by
  cases d <;> simp_arith

/-- A dict entry's descriptor is smaller than the whole dict descriptor. -/
theorem sizeOf_entries_mem {ents : List (String × DTree)} {p : String × DTree}
    (hp : p ∈ ents) : sizeOf p.2 < sizeOf (DTree.dDict ents) := by
  have h1 := List.sizeOf_lt_of_mem hp
  have h2 : sizeOf p.2 < sizeOf p := by cases p; simp_arith
  simp only [DTree.dDict.sizeOf_spec]
  omega

/-- A required-rule payload comes from some descriptor entry. -/
theorem req_mem_src {ents : List (String × DTree)} {kv : String × DTree}
    (h : kv ∈ requiredKeys ents) : ∃ p ∈ ents, p.2 = kv.2 := by
  unfold requiredKeys at h
  rcases List.mem_map.1 h with ⟨p, hp, he⟩
  exact ⟨p, (List.mem_filter.1 hp).1, by rw [← he]⟩

/-- An optional-rule payload comes from some descriptor entry. -/
theorem opt_mem_src {ents : List (String × DTree)} {kv : String × DTree}
    (h : kv ∈ optionalKeys ents) : ∃ p ∈ ents, p.2 = kv.2 := by
  unfold optionalKeys at h
  rcases List.mem_map.1 h with ⟨p, hp, he⟩
  exact ⟨p, (List.mem_filter.1 hp).1, by rw [← he]⟩

/-- A successful merged lookup returns the payload of a rule. -/
theorem merged_src {α : Type} {reqs opts : List (String × α)} {ks : String}
    {tk : α} (h : mergedLookup reqs opts ks = some tk) :
    (∃ kv ∈ reqs, kv.2 = tk) ∨ ∃ kv ∈ opts, kv.2 = tk := by
  unfold mergedLookup at h
  cases hf : reqs.find? fun kv => kv.1 = ks with
  | some kv =>
    rw [hf] at h
    exact .inl ⟨kv, List.mem_of_find?_eq_some hf, by cases h; rfl⟩
  | none =>
    rw [hf] at h
    cases hg : opts.find? fun kv => kv.1 = ks with
    | some kv =>
      rw [hg] at h
      exact .inr ⟨kv, List.mem_of_find?_eq_some hg, by cases h; rfl⟩
    | none => rw [hg] at h; cases h

/-- The descriptor found by a merged lookup is smaller than the dict
descriptor it comes from. -/
theorem sz_merged {ents : List (String × DTree)} {ks : String} {tk : DTree}
    (h : mergedLookup (requiredKeys ents) (optionalKeys ents) ks = some tk) :
    sizeOf tk < sizeOf (DTree.dDict ents) := by
  rcases merged_src h with ⟨kv, hkv, he⟩ | ⟨kv, hkv, he⟩
  · rcases req_mem_src hkv with ⟨p, hp, hpe⟩
    have := sizeOf_entries_mem hp
    rw [hpe, he] at this; exact this
  · rcases opt_mem_src hkv with ⟨p, hp, hpe⟩
    have := sizeOf_entries_mem hp
    rw [hpe, he] at this; exact this

/-- A member of a list with pointwise success has some success. -/
theorem pokl_mem {d : DTree} {e : VTree} :
    ∀ {es ws : List VTree}, POkL d es ws → e ∈ es → ∃ w, POk d e w := by
  intro es
  induction es with
  | nil => intro ws h he; cases he
  | cons a as ih =>
    intro ws h he
    cases h with
    | cons h1 hrest =>
      rcases List.mem_cons.1 he with rfl | he
      · exact ⟨_, h1⟩
      · exact ih hrest he

/-- A member of an entry list with pointwise success has some success. -/
theorem pentryl_mem {reqs opts : List (String × DTree)} {p : VTree × VTree} :
    ∀ {ves outs : List (VTree × VTree)}, PEntryL reqs opts ves outs →
      p ∈ ves → ∃ q, PEntry reqs opts p q := by
  intro ves
  induction ves with
  | nil => intro outs h hp; cases hp
  | cons a as ih =>
    intro outs h hp
    cases h with
    | cons h1 hrest =>
      rcases List.mem_cons.1 hp with rfl | hp
      · exact ⟨_, h1⟩
      · exact ih hrest hp

/-- `PEntry` preserves the key object. -/
theorem pentry_key {reqs opts : List (String × DTree)} {p q : VTree × VTree}
    (h : PEntry reqs opts p q) : q.1 = p.1 := by
  cases h <;> rfl

/-- `PEntryL` preserves which string keys are present. -/
theorem pentryl_haskey {reqs opts : List (String × DTree)} {k : String} :
    ∀ {ves outs : List (VTree × VTree)}, PEntryL reqs opts ves outs →
      HasKeyT ves k → HasKeyT outs k := by
  intro ves
  induction ves with
  | nil => intro outs h hk; cases h; exact hk
  | cons a as ih =>
    intro outs h hk
    cases h with
    | cons h1 hrest =>
      rcases hk with ⟨p, hp, hpk⟩
      rcases List.mem_cons.1 hp with rfl | hp
      · exact ⟨_, List.mem_cons_self _ _, (pentry_key h1).trans hpk⟩
      · rcases ih hrest ⟨p, hp, hpk⟩ with ⟨q, hq, hqk⟩
        exact ⟨q, List.mem_cons_of_mem _ hq, hqk⟩

/-- Pointwise determinism for element lists, given determinism of the
inner descriptor. -/
theorem pokl_det_aux {d : DTree}
    (hdet : ∀ u w w' : VTree, POk d u w → POk d u w' → w = w') :
    ∀ {es ws ws' : List VTree}, POkL d es ws → POkL d es ws' → ws = ws' := by
  intro es
  induction es with
  | nil => intro ws ws' h h'; cases h; cases h'; rfl
  | cons a as ih =>
    intro ws ws' h h'
    cases h with
    | cons h1 hrest =>
      cases h' with
      | cons h1' hrest' =>
        rw [hdet _ _ _ h1 h1', ih hrest hrest']

/-- Pointwise determinism for entry lists, given determinism of every
descriptor reachable through the merged lookup. -/
theorem pentry_det_aux {reqs opts : List (String × DTree)}
    (hdet : ∀ (tk : DTree) (ks : String), mergedLookup reqs opts ks = some tk →
      ∀ u w w' : VTree, POk tk u w → POk tk u w' → w = w')
    {p q q' : VTree × VTree}
    (h : PEntry reqs opts p q) (h' : PEntry reqs opts p q') : q = q' := by
  cases h with
  | cov hlk hok =>
    cases h' with
    | cov hlk' hok' =>
      rw [hlk] at hlk'; cases hlk'
      rw [hdet _ _ hlk _ _ _ hok hok']
    | unc hlk' => rw [hlk] at hlk'; cases hlk'
    | nonstr hs => simp [isStrT] at hs
  | unc hlk =>
    cases h' with
    | cov hlk' _ => rw [hlk] at hlk'; cases hlk'
    | unc _ => rfl
    | nonstr hs => simp [isStrT] at hs
  | nonstr hs =>
    cases h' with
    | cov _ _ => simp [isStrT] at hs
    | unc _ => simp [isStrT] at hs
    | nonstr _ => rfl

/-- Entry-list determinism from entry determinism. -/
theorem pentryl_det_aux {reqs opts : List (String × DTree)}
    (hdet : ∀ (tk : DTree) (ks : String), mergedLookup reqs opts ks = some tk →
      ∀ u w w' : VTree, POk tk u w → POk tk u w' → w = w') :
    ∀ {ves outs outs' : List (VTree × VTree)}, PEntryL reqs opts ves outs →
      PEntryL reqs opts ves outs' → outs = outs' := by
  intro ves
  induction ves with
  | nil => intro outs outs' h h'; cases h; cases h'; rfl
  | cons a as ih =>
    intro outs outs' h h'
    cases h with
    | cons h1 hrest =>
      cases h' with
      | cons h1' hrest' =>
        rw [pentry_det_aux hdet h1 h1', ih hrest hrest']

/-- Success and failure of the pure checker exclude each other. -/
theorem pok_pfail_excl {d : DTree} {u w : VTree}
    (hok : POk d u w) (hf : PFail d u) : False := by
  have main : ∀ N : Nat, ∀ d : DTree, sizeOf d ≤ N → ∀ u w : VTree,
      POk d u w → PFail d u → False := by
    intro N
    induction N with
    | zero =>
      intro d hd
      exact absurd hd (by have := dtree_sizeOf_pos d; omega)
    | succ N ih =>
      intro d hd u w hok hf
      cases hf with
      | fN hne => cases hok; exact hne rfl
      | fI hne => cases hok; exact hne _ rfl
      | fS hne => cases hok; exact hne _ rfl
      | fB hne => cases hok; exact hne _ rfl
      | fNN => cases hok with | pNN hne => exact hne rfl
      | fL1l hmem hfe =>
        cases hok with
        | pL1l hl =>
          rcases pokl_mem hl hmem with ⟨we, hwe⟩
          exact ih _ (by simp only [DTree.dL1.sizeOf_spec] at hd; omega)
            _ _ hwe hfe
        | pL1w hs _ => simp [isSeqT] at hs
      | fL1t hmem hfe =>
        cases hok with
        | pL1t hl =>
          rcases pokl_mem hl hmem with ⟨we, hwe⟩
          exact ih _ (by simp only [DTree.dL1.sizeOf_spec] at hd; omega)
            _ _ hwe hfe
        | pL1w hs _ => simp [isSeqT] at hs
      | fL1w hs hfe =>
        cases hok with
        | pL1l _ => simp [isSeqT] at hs
        | pL1t _ => simp [isSeqT] at hs
        | pL1w hs' hok' =>
          exact ih _ (by simp only [DTree.dL1.sizeOf_spec] at hd; omega)
            _ _ hok' hfe
      | fDpre hs => cases hok; simp [isDictT] at hs
      | fDreq hkv hnk =>
        cases hok with
        | pD hreq _ => exact hnk (hreq _ hkv)
      | fDval hmem hlook hfe =>
        cases hok with
        | pD hreq hl =>
          rcases pentryl_mem hl hmem with ⟨q, hq⟩
          cases hq with
          | cov hlk hok' =>
            rw [hlook] at hlk; cases hlk
            exact ih _ (by have := sz_merged hlook; omega) _ _ hok' hfe
          | unc hlk => rw [hlook] at hlk; cases hlk
          | nonstr hs => simp [isStrT] at hs
  exact main (sizeOf d) d le_rfl u w hok hf

/-- The pure checker's success result is unique. -/
theorem pok_det {d : DTree} {u w w' : VTree}
    (hok : POk d u w) (hok' : POk d u w') : w = w' := by
  have main : ∀ N : Nat, ∀ d : DTree, sizeOf d ≤ N → ∀ u w w' : VTree,
      POk d u w → POk d u w' → w = w' := by
    intro N
    induction N with
    | zero =>
      intro d hd
      exact absurd hd (by have := dtree_sizeOf_pos d; omega)
    | succ N ih =>
      intro d hd u w w' hok hok'
      cases hok with
      | pN => cases hok'; rfl
      | pI => cases hok'; rfl
      | pS => cases hok'; rfl
      | pB => cases hok'; rfl
      | pNN hne => cases hok'; rfl
      | pL0l =>
        cases hok' with
        | pL0l => rfl
        | pL0w hs => simp [isSeqT] at hs
      | pL0t =>
        cases hok' with
        | pL0t => rfl
        | pL0w hs => simp [isSeqT] at hs
      | pL0w hs =>
        cases hok' with
        | pL0l => simp [isSeqT] at hs
        | pL0t => simp [isSeqT] at hs
        | pL0w _ => rfl
      | @pL1l d1 es ws hl =>
        cases hok' with
        | pL1l hl' =>
          have hdd : sizeOf d1 ≤ N := by
            simp only [DTree.dL1.sizeOf_spec] at hd; omega
          rw [pokl_det_aux (fun u w w' => ih d1 hdd u w w') hl hl']
        | pL1w hs _ => simp [isSeqT] at hs
      | @pL1t d1 es ws hl =>
        cases hok' with
        | pL1t hl' =>
          have hdd : sizeOf d1 ≤ N := by
            simp only [DTree.dL1.sizeOf_spec] at hd; omega
          rw [pokl_det_aux (fun u w w' => ih d1 hdd u w w') hl hl']
        | pL1w hs _ => simp [isSeqT] at hs
      | @pL1w d1 u1 w1 hs hok1 =>
        cases hok' with
        | pL1l _ => simp [isSeqT] at hs
        | pL1t _ => simp [isSeqT] at hs
        | pL1w _ hok1' =>
          have hdd : sizeOf d1 ≤ N := by
            simp only [DTree.dL1.sizeOf_spec] at hd; omega
          rw [ih d1 hdd _ _ _ hok1 hok1']
      | @pD ents ves outs hreq hl =>
        cases hok' with
        | pD hreq' hl' =>
          have hdet : ∀ (tk : DTree) (ks : String),
              mergedLookup (requiredKeys ents) (optionalKeys ents) ks =
                some tk →
              ∀ u w w' : VTree, POk tk u w → POk tk u w' → w = w' :=
            fun tk ks hlk u w w' h1 h2 =>
              ih tk (by have := sz_merged hlk; omega) u w w' h1 h2
          rw [pentryl_det_aux hdet hl hl']
  exact main (sizeOf d) d le_rfl u w w' hok hok'

/-- Element-list idempotence from inner idempotence. -/
theorem pokl_idem_aux {d : DTree}
    (hid : ∀ u w : VTree, POk d u w → POk d w w) :
    ∀ {es ws : List VTree}, POkL d es ws → POkL d ws ws := by
  intro es
  induction es with
  | nil => intro ws h; cases h; exact .nil
  | cons a as ih =>
    intro ws h
    cases h with
    | cons h1 hrest => exact .cons (hid _ _ h1) (ih hrest)

/-- Entry idempotence from idempotence of every descriptor reachable
through the merged lookup. -/
theorem pentry_idem_aux {reqs opts : List (String × DTree)}
    (hid : ∀ (tk : DTree) (ks : String), mergedLookup reqs opts ks = some tk →
      ∀ u w : VTree, POk tk u w → POk tk w w)
    {p q : VTree × VTree} (h : PEntry reqs opts p q) : PEntry reqs opts q q := by
  cases h with
  | cov hlk hok => exact .cov hlk (hid _ _ hlk _ _ hok)
  | unc hlk => exact .unc hlk
  | nonstr hs => exact .nonstr hs

/-- Entry-list idempotence. -/
theorem pentryl_idem_aux {reqs opts : List (String × DTree)}
    (hid : ∀ (tk : DTree) (ks : String), mergedLookup reqs opts ks = some tk →
      ∀ u w : VTree, POk tk u w → POk tk w w) :
    ∀ {ves outs : List (VTree × VTree)}, PEntryL reqs opts ves outs →
      PEntryL reqs opts outs outs := by
  intro ves
  induction ves with
  | nil => intro outs h; cases h; exact .nil
  | cons a as ih =>
    intro outs h
    cases h with
    | cons h1 hrest => exact .cons (pentry_idem_aux hid h1) (ih hrest)

/-- Idempotence of the pure checker: a successful result re-checks to
itself. -/
theorem pok_idem {d : DTree} {u w : VTree} (hok : POk d u w) : POk d w w := by
  have main : ∀ N : Nat, ∀ d : DTree, sizeOf d ≤ N → ∀ u w : VTree,
      POk d u w → POk d w w := by
    intro N
    induction N with
    | zero =>
      intro d hd
      exact absurd hd (by have := dtree_sizeOf_pos d; omega)
    | succ N ih =>
      intro d hd u w hok
      cases hok with
      | pN => exact .pN
      | pI => exact .pI
      | pS => exact .pS
      | pB => exact .pB
      | pNN hne => exact .pNN hne
      | pL0l => exact .pL0l
      | pL0t => exact .pL0l
      | pL0w _ => exact .pL0l
      | @pL1l d1 es ws hl =>
        have hdd : sizeOf d1 ≤ N := by
          simp only [DTree.dL1.sizeOf_spec] at hd; omega
        exact .pL1l (pokl_idem_aux (fun u w => ih d1 hdd u w) hl)
      | @pL1t d1 es ws hl =>
        have hdd : sizeOf d1 ≤ N := by
          simp only [DTree.dL1.sizeOf_spec] at hd; omega
        exact .pL1l (pokl_idem_aux (fun u w => ih d1 hdd u w) hl)
      | @pL1w d1 u1 w1 hs hok1 =>
        have hdd : sizeOf d1 ≤ N := by
          simp only [DTree.dL1.sizeOf_spec] at hd; omega
        exact .pL1l (.cons (ih d1 hdd _ _ hok1) .nil)
      | @pD ents ves outs hreq hl =>
        have hid : ∀ (tk : DTree) (ks : String),
            mergedLookup (requiredKeys ents) (optionalKeys ents) ks =
              some tk →
            ∀ u w : VTree, POk tk u w → POk tk w w :=
          fun tk ks hlk u w h1 =>
            ih tk (by have := sz_merged hlk; omega) u w h1
        exact .pD (fun kv hkv => pentryl_haskey hl (hreq kv hkv))
          (pentryl_idem_aux hid hl)
  exact main (sizeOf d) d le_rfl u w hok

/-! ### Decoding heap values and descriptors into trees

Height-indexed decode relations: `DecVH h f a u` says address `a` of heap
`h` unfolds to the value tree `u` with a derivation of height at most `f`.
A derivation exists exactly when the object graph reachable from `a` is
acyclic, which is the claim's acyclicity hypothesis. -/

mutual
inductive DecVH (h : Nat → Option VObj) : Nat → Nat → VTree → Prop where
  | dvN {f a} : h a = some .vnone → DecVH h (f + 1) a .vtN
  | dvB {f a b} : h a = some (.vbool b) → DecVH h (f + 1) a (.vtB b)
  | dvI {f a n} : h a = some (.vint n) → DecVH h (f + 1) a (.vtI n)
  | dvS {f a s} : h a = some (.vstr s) → DecVH h (f + 1) a (.vtS s)
  | dvL {f a es us} : h a = some (.vlist es) → DecVLH h f es us →
      DecVH h (f + 1) a (.vtL us)
  | dvT {f a es us} : h a = some (.vtuple es) → DecVLH h f es us →
      DecVH h (f + 1) a (.vtT us)
  | dvD {f a es ps} : h a = some (.vdict es) → DecVDH h f es ps →
      DecVH h (f + 1) a (.vtD ps)

inductive DecVLH (h : Nat → Option VObj) : Nat → List Nat → List VTree →
    Prop where
  | nil {f} : DecVLH h f [] []
  | cons {f a u as us} : DecVH h f a u → DecVLH h f as us →
      DecVLH h f (a :: as) (u :: us)

inductive DecVDH (h : Nat → Option VObj) : Nat → List (Nat × Nat) →
    List (VTree × VTree) → Prop where
  | nil {f} : DecVDH h f [] []
  | cons {f ka va ku vu es ps} : DecVH h f ka ku → DecVH h f va vu →
      DecVDH h f es ps → DecVDH h f ((ka, va) :: es) ((ku, vu) :: ps)
end

/-- Address `a` decodes to value tree `u` (some finite derivation). -/
def DecV (h : Nat → Option VObj) (a : Nat) (u : VTree) : Prop :=
  ∃ f, DecVH h f a u

mutual
/-- Height-indexed decoding of a descriptor address into a descriptor tree
of the restricted grammar: `None`, primitives, `()` (the empty
alternation), `[]`, one-inner non-strict lists, and regex-free dict
descriptors.  Descriptors outside the restricted grammar (alternations
with alternatives, tuple checkers, strict lists, maps, dicts with regex
rules) have no decoding. -/
inductive DecTH (tenv : Nat → Option TObj) : Nat → Nat → DTree → Prop where
  | dtN {f t} : tenv t = some .tNone → DecTH tenv (f + 1) t .dN
  | dtI {f t} : tenv t = some .tInt → DecTH tenv (f + 1) t .dI
  | dtS {f t} : tenv t = some .tStr → DecTH tenv (f + 1) t .dS
  | dtB {f t} : tenv t = some .tBool → DecTH tenv (f + 1) t .dB
  | dtNN {f t} : tenv t = some (.tAlt []) → DecTH tenv (f + 1) t .dNN
  | dtL0 {f t} : tenv t = some (.tList [] false) → DecTH tenv (f + 1) t .dL0
  | dtL1 {f t t1 d1} : tenv t = some (.tList [t1] false) →
      DecTH tenv f t1 d1 → DecTH tenv (f + 1) t (.dL1 d1)
  | dtD {f t es ds} : tenv t = some (.tDict es) → regexpKeys es = [] →
      DecTEH tenv f es ds → DecTH tenv (f + 1) t (.dDict ds)

inductive DecTEH (tenv : Nat → Option TObj) : Nat → List (String × Nat) →
    List (String × DTree) → Prop where
  | nil {f} : DecTEH tenv f [] []
  | cons {f k tn dt es ds} : DecTH tenv f tn dt → DecTEH tenv f es ds →
      DecTEH tenv f ((k, tn) :: es) ((k, dt) :: ds)
end

/-- Descriptor address `t` decodes to descriptor tree `d`. -/
def DecT (tenv : Nat → Option TObj) (t : Nat) (d : DTree) : Prop :=
  ∃ f, DecTH tenv f t d

/-- The addresses stored inside a heap object. -/
def vobjTargets : VObj → List Nat
  | .vnone => []
  | .vbool _ => []
  | .vint _ => []
  | .vstr _ => []
  | .vlist es => es
  | .vtuple es => es
  | .vdict es => es.map (·.1) ++ es.map (·.2)

/-- Reachability in the heap object graph. -/
inductive ReachH (h : Nat → Option VObj) : Nat → Nat → Prop where
  | refl {a} : ReachH h a a
  | step {a o b c} : h a = some o → b ∈ vobjTargets o → ReachH h b c →
      ReachH h a c

/-- No address reachable from `a` satisfies `bad`. -/
def NoTouch (h : Nat → Option VObj) (a : Nat) (bad : Nat → Prop) : Prop :=
  ∀ b, ReachH h a b → ¬ bad b

/-- A well-formed heap: nothing allocated at or above the frontier, and
every stored address points below the frontier. -/
def WfH (h : Nat → Option VObj) (n : Nat) : Prop :=
  (∀ a, n ≤ a → h a = none) ∧
  (∀ a o, h a = some o → ∀ b ∈ vobjTargets o, b < n)

/-- Reachability is transitive. -/
theorem reach_trans {h : Nat → Option VObj} {a b c : Nat}
    (h1 : ReachH h a b) (h2 : ReachH h b c) : ReachH h a c := by
  induction h1 with
  | refl => exact h2
  | step ho hm _ ih => exact .step ho hm (ih h2)

/-- In a well-formed heap, everything reachable from below the frontier
stays below the frontier. -/
theorem reach_lt {h : Nat → Option VObj} {n a b : Nat}
    (hwf : WfH h n) (ha : a < n) (hr : ReachH h a b) : b < n := by
  induction hr with
  | refl => exact ha
  | step ho hm _ ih => exact ih (hwf.2 _ _ ho _ hm)

/-- If the heaps agree on everything reachable from `a` in `h`, then
reachability from `a` in `h'` implies reachability in `h`. -/
theorem reach_transfer {h h' : Nat → Option VObj} {a c : Nat}
    (hr : ReachH h' a c)
    (heq : ∀ b, ReachH h a b → h' b = h b) : ReachH h a c := by
  induction hr with
  | refl => exact .refl
  | @step a o b c ho hm _ ih =>
    have ha : h a = some o := by rw [← heq a .refl]; exact ho
    exact .step ha hm (ih fun x hx =>
      heq x (reach_trans (.step ha hm .refl) hx))

/-- Decode derivations can be padded to any larger height (one step). -/
theorem dec_bump {h : Nat → Option VObj} : ∀ F : Nat,
    (∀ a u, DecVH h F a u → DecVH h (F + 1) a u) ∧
    (∀ es us, DecVLH h F es us → DecVLH h (F + 1) es us) ∧
    (∀ es ps, DecVDH h F es ps → DecVDH h (F + 1) es ps) := by
  intro F
  induction F with
  | zero =>
    refine ⟨?_, ?_, ?_⟩
    · intro a u hd
      cases hd
    · intro es us hd
      cases hd with
      | nil => exact .nil
      | cons h1 _ => cases h1
    · intro es ps hd
      cases hd with
      | nil => exact .nil
      | cons h1 _ _ => cases h1
  | succ F ih =>
    have hA : ∀ a u, DecVH h (F + 1) a u → DecVH h (F + 2) a u := by
      intro a u hd
      cases hd with
      | dvN ho => exact .dvN ho
      | dvB ho => exact .dvB ho
      | dvI ho => exact .dvI ho
      | dvS ho => exact .dvS ho
      | dvL ho hl => exact .dvL ho (ih.2.1 _ _ hl)
      | dvT ho hl => exact .dvT ho (ih.2.1 _ _ hl)
      | dvD ho hl => exact .dvD ho (ih.2.2 _ _ hl)
    have hB : ∀ es us, DecVLH h (F + 1) es us → DecVLH h (F + 2) es us := by
      intro es
      induction es with
      | nil => intro us hd; cases hd; exact .nil
      | cons a as ih2 =>
        intro us hd
        cases hd with
        | cons h1 h2 => exact .cons (hA _ _ h1) (ih2 _ h2)
    have hC : ∀ es ps, DecVDH h (F + 1) es ps → DecVDH h (F + 2) es ps := by
      intro es
      induction es with
      | nil => intro ps hd; cases hd; exact .nil
      | cons a as ih2 =>
        intro ps hd
        cases hd with
        | cons h1 h1' h2 => exact .cons (hA _ _ h1) (hA _ _ h1') (ih2 _ h2)
    exact ⟨hA, hB, hC⟩

/-- Decode derivations are monotone in the height bound. -/
theorem decvh_mono {h : Nat → Option VObj} {f f' a : Nat} {u : VTree}
    (hd : DecVH h f a u) (hle : f ≤ f') : DecVH h f' a u := by
  induction hle with
  | refl => exact hd
  | step _ ih => exact (dec_bump _).1 _ _ ih

/-- List decode derivations are monotone in the height bound. -/
theorem decvlh_mono {h : Nat → Option VObj} {f f' : Nat} {es : List Nat}
    {us : List VTree} (hd : DecVLH h f es us) (hle : f ≤ f') :
    DecVLH h f' es us := by
  induction hle with
  | refl => exact hd
  | step _ ih => exact (dec_bump _).2.1 _ _ ih

/-- Dict decode derivations are monotone in the height bound. -/
theorem decvdh_mono {h : Nat → Option VObj} {f f' : Nat} {es : List (Nat × Nat)}
    {ps : List (VTree × VTree)} (hd : DecVDH h f es ps) (hle : f ≤ f') :
    DecVDH h f' es ps := by
  induction hle with
  | refl => exact hd
  | step _ ih => exact (dec_bump _).2.2 _ _ ih

/-- Transfer of decode derivations to a heap that agrees on the reachable
region. -/
theorem dec_transfer {h h' : Nat → Option VObj} : ∀ F : Nat,
    (∀ a u, (∀ b, ReachH h a b → h' b = h b) → DecVH h F a u →
      DecVH h' F a u) ∧
    (∀ es us, (∀ e ∈ es, ∀ b, ReachH h e b → h' b = h b) →
      DecVLH h F es us → DecVLH h' F es us) ∧
    (∀ es ps, (∀ p ∈ es, (∀ b, ReachH h p.1 b → h' b = h b) ∧
        ∀ b, ReachH h p.2 b → h' b = h b) →
      DecVDH h F es ps → DecVDH h' F es ps) := by
  intro F
  induction F with
  | zero =>
    refine ⟨?_, ?_, ?_⟩
    · intro a u _ hd
      cases hd
    · intro es us _ hd
      cases hd with
      | nil => exact .nil
      | cons h1 _ => cases h1
    · intro es ps _ hd
      cases hd with
      | nil => exact .nil
      | cons h1 _ _ => cases h1
  | succ F ih =>
    have hA : ∀ a u, (∀ b, ReachH h a b → h' b = h b) →
        DecVH h (F + 1) a u → DecVH h' (F + 1) a u := by
      intro a u heq hd
      cases hd with
      | dvN ho => exact .dvN (by rw [heq a .refl]; exact ho)
      | dvB ho => exact .dvB (by rw [heq a .refl]; exact ho)
      | dvI ho => exact .dvI (by rw [heq a .refl]; exact ho)
      | dvS ho => exact .dvS (by rw [heq a .refl]; exact ho)
      | @dvL f a es us ho hl =>
        refine .dvL (by rw [heq a .refl]; exact ho) (ih.2.1 _ _ ?_ hl)
        intro e he b hb
        exact heq b (reach_trans (.step ho (by simpa [vobjTargets] using he)
          .refl) hb)
      | @dvT f a es us ho hl =>
        refine .dvT (by rw [heq a .refl]; exact ho) (ih.2.1 _ _ ?_ hl)
        intro e he b hb
        exact heq b (reach_trans (.step ho (by simpa [vobjTargets] using he)
          .refl) hb)
      | @dvD f a es ps ho hl =>
        refine .dvD (by rw [heq a .refl]; exact ho) (ih.2.2 _ _ ?_ hl)
        intro p hp
        constructor
        · intro b hb
          refine heq b (reach_trans (.step ho ?_ .refl) hb)
          simp only [vobjTargets, List.mem_append]
          exact .inl (List.mem_map_of_mem _ hp)
        · intro b hb
          refine heq b (reach_trans (.step ho ?_ .refl) hb)
          simp only [vobjTargets, List.mem_append]
          exact .inr (List.mem_map_of_mem _ hp)
    have hB : ∀ es us, (∀ e ∈ es, ∀ b, ReachH h e b → h' b = h b) →
        DecVLH h (F + 1) es us → DecVLH h' (F + 1) es us := by
      intro es
      induction es with
      | nil => intro us _ hd; cases hd; exact .nil
      | cons a as ih2 =>
        intro us heq hd
        cases hd with
        | cons h1 h2 =>
          exact .cons (hA _ _ (heq a (List.mem_cons_self _ _)) h1)
            (ih2 _ (fun e he => heq e (List.mem_cons_of_mem _ he)) h2)
    have hC : ∀ es ps, (∀ p ∈ es, (∀ b, ReachH h p.1 b → h' b = h b) ∧
        ∀ b, ReachH h p.2 b → h' b = h b) →
        DecVDH h (F + 1) es ps → DecVDH h' (F + 1) es ps := by
      intro es
      induction es with
      | nil => intro ps _ hd; cases hd; exact .nil
      | cons a as ih2 =>
        intro ps heq hd
        cases hd with
        | cons h1 h1' h2 =>
          exact .cons (hA _ _ (heq _ (List.mem_cons_self _ _)).1 h1)
            (hA _ _ (heq _ (List.mem_cons_self _ _)).2 h1')
            (ih2 _ (fun p hp => heq p (List.mem_cons_of_mem _ hp)) h2)
    exact ⟨hA, hB, hC⟩

/-- Transfer of a decode fact to a heap agreeing on the reachable region. -/
theorem decv_transfer {h h' : Nat → Option VObj} {a : Nat} {u : VTree}
    (heq : ∀ b, ReachH h a b → h' b = h b) (hd : DecV h a u) : DecV h' a u := by
  rcases hd with ⟨f, hf⟩
  exact ⟨f, (dec_transfer f).1 _ _ heq hf⟩

/-- Decoding is deterministic. -/
theorem dec_unique {h : Nat → Option VObj} : ∀ F : Nat,
    (∀ a u, DecVH h F a u → ∀ g u', DecVH h g a u' → u = u') ∧
    (∀ es us, DecVLH h F es us → ∀ g us', DecVLH h g es us' → us = us') ∧
    (∀ es ps, DecVDH h F es ps → ∀ g ps', DecVDH h g es ps' → ps = ps') := by
  intro F
  induction F with
  | zero =>
    refine ⟨?_, ?_, ?_⟩
    · intro a u hd
      cases hd
    · intro es us hd
      cases hd with
      | nil => intro g us' hd'; cases hd' <;> rfl
      | cons h1 _ => cases h1
    · intro es ps hd
      cases hd with
      | nil => intro g ps' hd'; cases hd' <;> rfl
      | cons h1 _ _ => cases h1
  | succ F ih =>
    have hA : ∀ a u, DecVH h (F + 1) a u → ∀ g u', DecVH h g a u' →
        u = u' := by
      intro a u hd g u' hd'
      cases hd with
      | dvN ho =>
        cases hd' with
        | dvN ho' => rw [ho] at ho'
        | dvB ho' => rw [ho] at ho'; cases ho'
        | dvI ho' => rw [ho] at ho'; cases ho'
        | dvS ho' => rw [ho] at ho'; cases ho'
        | dvL ho' => rw [ho] at ho'; cases ho'
        | dvT ho' => rw [ho] at ho'; cases ho'
        | dvD ho' => rw [ho] at ho'; cases ho'
      | dvB ho =>
        cases hd' with
        | dvN ho' => rw [ho] at ho'; cases ho'
        | dvB ho' => rw [ho] at ho'; cases ho'; rfl
        | dvI ho' => rw [ho] at ho'; cases ho'
        | dvS ho' => rw [ho] at ho'; cases ho'
        | dvL ho' => rw [ho] at ho'; cases ho'
        | dvT ho' => rw [ho] at ho'; cases ho'
        | dvD ho' => rw [ho] at ho'; cases ho'
      | dvI ho =>
        cases hd' with
        | dvN ho' => rw [ho] at ho'; cases ho'
        | dvB ho' => rw [ho] at ho'; cases ho'
        | dvI ho' => rw [ho] at ho'; cases ho'; rfl
        | dvS ho' => rw [ho] at ho'; cases ho'
        | dvL ho' => rw [ho] at ho'; cases ho'
        | dvT ho' => rw [ho] at ho'; cases ho'
        | dvD ho' => rw [ho] at ho'; cases ho'
      | dvS ho =>
        cases hd' with
        | dvN ho' => rw [ho] at ho'; cases ho'
        | dvB ho' => rw [ho] at ho'; cases ho'
        | dvI ho' => rw [ho] at ho'; cases ho'
        | dvS ho' => rw [ho] at ho'; cases ho'; rfl
        | dvL ho' => rw [ho] at ho'; cases ho'
        | dvT ho' => rw [ho] at ho'; cases ho'
        | dvD ho' => rw [ho] at ho'; cases ho'
      | dvL ho hl =>
        cases hd' with
        | dvL ho' hl' =>
          rw [ho] at ho'; cases ho'
          rw [ih.2.1 _ _ hl _ _ hl']
        | dvN ho' => rw [ho] at ho'; cases ho'
        | dvB ho' => rw [ho] at ho'; cases ho'
        | dvI ho' => rw [ho] at ho'; cases ho'
        | dvS ho' => rw [ho] at ho'; cases ho'
        | dvT ho' => rw [ho] at ho'; cases ho'
        | dvD ho' => rw [ho] at ho'; cases ho'
      | dvT ho hl =>
        cases hd' with
        | dvT ho' hl' =>
          rw [ho] at ho'; cases ho'
          rw [ih.2.1 _ _ hl _ _ hl']
        | dvN ho' => rw [ho] at ho'; cases ho'
        | dvB ho' => rw [ho] at ho'; cases ho'
        | dvI ho' => rw [ho] at ho'; cases ho'
        | dvS ho' => rw [ho] at ho'; cases ho'
        | dvL ho' => rw [ho] at ho'; cases ho'
        | dvD ho' => rw [ho] at ho'; cases ho'
      | dvD ho hl =>
        cases hd' with
        | dvD ho' hl' =>
          rw [ho] at ho'; cases ho'
          rw [ih.2.2 _ _ hl _ _ hl']
        | dvN ho' => rw [ho] at ho'; cases ho'
        | dvB ho' => rw [ho] at ho'; cases ho'
        | dvI ho' => rw [ho] at ho'; cases ho'
        | dvS ho' => rw [ho] at ho'; cases ho'
        | dvL ho' => rw [ho] at ho'; cases ho'
        | dvT ho' => rw [ho] at ho'; cases ho'
    have hB : ∀ es us, DecVLH h (F + 1) es us → ∀ g us',
        DecVLH h g es us' → us = us' := by
      intro es
      induction es with
      | nil =>
        intro us hd g us' hd'
        cases hd; cases hd'; rfl
      | cons a as ih2 =>
        intro us hd g us' hd'
        cases hd with
        | cons h1 h2 =>
          cases hd' with
          | cons h1' h2' => rw [hA _ _ h1 _ _ h1', ih2 _ h2 _ _ h2']
    have hC : ∀ es ps, DecVDH h (F + 1) es ps → ∀ g ps',
        DecVDH h g es ps' → ps = ps' := by
      intro es
      induction es with
      | nil =>
        intro ps hd g ps' hd'
        cases hd; cases hd'; rfl
      | cons a as ih2 =>
        intro ps hd g ps' hd'
        cases hd with
        | cons h1 h1' h2 =>
          cases hd' with
          | cons g1 g1' g2 =>
            rw [hA _ _ h1 _ _ g1, hA _ _ h1' _ _ g1', ih2 _ h2 _ _ g2]
    exact ⟨hA, hB, hC⟩

/-- Value decoding is deterministic. -/
theorem decv_unique {h : Nat → Option VObj} {a : Nat} {u u' : VTree}
    (h1 : DecV h a u) (h2 : DecV h a u') : u = u' := by
  rcases h1 with ⟨f, hf⟩
  rcases h2 with ⟨g, hg⟩
  exact (dec_unique f).1 _ _ hf _ _ hg

/-- Descriptor decoding is deterministic. -/
theorem dect_unique_h {tenv : Nat → Option TObj} : ∀ F : Nat,
    (∀ t d, DecTH tenv F t d → ∀ g d', DecTH tenv g t d' → d = d') ∧
    (∀ es ds, DecTEH tenv F es ds → ∀ g ds', DecTEH tenv g es ds' →
      ds = ds') := by
  intro F
  induction F with
  | zero =>
    refine ⟨?_, ?_⟩
    · intro t d hd
      cases hd
    · intro es ds hd
      cases hd with
      | nil => intro g ds' hd'; cases hd' <;> rfl
      | cons h1 _ => cases h1
  | succ F ih =>
    have hA : ∀ t d, DecTH tenv (F + 1) t d → ∀ g d', DecTH tenv g t d' →
        d = d' := by
      intro t d hd g d' hd'
      cases hd with
      | dtN ho =>
        cases hd' with
        | dtN ho' => rw [ho] at ho'
        | dtI ho' => rw [ho] at ho'; cases ho'
        | dtS ho' => rw [ho] at ho'; cases ho'
        | dtB ho' => rw [ho] at ho'; cases ho'
        | dtNN ho' => rw [ho] at ho'; cases ho'
        | dtL0 ho' => rw [ho] at ho'; cases ho'
        | dtL1 ho' _ => rw [ho] at ho'; cases ho'
        | dtD ho' _ _ => rw [ho] at ho'; cases ho'
      | dtI ho =>
        cases hd' with
        | dtI ho' => rw [ho] at ho'
        | dtN ho' => rw [ho] at ho'; cases ho'
        | dtS ho' => rw [ho] at ho'; cases ho'
        | dtB ho' => rw [ho] at ho'; cases ho'
        | dtNN ho' => rw [ho] at ho'; cases ho'
        | dtL0 ho' => rw [ho] at ho'; cases ho'
        | dtL1 ho' _ => rw [ho] at ho'; cases ho'
        | dtD ho' _ _ => rw [ho] at ho'; cases ho'
      | dtS ho =>
        cases hd' with
        | dtS ho' => rw [ho] at ho'
        | dtN ho' => rw [ho] at ho'; cases ho'
        | dtI ho' => rw [ho] at ho'; cases ho'
        | dtB ho' => rw [ho] at ho'; cases ho'
        | dtNN ho' => rw [ho] at ho'; cases ho'
        | dtL0 ho' => rw [ho] at ho'; cases ho'
        | dtL1 ho' _ => rw [ho] at ho'; cases ho'
        | dtD ho' _ _ => rw [ho] at ho'; cases ho'
      | dtB ho =>
        cases hd' with
        | dtB ho' => rw [ho] at ho'
        | dtN ho' => rw [ho] at ho'; cases ho'
        | dtI ho' => rw [ho] at ho'; cases ho'
        | dtS ho' => rw [ho] at ho'; cases ho'
        | dtNN ho' => rw [ho] at ho'; cases ho'
        | dtL0 ho' => rw [ho] at ho'; cases ho'
        | dtL1 ho' _ => rw [ho] at ho'; cases ho'
        | dtD ho' _ _ => rw [ho] at ho'; cases ho'
      | dtNN ho =>
        cases hd' with
        | dtNN ho' => rw [ho] at ho'
        | dtN ho' => rw [ho] at ho'; cases ho'
        | dtI ho' => rw [ho] at ho'; cases ho'
        | dtS ho' => rw [ho] at ho'; cases ho'
        | dtB ho' => rw [ho] at ho'; cases ho'
        | dtL0 ho' => rw [ho] at ho'; cases ho'
        | dtL1 ho' _ => rw [ho] at ho'; cases ho'
        | dtD ho' _ _ => rw [ho] at ho'; cases ho'
      | dtL0 ho =>
        cases hd' with
        | dtL0 ho' => rw [ho] at ho'
        | dtN ho' => rw [ho] at ho'; cases ho'
        | dtI ho' => rw [ho] at ho'; cases ho'
        | dtS ho' => rw [ho] at ho'; cases ho'
        | dtB ho' => rw [ho] at ho'; cases ho'
        | dtNN ho' => rw [ho] at ho'; cases ho'
        | dtL1 ho' _ => rw [ho] at ho'; cases ho'
        | dtD ho' _ _ => rw [ho] at ho'; cases ho'
      | dtL1 ho h1 =>
        cases hd' with
        | dtL1 ho' h1' =>
          rw [ho] at ho'; cases ho'
          rw [ih.1 _ _ h1 _ _ h1']
        | dtN ho' => rw [ho] at ho'; cases ho'
        | dtI ho' => rw [ho] at ho'; cases ho'
        | dtS ho' => rw [ho] at ho'; cases ho'
        | dtB ho' => rw [ho] at ho'; cases ho'
        | dtNN ho' => rw [ho] at ho'; cases ho'
        | dtL0 ho' => rw [ho] at ho'; cases ho'
        | dtD ho' _ _ => rw [ho] at ho'; cases ho'
      | dtD ho hrgx h1 =>
        cases hd' with
        | dtD ho' hrgx' h1' =>
          rw [ho] at ho'; cases ho'
          rw [ih.2 _ _ h1 _ _ h1']
        | dtN ho' => rw [ho] at ho'; cases ho'
        | dtI ho' => rw [ho] at ho'; cases ho'
        | dtS ho' => rw [ho] at ho'; cases ho'
        | dtB ho' => rw [ho] at ho'; cases ho'
        | dtNN ho' => rw [ho] at ho'; cases ho'
        | dtL0 ho' => rw [ho] at ho'; cases ho'
        | dtL1 ho' _ => rw [ho] at ho'; cases ho'
    refine ⟨hA, ?_⟩
    intro es
    induction es with
    | nil =>
      intro ds hd g ds' hd'
      cases hd; cases hd' <;> rfl
    | cons a as ih2 =>
      intro ds hd g ds' hd'
      cases hd with
      | cons h1 h2 =>
        cases hd' with
        | cons h1' h2' => rw [hA _ _ h1 _ _ h1', ih2 _ h2 _ _ h2']

/-- Wrapper: descriptor decoding is deterministic. -/
theorem dect_unique {tenv : Nat → Option TObj} {t : Nat} {d d' : DTree}
    (h1 : DecT tenv t d) (h2 : DecT tenv t d') : d = d' := by
  rcases h1 with ⟨f, hf⟩
  rcases h2 with ⟨g, hg⟩
  exact (dect_unique_h f).1 _ _ hf _ _ hg

/-- Allocating at the frontier preserves heap wellformedness. -/
theorem wfh_alloc {h : Nat → Option VObj} {n : Nat} {o : VObj}
    (hwf : WfH h n) (ht : ∀ b ∈ vobjTargets o, b < n + 1) :
    WfH (fun a => if a = n then some o else h a) (n + 1) := by
  constructor
  · intro a ha
    have h1 : a ≠ n := by omega
    simp only [h1, if_false]
    exact hwf.1 a (by omega)
  · intro a o' ho' b hb
    by_cases h1 : a = n
    · subst h1
      simp only [if_pos rfl] at ho'
      cases ho'
      exact ht b hb
    · simp only [h1, if_false] at ho'
      exact Nat.lt_succ_of_lt (hwf.2 a o' ho' b hb)

/-- Overwriting an allocated cell with well-bounded content preserves heap
wellformedness. -/
theorem wfh_write {h : Nat → Option VObj} {n a : Nat} {o : VObj}
    (hwf : WfH h n) (ha : a < n) (ht : ∀ b ∈ vobjTargets o, b < n) :
    WfH (fun a' => if a' = a then some o else h a') n := by
  constructor
  · intro x hx
    have h1 : x ≠ a := by omega
    simp only [h1, if_false]
    exact hwf.1 x hx
  · intro x o' ho' b hb
    by_cases h1 : x = a
    · subst h1
      simp only [if_pos rfl] at ho'
      cases ho'
      exact ht b hb
    · simp only [h1, if_false] at ho'
      exact hwf.2 x o' ho' b hb

/-- Reachability in a heap extended by a fresh allocation, starting below
the frontier, never meets the fresh cell and coincides with the old
reachability. -/
theorem reach_alloc {h : Nat → Option VObj} {n : Nat} {o : VObj} {x b : Nat}
    (hwf : WfH h n)
    (hr : ReachH (fun a => if a = n then some o else h a) x b) (hx : x < n) :
    ReachH h x b ∧ b < n := by
  induction hr with
  | refl => exact ⟨.refl, hx⟩
  | @step a o' c cc ho hm _ ih =>
    have h1 : a ≠ n := by omega
    simp only [h1, if_false] at ho
    have hc : c < n := hwf.2 a o' ho c hm
    rcases ih hc with ⟨hrest, hb⟩
    exact ⟨.step ho hm hrest, hb⟩

/-- Decoding is unaffected by a fresh allocation. -/
theorem decv_alloc {h : Nat → Option VObj} {n : Nat} {o : VObj} {x : Nat}
    {u : VTree} (hwf : WfH h n) (hx : x < n) (hd : DecV h x u) :
    DecV (fun a => if a = n then some o else h a) x u := by
  refine decv_transfer (fun b hb => ?_) hd
  have hb' : b < n := reach_lt hwf hx hb
  have h1 : b ≠ n := by omega
  simp only [h1, if_false]

/-- `NoTouch` is unaffected by a fresh allocation. -/
theorem notouch_alloc {h : Nat → Option VObj} {n : Nat} {o : VObj} {x : Nat}
    {bad : Nat → Prop} (hwf : WfH h n) (hx : x < n) (hnt : NoTouch h x bad) :
    NoTouch (fun a => if a = n then some o else h a) x bad := by
  intro b hb
  exact hnt b (reach_alloc hwf hb hx).1

/-- The fresh cell is unreachable from anything below the frontier, even
after the allocation. -/
theorem reach_alloc_fresh {h : Nat → Option VObj} {n : Nat} {o : VObj}
    {x : Nat} (hwf : WfH h n) (hx : x < n) :
    ¬ ReachH (fun a => if a = n then some o else h a) x n := by
  intro hr
  have := (reach_alloc hwf hr hx).2
  omega

/-- Reachability is unaffected by overwriting an unreachable cell. -/
theorem reach_write {h : Nat → Option VObj} {sh : Nat} {o : VObj} {x b : Nat}
    (hsh : ¬ ReachH h x sh)
    (hr : ReachH (fun a' => if a' = sh then some o else h a') x b) :
    ReachH h x b := by
  refine reach_transfer hr (fun c hc => ?_)
  have h1 : c ≠ sh := fun e => hsh (e ▸ hc)
  simp only [h1, if_false]

/-- Decoding is unaffected by overwriting an unreachable cell. -/
theorem decv_write {h : Nat → Option VObj} {sh : Nat} {o : VObj} {x : Nat}
    {u : VTree} (hsh : ¬ ReachH h x sh) (hd : DecV h x u) :
    DecV (fun a' => if a' = sh then some o else h a') x u := by
  refine decv_transfer (fun b hb => ?_) hd
  have h1 : b ≠ sh := fun e => hsh (e ▸ hb)
  simp only [h1, if_false]

/-- `NoTouch` is unaffected by overwriting an unreachable cell. -/
theorem notouch_write {h : Nat → Option VObj} {sh : Nat} {o : VObj} {x : Nat}
    {bad : Nat → Prop} (hsh : ¬ ReachH h x sh) (hnt : NoTouch h x bad) :
    NoTouch (fun a' => if a' = sh then some o else h a') x bad := by
  intro b hb
  exact hnt b (reach_write hsh hb)

/-- A decodable address is allocated, hence below the frontier. -/
theorem decv_lt {h : Nat → Option VObj} {n a : Nat} {u : VTree}
    (hwf : WfH h n) (hd : DecV h a u) : a < n := by
  rcases hd with ⟨f, hf⟩
  by_contra hge
  have h0 : h a = none := hwf.1 a (by omega)
  cases hf <;> (rename_i ho; rw [h0] at ho; cases ho)

/-- Transfer of decoding to a heap agreeing below the frontier. -/
theorem decv_frame {h h' : Nat → Option VObj} {n a : Nat} {u : VTree}
    (hwf : WfH h n) (ha : a < n) (heq : ∀ b, b < n → h' b = h b)
    (hd : DecV h a u) : DecV h' a u := by
  refine decv_transfer (fun b hb => heq b (reach_lt hwf ha hb)) hd

/-- Reachability from below the frontier transfers backwards across any
heap change above the frontier. -/
theorem reach_frame {h h' : Nat → Option VObj} {n a c : Nat}
    (hwf : WfH h n) (heq : ∀ b, b < n → h' b = h b)
    (hr : ReachH h' a c) (ha : a < n) : ReachH h a c ∧ c < n := by
  induction hr with
  | refl => exact ⟨.refl, ha⟩
  | @step x o b c ho hm _ ih =>
    rw [heq x ha] at ho
    have hb : b < n := hwf.2 x o ho b hm
    rcases ih hb with ⟨hrest, hc⟩
    exact ⟨.step ho hm hrest, hc⟩

/-- Transfer of `NoTouch` across any heap change above the frontier. -/
theorem notouch_frame {h h' : Nat → Option VObj} {n a : Nat}
    {bad : Nat → Prop} (hwf : WfH h n) (ha : a < n)
    (heq : ∀ b, b < n → h' b = h b) (hnt : NoTouch h a bad) :
    NoTouch h' a bad := by
  intro b hb
  exact hnt b (reach_frame hwf heq hb ha).1

/-- List-of-addresses decode. -/
def DecVL (h : Nat → Option VObj) (es : List Nat) (us : List VTree) : Prop :=
  ∃ f, DecVLH h f es us

/-- Dict-entry-list decode. -/
def DecVD (h : Nat → Option VObj) (es : List (Nat × Nat))
    (ps : List (VTree × VTree)) : Prop :=
  ∃ f, DecVDH h f es ps

/-- Cons introduction for list decode. -/
theorem decvl_cons {h : Nat → Option VObj} {e : Nat} {es : List Nat}
    {u : VTree} {us : List VTree} (h1 : DecV h e u) (h2 : DecVL h es us) :
    DecVL h (e :: es) (u :: us) := by
  rcases h1 with ⟨f1, hf1⟩
  rcases h2 with ⟨f2, hf2⟩
  exact ⟨max f1 f2, .cons (decvh_mono hf1 (le_max_left _ _))
    (decvlh_mono hf2 (le_max_right _ _))⟩

/-- Cons inversion for list decode. -/
theorem decvl_cons_inv {h : Nat → Option VObj} {e : Nat} {es : List Nat}
    {us : List VTree} (hd : DecVL h (e :: es) us) :
    ∃ u us', us = u :: us' ∧ DecV h e u ∧ DecVL h es us' := by
  rcases hd with ⟨f, hf⟩
  cases hf with
  | cons h1 h2 => exact ⟨_, _, rfl, ⟨_, h1⟩, ⟨_, h2⟩⟩

/-- Nil list decode. -/
theorem decvl_nil {h : Nat → Option VObj} : DecVL h [] [] := ⟨0, .nil⟩

/-- Nil inversion. -/
theorem decvl_nil_inv {h : Nat → Option VObj} {us : List VTree}
    (hd : DecVL h [] us) : us = [] := by
  rcases hd with ⟨f, hf⟩
  cases hf
  rfl

/-- Cons introduction for dict decode. -/
theorem decvd_cons {h : Nat → Option VObj} {ka va : Nat}
    {es : List (Nat × Nat)} {ku vu : VTree} {ps : List (VTree × VTree)}
    (h1 : DecV h ka ku) (h2 : DecV h va vu) (h3 : DecVD h es ps) :
    DecVD h ((ka, va) :: es) ((ku, vu) :: ps) := by
  rcases h1 with ⟨f1, hf1⟩
  rcases h2 with ⟨f2, hf2⟩
  rcases h3 with ⟨f3, hf3⟩
  refine ⟨max f1 (max f2 f3), .cons ?_ ?_ ?_⟩
  · exact decvh_mono hf1 (le_max_left _ _)
  · exact decvh_mono hf2 (le_trans (le_max_left _ _) (le_max_right _ _))
  · exact decvdh_mono hf3 (le_trans (le_max_right _ _) (le_max_right _ _))

/-- Cons inversion for dict decode. -/
theorem decvd_cons_inv {h : Nat → Option VObj} {ka va : Nat}
    {es : List (Nat × Nat)} {ps : List (VTree × VTree)}
    (hd : DecVD h ((ka, va) :: es) ps) :
    ∃ ku vu ps', ps = (ku, vu) :: ps' ∧ DecV h ka ku ∧ DecV h va vu ∧
      DecVD h es ps' := by
  rcases hd with ⟨f, hf⟩
  cases hf with
  | cons h1 h2 h3 => exact ⟨_, _, _, rfl, ⟨_, h1⟩, ⟨_, h2⟩, ⟨_, h3⟩⟩

/-- Nil dict decode. -/
theorem decvd_nil {h : Nat → Option VObj} : DecVD h [] [] := ⟨0, .nil⟩

/-- Nil dict inversion. -/
theorem decvd_nil_inv {h : Nat → Option VObj} {ps : List (VTree × VTree)}
    (hd : DecVD h [] ps) : ps = [] := by
  rcases hd with ⟨f, hf⟩
  cases hf
  rfl

/-- The set of shells registered in `current_check`. -/
def CurSh (s : Session) : Nat → Prop := fun a => ∃ p, s.current p = some a

/-- `NoTouch` into a set containing `sh` rules out reaching `sh`. -/
theorem notouch_to_noreach {h : Nat → Option VObj} {x sh : Nat}
    {bad : Nat → Prop} (hnt : NoTouch h x bad) (hsh : bad sh) :
    ¬ ReachH h x sh := fun hr => hnt sh hr hsh

/-- The session-correctness invariant: the heap is well-formed, registered
shells are allocated, and every cached entry of the succeeded/failed
tables is pure-correct for any decoding of its pair, with its reachable
region avoiding the in-progress shells. -/
def InvS (tenv : Nat → Option TObj) (s : Session) : Prop :=
  WfH s.heap s.nextAddr ∧
  (∀ p a, s.current p = some a → a < s.nextAddr) ∧
  (∀ p r, s.succeeded p = some r → p.1 < s.nextAddr ∧ r < s.nextAddr ∧
    NoTouch s.heap p.1 (CurSh s) ∧ NoTouch s.heap r (CurSh s) ∧
    ∀ d u, DecT tenv p.2 d → DecV s.heap p.1 u →
      ∃ w, POk d u w ∧ DecV s.heap r w) ∧
  (∀ p e, s.failed p = some e → p.1 < s.nextAddr ∧
    NoTouch s.heap p.1 (CurSh s) ∧ (∃ x y z, e = .mismatch x y z) ∧
    ∀ d u, DecT tenv p.2 d → DecV s.heap p.1 u → PFail d u)

/-- All keys registered in `current_check` or `list_loop` belong to
strictly larger descriptors than the bound `m`. -/
def DeepCur (tenv : Nat → Option TObj) (s : Session) (m : Nat) : Prop :=
  ∀ p : Nat × Nat, ((s.current p).isSome ∨ s.listLoop p = true) →
    ∀ d' : DTree, DecT tenv p.2 d' → m < sizeOf d'

/-- A step from session `s` to `s'` preserves the decodes and shell
avoidance of every shell-avoiding old address (used to carry already
computed results across the remainder of a checker loop). -/
def Transfers (s s' : Session) : Prop :=
  s.nextAddr ≤ s'.nextAddr ∧
  ∀ x, x < s.nextAddr → NoTouch s.heap x (CurSh s) →
    NoTouch s'.heap x (CurSh s') ∧ ∀ u, DecV s.heap x u → DecV s'.heap x u

/-- `Transfers` is reflexive. -/
theorem transfers_rfl {s : Session} : Transfers s s :=
  ⟨le_refl _, fun _ _ hnt => ⟨hnt, fun _ hd => hd⟩⟩

/-- `Transfers` composes. -/
theorem transfers_comp {s1 s2 s3 : Session} (h1 : Transfers s1 s2)
    (h2 : Transfers s2 s3) : Transfers s1 s3 := by
  refine ⟨le_trans h1.1 h2.1, fun x hx hnt => ?_⟩
  rcases h1.2 x hx hnt with ⟨hnt2, hd2⟩
  rcases h2.2 x (lt_of_lt_of_le hx h1.1) hnt2 with ⟨hnt3, hd3⟩
  exact ⟨hnt3, fun u hd => hd3 u (hd2 u hd)⟩

/-- A step that leaves the heap below the old frontier and the
`current_check` table unchanged transfers everything. -/
theorem transfers_frame {s s' : Session} (hwf : WfH s.heap s.nextAddr)
    (hext : s.nextAddr ≤ s'.nextAddr)
    (hh : ∀ b, b < s.nextAddr → s'.heap b = s.heap b)
    (hc : s'.current = s.current) : Transfers s s' := by
  refine ⟨hext, fun x hx hnt => ?_⟩
  have hcs : CurSh s' = CurSh s := by
    unfold CurSh
    rw [hc]
  constructor
  · rw [hcs]
    exact notouch_frame hwf hx hh hnt
  · intro u hd
    exact decv_frame hwf hx hh hd

/-- Writing into a registered shell transfers everything (shell-avoiding
addresses do not reach the shell). -/
theorem transfers_write_cursh {s : Session} {sh : Nat} {o : VObj}
    (hsh : CurSh s sh) : Transfers s (writeH s sh o) := by
  refine ⟨le_refl _, fun x hx hnt => ?_⟩
  have hnr : ¬ ReachH s.heap x sh := notouch_to_noreach hnt hsh
  have hcs : CurSh (writeH s sh o) = CurSh s := rfl
  constructor
  · rw [hcs]
    exact notouch_write hnr hnt
  · intro u hd
    exact decv_write hnr hd

/-- Backward decode transfer across an overwrite of an unreachable cell. -/
theorem decv_write_inv {h : Nat → Option VObj} {sh : Nat} {o : VObj} {x : Nat}
    {u : VTree} (hsh : ¬ ReachH h x sh)
    (hd : DecV (fun a' => if a' = sh then some o else h a') x u) :
    DecV h x u := by
  refine decv_transfer (fun b hb => ?_) hd
  have hb' : ReachH h x b := reach_write hsh hb
  have h1 : b ≠ sh := fun e => hsh (e ▸ hb')
  simp only [h1, if_false]

/-- Backward decode transfer across a fresh allocation. -/
theorem decv_alloc_inv {h : Nat → Option VObj} {n : Nat} {o : VObj} {x : Nat}
    {u : VTree} (hwf : WfH h n) (hx : x < n)
    (hd : DecV (fun a => if a = n then some o else h a) x u) : DecV h x u := by
  refine decv_transfer (fun b hb => ?_) hd
  have hb' : b < n := (reach_alloc hwf hb hx).2
  have h1 : b ≠ n := by omega
  simp only [h1, if_false]

/-- Overwriting a registered shell with well-bounded content preserves the
session invariant. -/
theorem invs_writeH_cursh {tenv : Nat → Option TObj} {s : Session} {sh : Nat}
    {o : VObj} (hInv : InvS tenv s) (hsh : CurSh s sh)
    (ht : ∀ b ∈ vobjTargets o, b < s.nextAddr) :
    InvS tenv (writeH s sh o) := by
  obtain ⟨hwf, hcur, hsucc, hfail⟩ := hInv
  have hshn : sh < s.nextAddr := by
    rcases hsh with ⟨p, hp⟩
    exact hcur p sh hp
  refine ⟨wfh_write hwf hshn ht, hcur, ?_, ?_⟩
  · intro p r hp
    obtain ⟨h1, h2, h3, h4, h5⟩ := hsucc p r hp
    have hnr1 : ¬ ReachH s.heap p.1 sh := notouch_to_noreach h3 hsh
    have hnr2 : ¬ ReachH s.heap r sh := notouch_to_noreach h4 hsh
    refine ⟨h1, h2, notouch_write hnr1 h3, notouch_write hnr2 h4, ?_⟩
    intro d u hdt hdu
    rcases h5 d u hdt (decv_write_inv hnr1 hdu) with ⟨w, hw1, hw2⟩
    exact ⟨w, hw1, decv_write hnr2 hw2⟩
  · intro p e hp
    obtain ⟨h1, h2, h3, h4⟩ := hfail p e hp
    have hnr1 : ¬ ReachH s.heap p.1 sh := notouch_to_noreach h2 hsh
    refine ⟨h1, notouch_write hnr1 h2, h3, ?_⟩
    intro d u hdt hdu
    exact h4 d u hdt (decv_write_inv hnr1 hdu)

/-- Allocating a fresh cell with well-bounded content preserves the
session invariant. -/
theorem invs_alloc {tenv : Nat → Option TObj} {s : Session} {o : VObj}
    (hInv : InvS tenv s) (ht : ∀ b ∈ vobjTargets o, b < s.nextAddr + 1) :
    InvS tenv (alloc s o).1 := by
  obtain ⟨hwf, hcur, hsucc, hfail⟩ := hInv
  refine ⟨wfh_alloc hwf ht, ?_, ?_, ?_⟩
  · intro p a hp
    exact Nat.lt_succ_of_lt (hcur p a hp)
  · intro p r hp
    obtain ⟨h1, h2, h3, h4, h5⟩ := hsucc p r hp
    refine ⟨Nat.lt_succ_of_lt h1, Nat.lt_succ_of_lt h2,
      notouch_alloc hwf h1 h3, notouch_alloc hwf h2 h4, ?_⟩
    intro d u hdt hdu
    rcases h5 d u hdt (decv_alloc_inv hwf h1 hdu) with ⟨w, hw1, hw2⟩
    exact ⟨w, hw1, decv_alloc hwf h2 hw2⟩
  · intro p e hp
    obtain ⟨h1, h2, h3, h4⟩ := hfail p e hp
    refine ⟨Nat.lt_succ_of_lt h1, notouch_alloc hwf h1 h2, h3, ?_⟩
    intro d u hdt hdu
    exact h4 d u hdt (decv_alloc_inv hwf h1 hdu)

/-- Allocating an empty shell and registering it in `current_check`
preserves the session invariant (nothing can reach the fresh shell). -/
theorem invs_register {tenv : Nat → Option TObj} {s : Session} {v t : Nat}
    {o : VObj} (hInv : InvS tenv s) (hot : vobjTargets o = []) :
    InvS tenv { (alloc s o).1 with
      current := updF (alloc s o).1.current (v, t) (some (alloc s o).2),
      listLoop := fun _ => false } := by
  obtain ⟨hwf, hcur, hsucc, hfail⟩ := hInv
  set n := s.nextAddr with hn
  have hcs2 : ∀ b, CurSh { (alloc s o).1 with
      current := updF (alloc s o).1.current (v, t) (some (alloc s o).2),
      listLoop := fun _ => false } b → b = n ∨ CurSh s b := by
    intro b hb
    rcases hb with ⟨p, hp⟩
    simp only [alloc, updF] at hp
    by_cases hpe : p = (v, t)
    · rw [if_pos hpe] at hp
      cases hp
      exact .inl rfl
    · rw [if_neg hpe] at hp
      exact .inr ⟨p, hp⟩
  have hnt2 : ∀ x, x < n → NoTouch s.heap x (CurSh s) →
      NoTouch (fun a => if a = n then some o else s.heap a) x
        (CurSh { (alloc s o).1 with
          current := updF (alloc s o).1.current (v, t) (some (alloc s o).2),
          listLoop := fun _ => false }) := by
    intro x hx hnt b hb hbad
    have hra := reach_alloc hwf hb hx
    rcases hcs2 b hbad with rfl | hold
    · omega
    · exact hnt b hra.1 hold
  refine ⟨wfh_alloc hwf (by rw [hot]; intro b hb; cases hb), ?_, ?_, ?_⟩
  · intro p a hp
    simp only [alloc, updF] at hp
    by_cases hpe : p = (v, t)
    · rw [if_pos hpe] at hp
      cases hp
      exact Nat.lt_succ_self _
    · rw [if_neg hpe] at hp
      exact Nat.lt_succ_of_lt (hcur p a hp)
  · intro p r hp
    obtain ⟨h1, h2, h3, h4, h5⟩ := hsucc p r hp
    refine ⟨Nat.lt_succ_of_lt h1, Nat.lt_succ_of_lt h2,
      hnt2 _ h1 h3, hnt2 _ h2 h4, ?_⟩
    intro d u hdt hdu
    rcases h5 d u hdt (decv_alloc_inv hwf h1 hdu) with ⟨w, hw1, hw2⟩
    exact ⟨w, hw1, decv_alloc hwf h2 hw2⟩
  · intro p e hp
    obtain ⟨h1, h2, h3, h4⟩ := hfail p e hp
    refine ⟨Nat.lt_succ_of_lt h1, hnt2 _ h1 h2, h3, ?_⟩
    intro d u hdt hdu
    exact h4 d u hdt (decv_alloc_inv hwf h1 hdu)

/-- Aligned filter-and-rename of descriptor entry lists (the common shape
of `requiredKeys`, `optionalKeys`, `regexpKeys`). -/
theorem dicte_filtermap {tenv : Nat → Option TObj} {f : Nat}
    (p : String → Bool) (g : String → String) :
    ∀ {es : List (String × Nat)} {ds : List (String × DTree)},
      DecTEH tenv f es ds →
      DecTEH tenv f ((es.filter fun kv => p kv.1).map fun kv => (g kv.1, kv.2))
        ((ds.filter fun kv => p kv.1).map fun kv => (g kv.1, kv.2)) := by
  intro es
  induction es with
  | nil =>
    intro ds h
    cases h
    exact .nil
  | cons a as ih =>
    intro ds h
    cases h with
    | @cons f k tn dt es' ds' h1 h2 =>
      by_cases hp : p k
      · simp only [List.filter_cons, hp, if_true, List.map_cons]
        exact .cons h1 (ih h2)
      · simp only [List.filter_cons, hp, if_false, Bool.false_eq_true]
        exact ih h2

/-- `requiredKeys` of aligned entry lists stays aligned. -/
theorem dicte_req {tenv : Nat → Option TObj} {f : Nat}
    {es : List (String × Nat)} {ds : List (String × DTree)}
    (h : DecTEH tenv f es ds) :
    DecTEH tenv f (requiredKeys es) (requiredKeys ds) :=
  dicte_filtermap (fun k => !(strHead k '?') && !(strHead k '~')) reqStrip h

/-- `optionalKeys` of aligned entry lists stays aligned. -/
theorem dicte_opt {tenv : Nat → Option TObj} {f : Nat}
    {es : List (String × Nat)} {ds : List (String × DTree)}
    (h : DecTEH tenv f es ds) :
    DecTEH tenv f (optionalKeys es) (optionalKeys ds) :=
  dicte_filtermap (fun k => strHead k '?') strTail h

/-- Aligned key search in aligned rule lists. -/
theorem dicte_find {tenv : Nat → Option TObj} {f : Nat} {ks : String} :
    ∀ {es : List (String × Nat)} {ds : List (String × DTree)},
      DecTEH tenv f es ds →
      ((es.find? fun kv => kv.1 = ks) = none →
        (ds.find? fun kv => kv.1 = ks) = none) ∧
      (∀ kv, (es.find? fun kv => kv.1 = ks) = some kv →
        ∃ kd, (ds.find? fun kv => kv.1 = ks) = some kd ∧ kd.1 = kv.1 ∧
          DecTH tenv f kv.2 kd.2) := by
  intro es
  induction es with
  | nil =>
    intro ds h
    cases h
    exact ⟨fun _ => rfl, fun kv hkv => by cases hkv⟩
  | cons a as ih =>
    intro ds h
    cases h with
    | @cons f k tn dt es' ds' h1 h2 =>
      by_cases hk : k = ks
      · subst hk
        constructor
        · intro hnone
          rw [List.find?_cons_of_pos _ (by simp)] at hnone
          cases hnone
        · intro kv hkv
          rw [List.find?_cons_of_pos _ (by simp)] at hkv
          cases hkv
          exact ⟨(k, dt), List.find?_cons_of_pos _ (by simp), rfl, h1⟩
      · constructor
        · intro hnone
          rw [List.find?_cons_of_neg _ (by simp [hk])] at hnone
          rw [List.find?_cons_of_neg _ (by simp [hk])]
          exact (ih h2).1 hnone
        · intro kv hkv
          rw [List.find?_cons_of_neg _ (by simp [hk])] at hkv
          rw [List.find?_cons_of_neg _ (by simp [hk])]
          exact (ih h2).2 kv hkv

/-- Aligned merged lookup in aligned rule lists. -/
theorem merged_bridge {tenv : Nat → Option TObj} {f : Nat}
    {rN oN : List (String × Nat)} {rD oD : List (String × DTree)}
    (hr : DecTEH tenv f rN rD) (ho : DecTEH tenv f oN oD) (ks : String) :
    (mergedLookup rN oN ks = none → mergedLookup rD oD ks = none) ∧
    (∀ tk, mergedLookup rN oN ks = some tk →
      ∃ td, mergedLookup rD oD ks = some td ∧ DecTH tenv f tk td) := by
  unfold mergedLookup
  constructor
  · intro hnone
    cases hfr : rN.find? fun kv => kv.1 = ks with
    | some kv => rw [hfr] at hnone; cases hnone
    | none =>
      rw [hfr] at hnone
      rw [(dicte_find hr).1 hfr]
      cases hfo : oN.find? fun kv => kv.1 = ks with
      | some kv => rw [hfo] at hnone; cases hnone
      | none =>
        rw [(dicte_find ho).1 hfo]
        rfl
  · intro tk hsome
    cases hfr : rN.find? fun kv => kv.1 = ks with
    | some kv =>
      rw [hfr] at hsome
      cases hsome
      rcases (dicte_find hr).2 kv hfr with ⟨kd, hkd, _, hdec⟩
      exact ⟨kd.2, by rw [hkd], hdec⟩
    | none =>
      rw [hfr] at hsome
      rw [(dicte_find hr).1 hfr]
      cases hfo : oN.find? fun kv => kv.1 = ks with
      | some kv =>
        rw [hfo] at hsome
        cases hsome
        rcases (dicte_find ho).2 kv hfo with ⟨kd, hkd, _, hdec⟩
        exact ⟨kd.2, by rw [hkd]; rfl, hdec⟩
      | none => rw [hfo] at hsome; cases hsome

/-- Forward membership bridge for aligned entry lists. -/
theorem dicte_mem {tenv : Nat → Option TObj} {f : Nat} :
    ∀ {es : List (String × Nat)} {ds : List (String × DTree)},
      DecTEH tenv f es ds → ∀ kv ∈ es, ∃ kd ∈ ds, kd.1 = kv.1 ∧
        DecTH tenv f kv.2 kd.2 := by
  intro es
  induction es with
  | nil => intro ds h kv hkv; cases hkv
  | cons a as ih =>
    intro ds h kv hkv
    cases h with
    | @cons f k tn dt es' ds' h1 h2 =>
      rcases List.mem_cons.1 hkv with rfl | hkv
      · exact ⟨(k, dt), List.mem_cons_self _ _, rfl, h1⟩
      · rcases ih h2 kv hkv with ⟨kd, hkd, hk1, hk2⟩
        exact ⟨kd, List.mem_cons_of_mem _ hkd, hk1, hk2⟩

/-- Backward membership bridge for aligned entry lists. -/
theorem dicte_mem_rev {tenv : Nat → Option TObj} {f : Nat} :
    ∀ {es : List (String × Nat)} {ds : List (String × DTree)},
      DecTEH tenv f es ds → ∀ kd ∈ ds, ∃ kv ∈ es, kv.1 = kd.1 ∧
        DecTH tenv f kv.2 kd.2 := by
  intro es
  induction es with
  | nil => intro ds h kd hkd; cases h; cases hkd
  | cons a as ih =>
    intro ds h kd hkd
    cases h with
    | @cons f k tn dt es' ds' h1 h2 =>
      rcases List.mem_cons.1 hkd with rfl | hkd
      · exact ⟨(k, tn), List.mem_cons_self _ _, rfl, h1⟩
      · rcases ih h2 kd hkd with ⟨kv, hkv, hk1, hk2⟩
        exact ⟨kv, List.mem_cons_of_mem _ hkv, hk1, hk2⟩

/-- A decoded key is the string `k` iff its heap cell is that string. -/
theorem decv_str_iff {h : Nat → Option VObj} {f ka : Nat} {ku : VTree}
    (hd : DecVH h f ka ku) (k : String) :
    (h ka = some (.vstr k)) ↔ ku = .vtS k := by
  cases hd with
  | dvS ho =>
    rw [ho]
    constructor
    · intro he; cases he; rfl
    · intro he; cases he; rfl
  | dvN ho => rw [ho]; constructor <;> (intro he; cases he)
  | dvB ho => rw [ho]; constructor <;> (intro he; cases he)
  | dvI ho => rw [ho]; constructor <;> (intro he; cases he)
  | dvL ho _ => rw [ho]; constructor <;> (intro he; cases he)
  | dvT ho _ => rw [ho]; constructor <;> (intro he; cases he)
  | dvD ho _ => rw [ho]; constructor <;> (intro he; cases he)

/-- Key-presence bridge between the heap dict and its decoded entries. -/
theorem haskey_bridge {h : Nat → Option VObj} {f : Nat} :
    ∀ {ves : List (Nat × Nat)} {ps : List (VTree × VTree)},
      DecVDH h f ves ps → ∀ k, (hasKeyStr h ves k = true ↔ HasKeyT ps k) := by
  intro ves
  induction ves with
  | nil =>
    intro ps hd k
    cases hd
    simp [hasKeyStr, HasKeyT]
  | cons a as ih =>
    intro ps hd k
    cases hd with
    | @cons f ka va ku vu es' ps' h1 h2 h3 =>
      simp only [hasKeyStr, List.any_cons, Bool.or_eq_true]
      constructor
      · intro hor
        rcases hor with hhead | htail
        · refine ⟨(ku, vu), List.mem_cons_self _ _, ?_⟩
          exact (decv_str_iff h1 k).1 (by simpa using hhead)
        · rcases ((ih h3 k).1 (by simpa [hasKeyStr] using htail)) with ⟨q, hq, hqk⟩
          exact ⟨q, List.mem_cons_of_mem _ hq, hqk⟩
      · intro hk
        rcases hk with ⟨q, hq, hqk⟩
        rcases List.mem_cons.1 hq with rfl | hq
        · exact .inl (by simpa using (decv_str_iff h1 k).2 hqk)
        · exact .inr (by simpa [hasKeyStr] using (ih h3 k).2 ⟨q, hq, hqk⟩)

/-- Shrinking the avoided set preserves `NoTouch`. -/
theorem notouch_mono {h : Nat → Option VObj} {x : Nat} {bad bad' : Nat → Prop}
    (hsub : ∀ b, bad' b → bad b) (hnt : NoTouch h x bad) : NoTouch h x bad' :=
  fun b hb hbad => hnt b hb (hsub b hbad)

/-- The simulation contract for one engine call on the pair `(v, t)`
decoding to `(u, d)`: the session invariant is re-established, the
succeeded table only grows, a success decodes to the pure checker's
result, and a failure is a mismatch reflected by pure failure. -/
def SimOut (tenv : Nat → Option TObj) (d : DTree) (u : VTree) (s : Session)
    (out : Session × Except Err Nat) : Prop :=
  InvS tenv out.1 ∧
  (∀ p r, s.succeeded p = some r → out.1.succeeded p = some r) ∧
  (∀ r, out.2 = .ok r → r < out.1.nextAddr ∧
    NoTouch out.1.heap r (CurSh out.1) ∧
    ∃ w, POk d u w ∧ DecV out.1.heap r w) ∧
  (∀ e, out.2 = .error e → (∃ x y z, e = .mismatch x y z) ∧ PFail d u)

/-- The simulation contract for the recursion continuation, bounded by the
descriptor size. -/
def RecSim (tenv : Nat → Option TObj) (recurse : Recurse) (F : Nat) : Prop :=
  ∀ (d : DTree) (v t : Nat) (s : Session) (u : VTree), sizeOf d ≤ F →
    DecT tenv t d → DecV s.heap v u → v < s.nextAddr →
    NoTouch s.heap v (CurSh s) → InvS tenv s → DeepCur tenv s (sizeOf d) →
    SimOut tenv d u s (recurse v t s)

/-- Clearing a `current_check` key only shrinks the shell set. -/
theorem cursh_clear {s1 : Session} {k : Nat × Nat} {b : Nat}
    {cur' : Nat × Nat → Option Nat} (hc : cur' = updF s1.current k none)
    (hb : ∃ p, cur' p = some b) : CurSh s1 b := by
  rcases hb with ⟨p, hp⟩
  rw [hc] at hp
  unfold updF at hp
  by_cases hpe : p = k
  · rw [if_pos hpe] at hp
    cases hp
  · rw [if_neg hpe] at hp
    exact ⟨p, hp⟩

/-- Handler step for a cache-missing primitive success: the session is
returned unchanged and the value itself is the result. -/
theorem sim_prim_ok {tenv : Nat → Option TObj} {s : Session} {v t : Nat}
    {d : DTree} {u : VTree} (hInv : InvS tenv s)
    (hcn : s.current (v, t) = none) (hv : v < s.nextAddr)
    (hnt : NoTouch s.heap v (CurSh s)) (hdu : DecV s.heap v u)
    (hpok : POk d u u) : SimOut tenv d u s (handler v t s (s, .ok v)) := by
  unfold handler
  simp only [hcn]
  refine ⟨hInv, fun p r hp => hp, ?_, ?_⟩
  · intro r hr
    cases hr
    exact ⟨hv, hnt, u, hpok, hdu⟩
  · intro e he
    cases he

/-- Handler step for a failing check: the failure is recorded in the
failed table and the `current_check` key cleared. -/
theorem sim_handler_err {tenv : Nat → Option TObj} {s1 : Session} {v t : Nat}
    {d : DTree} {u : VTree} {e : Err} (hInv : InvS tenv s1)
    (hdt : DecT tenv t d) (hv : v < s1.nextAddr)
    (hnt : NoTouch s1.heap v (CurSh s1)) (hdu : DecV s1.heap v u)
    (hpf : PFail d u) (hsh : ∃ x y z, e = .mismatch x y z) :
    InvS tenv { s1 with
      failed := updF s1.failed (v, t) (some e),
      current := updF s1.current (v, t) none } ∧
    ((∃ x y z, e = .mismatch x y z) ∧ PFail d u) := by
  obtain ⟨hwf, hcur, hsucc, hfail⟩ := hInv
  set s2 : Session := { s1 with
    failed := updF s1.failed (v, t) (some e),
    current := updF s1.current (v, t) none } with hs2
  have hsub : ∀ b, CurSh s2 b → CurSh s1 b := by
    intro b hb
    exact cursh_clear (k := (v, t)) rfl hb
  refine ⟨⟨hwf, ?_, ?_, ?_⟩, hsh, hpf⟩
  · intro p a hp
    simp only [hs2, updF] at hp
    by_cases hpe : p = (v, t)
    · rw [if_pos hpe] at hp
      cases hp
    · rw [if_neg hpe] at hp
      exact hcur p a hp
  · intro p r hp
    obtain ⟨h1, h2, h3, h4, h5⟩ := hsucc p r hp
    exact ⟨h1, h2, notouch_mono hsub h3, notouch_mono hsub h4, h5⟩
  · intro p e' hp
    simp only [hs2, updF] at hp
    by_cases hpe : p = (v, t)
    · rw [if_pos hpe] at hp
      cases hp
      subst hpe
      refine ⟨hv, notouch_mono hsub hnt, hsh, ?_⟩
      intro d' u' hdt' hdu'
      rw [dect_unique hdt' hdt, decv_unique hdu' hdu]
      exact hpf
    · rw [if_neg hpe] at hp
      obtain ⟨h1, h2, h3, h4⟩ := hfail p e' hp
      exact ⟨h1, notouch_mono hsub h2, h3, h4⟩

/-- Handler step for a primitive failure (session unchanged by the
dispatch). -/
theorem sim_prim_err {tenv : Nat → Option TObj} {s : Session} {v t : Nat}
    {d : DTree} {u : VTree} {e : Err} (hInv : InvS tenv s)
    (hdt : DecT tenv t d) (hv : v < s.nextAddr)
    (hnt : NoTouch s.heap v (CurSh s)) (hdu : DecV s.heap v u)
    (hpf : PFail d u) (hsh : ∃ x y z, e = .mismatch x y z) :
    SimOut tenv d u s (handler v t s (s, .error e)) := by
  unfold handler
  dsimp only
  rcases sim_handler_err hInv hdt hv hnt hdu hpf hsh with ⟨hInv2, hcc⟩
  refine ⟨hInv2, fun p r hp => hp, ?_, ?_⟩
  · intro r hr
    cases hr
  · intro e' he
    cases he
    exact hcc

/-- Pointwise transfer of a list decode along a `Transfers` step. -/
theorem decvl_transfer_via {s s' : Session} (htr : Transfers s s') :
    ∀ {es : List Nat} {us : List VTree},
      (∀ e ∈ es, e < s.nextAddr ∧ NoTouch s.heap e (CurSh s)) →
      DecVL s.heap es us → DecVL s'.heap es us := by
  intro es
  induction es with
  | nil =>
    intro us _ hd
    rw [decvl_nil_inv hd]
    exact decvl_nil
  | cons e es' ih =>
    intro us hes hd
    rcases decvl_cons_inv hd with ⟨u, us', rfl, hdu, hdus⟩
    rcases hes e (List.mem_cons_self _ _) with ⟨he1, he2⟩
    exact decvl_cons ((htr.2 e he1 he2).2 u hdu)
      (ih (fun x hx => hes x (List.mem_cons_of_mem _ hx)) hdus)

/-- Simulation of the `ListChecker` element loop: on success the shell has
been extended by results that decode pointwise to the pure results; on
failure some element purely fails. -/
theorem sim_elemsInto {tenv : Nat → Option TObj} {recurse : Recurse} {F : Nat}
    (hsim : RecSim tenv recurse F) (hfr : RecFrame recurse)
    (htab : RecTab recurse) {t1 : Nat} {d1 : DTree}
    (hdt : DecT tenv t1 d1) (hF : sizeOf d1 ≤ F) {shell : Nat} :
    ∀ (es : List Nat) (us : List VTree) (acc : List Nat) (s : Session),
      InvS tenv s → DeepCur tenv s (sizeOf d1) →
      DecVL s.heap es us →
      (∀ e ∈ es, e < s.nextAddr ∧ NoTouch s.heap e (CurSh s)) →
      CurSh s shell → s.heap shell = some (.vlist acc) →
      InvS tenv (elemsInto recurse shell t1 es s).1 ∧
      (∀ p r, s.succeeded p = some r →
        (elemsInto recurse shell t1 es s).1.succeeded p = some r) ∧
      Transfers s (elemsInto recurse shell t1 es s).1 ∧
      ((elemsInto recurse shell t1 es s).2 = .ok () →
        ∃ rsl ws,
          (elemsInto recurse shell t1 es s).1.heap shell =
            some (.vlist (acc ++ rsl)) ∧
          POkL d1 us ws ∧
          DecVL (elemsInto recurse shell t1 es s).1.heap rsl ws ∧
          ∀ r ∈ rsl, r < (elemsInto recurse shell t1 es s).1.nextAddr ∧
            NoTouch (elemsInto recurse shell t1 es s).1.heap r
              (CurSh (elemsInto recurse shell t1 es s).1)) ∧
      (∀ e, (elemsInto recurse shell t1 es s).2 = .error e →
        (∃ x y z, e = .mismatch x y z) ∧ ∃ u' ∈ us, PFail d1 u') := by
  intro es
  induction es with
  | nil =>
    intro us acc s hInv hdc hdus hes hshc hshh
    rw [decvl_nil_inv hdus]
    refine ⟨hInv, fun p r hp => hp, transfers_rfl, ?_, ?_⟩
    · intro _
      refine ⟨[], [], ?_, .nil, decvl_nil, ?_⟩
      · rw [List.append_nil]
        exact hshh
      · intro r hr
        cases hr
    · intro e he
      cases he
  | cons e es' ih =>
    intro us acc s hInv hdc hdus hes hshc hshh
    rcases decvl_cons_inv hdus with ⟨ue, us', rfl, hdue, hdus'⟩
    rcases hes e (List.mem_cons_self _ _) with ⟨he1, he2⟩
    have hout := hsim d1 e t1 s ue hF hdt hdue he1 he2 hInv hdc
    have hext := hfr e t1 s s.nextAddr le_rfl
    have htb := htab e t1 s
    obtain ⟨hInv1, hsucc1, hok1, herr1⟩ := hout
    have htr1 : Transfers s (recurse e t1 s).1 :=
      transfers_frame hInv.1 hext.1 hext.2.1 htb.1
    rcases hrec : recurse e t1 s with ⟨s1, res1⟩
    rw [hrec] at hInv1 hsucc1 hok1 herr1 htr1 hext htb
    simp only [elemsInto, hrec]
    cases res1 with
    | error er =>
      dsimp only
      refine ⟨hInv1, hsucc1, htr1, ?_, ?_⟩
      · intro hok
        cases hok
      · intro e' he'
        cases he'
        rcases herr1 _ rfl with ⟨hsh, hpf⟩
        exact ⟨hsh, ue, List.mem_cons_self _ _, hpf⟩
    | ok r =>
      dsimp only at hInv1 hsucc1 hok1 htr1 hext htb ⊢
      obtain ⟨hr1, hrnt, w, hpokw, hdecw⟩ := hok1 r rfl
      have hshn : shell < s.nextAddr := by
        rcases hshc with ⟨p, hp⟩
        exact hInv.2.1 p shell hp
      have hsh1 : s1.heap shell = some (.vlist acc) := by
        rw [hext.2.1 shell hshn]
        exact hshh
      have hshc1 : CurSh s1 shell := by
        rcases hshc with ⟨p, hp⟩
        refine ⟨p, ?_⟩
        rw [htb.1]
        exact hp
      have htgt : ∀ b ∈ vobjTargets (VObj.vlist (acc ++ [r])),
          b < s1.nextAddr := by
        intro b hb
        simp only [vobjTargets, List.mem_append, List.mem_singleton] at hb
        rcases hb with hb | rfl
        · have := hInv1.1.2 shell _ hsh1 b (by simpa [vobjTargets] using hb)
          exact this
        · exact hr1
      have hla : listAppend s1 shell r =
          writeH s1 shell (.vlist (acc ++ [r])) := by
        unfold listAppend
        rw [hsh1]
      have hInv2 : InvS tenv (listAppend s1 shell r) := by
        rw [hla]
        exact invs_writeH_cursh hInv1 hshc1 htgt
      have htr2 : Transfers s1 (listAppend s1 shell r) := by
        rw [hla]
        exact transfers_write_cursh hshc1
      have htr12 : Transfers s (listAppend s1 shell r) :=
        transfers_comp htr1 htr2
      have hdc2 : DeepCur tenv (listAppend s1 shell r) (sizeOf d1) := by
        intro p hp d' hd'
        refine hdc p ?_ d' hd'
        rw [hla] at hp
        simp only [writeH] at hp
        rw [htb.1, htb.2] at hp
        exact hp
      have hes2 : ∀ x ∈ es', x < (listAppend s1 shell r).nextAddr ∧
          NoTouch (listAppend s1 shell r).heap x
            (CurSh (listAppend s1 shell r)) := by
        intro x hx
        rcases hes x (List.mem_cons_of_mem _ hx) with ⟨hx1, hx2⟩
        rcases htr12.2 x hx1 hx2 with ⟨hnt', _⟩
        exact ⟨lt_of_lt_of_le hx1 htr12.1, hnt'⟩
      have hdus2 : DecVL (listAppend s1 shell r).heap es' us' :=
        decvl_transfer_via htr12
          (fun x hx => hes x (List.mem_cons_of_mem _ hx)) hdus'
      have hshc2 : CurSh (listAppend s1 shell r) shell := by
        rw [hla]
        exact hshc1
      have hshh2 : (listAppend s1 shell r).heap shell =
          some (.vlist (acc ++ [r])) := by
        rw [hla]
        simp [writeH]
      have hrecout := ih us' (acc ++ [r]) (listAppend s1 shell r)
        hInv2 hdc2 hdus2 hes2 hshc2 hshh2
      obtain ⟨hInv3, hsucc3, htr3, hok3, herr3⟩ := hrecout
      have hsuccA : ∀ p r', s.succeeded p = some r' →
          (elemsInto recurse shell t1 es'
            (listAppend s1 shell r)).1.succeeded p = some r' := by
        intro p r' hp
        refine hsucc3 p r' ?_
        have := hsucc1 p r' hp
        rw [hla]
        exact this
      refine ⟨hInv3, hsuccA, transfers_comp htr12 htr3, ?_, ?_⟩
      · intro hok
        rcases hok3 hok with ⟨rsl', ws', hcont, hpokl, hdecl, hfacts⟩
        have hrlt2 : r < (listAppend s1 shell r).nextAddr := by
          rw [hla]
          exact hr1
        have hrnt2 : NoTouch (listAppend s1 shell r).heap r
            (CurSh (listAppend s1 shell r)) := (htr2.2 r hr1 hrnt).1
        have hdecw2 : DecV (listAppend s1 shell r).heap r w :=
          (htr2.2 r hr1 hrnt).2 w hdecw
        refine ⟨r :: rsl', w :: ws', ?_, .cons hpokw hpokl, ?_, ?_⟩
        · rw [List.append_assoc] at hcont
          simpa using hcont
        · exact decvl_cons ((htr3.2 r hrlt2 hrnt2).2 w hdecw2) hdecl
        · intro x hx
          rcases List.mem_cons.1 hx with rfl | hx
          · exact ⟨lt_of_lt_of_le hrlt2 htr3.1, (htr3.2 x hrlt2 hrnt2).1⟩
          · exact hfacts x hx
      · intro e' he'
        rcases herr3 e' he' with ⟨hsh, u', hu', hpf⟩
        exact ⟨hsh, u', List.mem_cons_of_mem _ hu', hpf⟩

/-- `DeepCur` is antitone in the size bound. -/
theorem deepcur_mono {tenv : Nat → Option TObj} {s : Session} {m m' : Nat}
    (hle : m' ≤ m) (hdc : DeepCur tenv s m) : DeepCur tenv s m' :=
  fun p hp d' hd' => lt_of_le_of_lt hle (hdc p hp d' hd')

/-- Pointwise transfer of a dict-entry decode along a `Transfers` step. -/
theorem decvd_transfer_via {s s' : Session} (htr : Transfers s s') :
    ∀ {es : List (Nat × Nat)} {ps : List (VTree × VTree)},
      (∀ p ∈ es, p.1 < s.nextAddr ∧ NoTouch s.heap p.1 (CurSh s) ∧
        p.2 < s.nextAddr ∧ NoTouch s.heap p.2 (CurSh s)) →
      DecVD s.heap es ps → DecVD s'.heap es ps := by
  intro es
  induction es with
  | nil =>
    intro ps _ hd
    rw [decvd_nil_inv hd]
    exact decvd_nil
  | cons pe rest ih =>
    rcases pe with ⟨ka, va⟩
    intro ps hes hd
    rcases decvd_cons_inv hd with ⟨ku, vu, ps', rfl, hdku, hdvu, hdps⟩
    rcases hes (ka, va) (List.mem_cons_self _ _) with ⟨h1, h2, h3, h4⟩
    exact decvd_cons ((htr.2 ka h1 h2).2 ku hdku) ((htr.2 va h3 h4).2 vu hdvu)
      (ih (fun p hp => hes p (List.mem_cons_of_mem _ hp)) hdps)

/-- A decodable address is allocated. -/
theorem decv_some {h : Nat → Option VObj} {a : Nat} {u : VTree}
    (hd : DecV h a u) : ∃ o, h a = some o := by
  rcases hd with ⟨f, hf⟩
  cases hf with
  | dvN ho => exact ⟨_, ho⟩
  | dvB ho => exact ⟨_, ho⟩
  | dvI ho => exact ⟨_, ho⟩
  | dvS ho => exact ⟨_, ho⟩
  | dvL ho _ => exact ⟨_, ho⟩
  | dvT ho _ => exact ⟨_, ho⟩
  | dvD ho _ => exact ⟨_, ho⟩

/-- A string cell decodes to the string tree. -/
theorem decv_str_eq {h : Nat → Option VObj} {ka : Nat} {ku : VTree}
    {ks : String} (hd : DecV h ka ku) (ho : h ka = some (.vstr ks)) :
    ku = .vtS ks := by
  rcases hd with ⟨f, hf⟩
  exact (decv_str_iff hf ks).1 ho

/-- A non-string cell decodes to a non-string tree. -/
theorem decv_isstr_false {h : Nat → Option VObj} {ka : Nat} {ku : VTree}
    {o : VObj} (hd : DecV h ka ku) (ho : h ka = some o)
    (hno : ∀ ks, o ≠ .vstr ks) : isStrT ku = false := by
  rcases hd with ⟨f, hf⟩
  cases hf with
  | dvN _ => rfl
  | dvB _ => rfl
  | dvI _ => rfl
  | dvS hoo =>
    rw [ho] at hoo
    cases hoo
    exact absurd rfl (hno _)
  | dvL _ _ => rfl
  | dvT _ _ => rfl
  | dvD _ _ => rfl

/-- The contract of the dict entry loop, relative to the pure `PEntry`
relation over the remaining input entries. -/
abbrev DictLoopOut (tenv : Nat → Option TObj)
    (reqsD optsD : List (String × DTree)) (shell : Nat)
    (ps : List (VTree × VTree)) (acc : List (Nat × Nat)) (s : Session)
    (run : Session × Except Err Unit) : Prop :=
  InvS tenv run.1 ∧
  (∀ p r, s.succeeded p = some r → run.1.succeeded p = some r) ∧
  Transfers s run.1 ∧
  (run.2 = .ok () → ∃ outs qs,
    run.1.heap shell = some (.vdict (acc ++ outs)) ∧
    PEntryL reqsD optsD ps qs ∧ DecVD run.1.heap outs qs ∧
    ∀ q ∈ outs, q.1 < run.1.nextAddr ∧
      NoTouch run.1.heap q.1 (CurSh run.1) ∧ q.2 < run.1.nextAddr ∧
      NoTouch run.1.heap q.2 (CurSh run.1)) ∧
  (∀ e, run.2 = .error e → (∃ x y z, e = .mismatch x y z) ∧
    ∃ ks vu td, (VTree.vtS ks, vu) ∈ ps ∧
      mergedLookup reqsD optsD ks = some td ∧ PFail td vu)

/-- The passthrough step of the dict entry loop: the entry is appended
unchanged and the loop continues. -/
theorem sim_dict_pass (rs : String → String → Bool)
    {tenv : Nat → Option TObj} {recurse : Recurse} {M : Nat}
    {reqsN optsN : List (String × Nat)} {reqsD optsD : List (String × DTree)}
    {shell ka va : Nat} {ku vu : VTree} {ps' : List (VTree × VTree)}
    {rest acc : List (Nat × Nat)} {s : Session}
    (ih : ∀ (ps : List (VTree × VTree)) (acc : List (Nat × Nat))
      (s : Session), InvS tenv s → DeepCur tenv s M →
      DecVD s.heap rest ps →
      (∀ p ∈ rest, p.1 < s.nextAddr ∧ NoTouch s.heap p.1 (CurSh s) ∧
        p.2 < s.nextAddr ∧ NoTouch s.heap p.2 (CurSh s)) →
      CurSh s shell → s.heap shell = some (.vdict acc) →
      DictLoopOut tenv reqsD optsD shell ps acc s
        (dictEntriesInto rs recurse shell reqsN optsN [] rest s))
    (hInv : InvS tenv s) (hdc : DeepCur tenv s M)
    (hdps' : DecVD s.heap rest ps')
    (hes : ∀ p ∈ rest, p.1 < s.nextAddr ∧ NoTouch s.heap p.1 (CurSh s) ∧
      p.2 < s.nextAddr ∧ NoTouch s.heap p.2 (CurSh s))
    (hshc : CurSh s shell) (hshh : s.heap shell = some (.vdict acc))
    (hdku : DecV s.heap ka ku) (hdvu : DecV s.heap va vu)
    (hka1 : ka < s.nextAddr) (hka2 : NoTouch s.heap ka (CurSh s))
    (hva1 : va < s.nextAddr) (hva2 : NoTouch s.heap va (CurSh s))
    (hpe : PEntry reqsD optsD (ku, vu) (ku, vu)) :
    DictLoopOut tenv reqsD optsD shell ((ku, vu) :: ps') acc s
      (dictEntriesInto rs recurse shell reqsN optsN [] rest
        (dictAppend s shell ka va)) := by
  have hla : dictAppend s shell ka va =
      writeH s shell (.vdict (acc ++ [(ka, va)])) := by
    unfold dictAppend
    rw [hshh]
  have hold : ∀ b ∈ vobjTargets (VObj.vdict acc), b < s.nextAddr :=
    hInv.1.2 shell _ hshh
  have htgt : ∀ b ∈ vobjTargets (VObj.vdict (acc ++ [(ka, va)])),
      b < s.nextAddr := by
    intro b hb
    simp only [vobjTargets, List.map_append, List.mem_append,
      List.map_cons, List.map_nil, List.mem_singleton] at hb
    rcases hb with (hb | hb) | (hb | hb)
    · exact hold b (by
        simp only [vobjTargets, List.mem_append]
        exact .inl hb)
    · rcases hb with rfl
      exact hka1
    · exact hold b (by
        simp only [vobjTargets, List.mem_append]
        exact .inr hb)
    · rcases hb with rfl
      exact hva1
  have hInv2 : InvS tenv (dictAppend s shell ka va) := by
    rw [hla]
    exact invs_writeH_cursh hInv hshc htgt
  have htr12 : Transfers s (dictAppend s shell ka va) := by
    rw [hla]
    exact transfers_write_cursh hshc
  have hdc2 : DeepCur tenv (dictAppend s shell ka va) M := by
    intro p hp d' hd'
    refine hdc p ?_ d' hd'
    rw [hla] at hp
    simp only [writeH] at hp
    exact hp
  have hes2 : ∀ p ∈ rest,
      p.1 < (dictAppend s shell ka va).nextAddr ∧
      NoTouch (dictAppend s shell ka va).heap p.1
        (CurSh (dictAppend s shell ka va)) ∧
      p.2 < (dictAppend s shell ka va).nextAddr ∧
      NoTouch (dictAppend s shell ka va).heap p.2
        (CurSh (dictAppend s shell ka va)) := by
    intro p hp
    rcases hes p hp with ⟨h1, h2, h3, h4⟩
    exact ⟨lt_of_lt_of_le h1 htr12.1, (htr12.2 p.1 h1 h2).1,
      lt_of_lt_of_le h3 htr12.1, (htr12.2 p.2 h3 h4).1⟩
  have hdps2 : DecVD (dictAppend s shell ka va).heap rest ps' :=
    decvd_transfer_via htr12 hes hdps'
  have hshc2 : CurSh (dictAppend s shell ka va) shell := by
    rw [hla]
    exact hshc
  have hshh2 : (dictAppend s shell ka va).heap shell =
      some (.vdict (acc ++ [(ka, va)])) := by
    rw [hla]
    simp [writeH]
  have hrecout := ih ps' (acc ++ [(ka, va)]) (dictAppend s shell ka va)
    hInv2 hdc2 hdps2 hes2 hshc2 hshh2
  obtain ⟨hInv3, hsucc3, htr3, hok3, herr3⟩ := hrecout
  have hsuccA : ∀ p r', s.succeeded p = some r' →
      (dictEntriesInto rs recurse shell reqsN optsN [] rest
        (dictAppend s shell ka va)).1.succeeded p = some r' := by
    intro p r' hp
    refine hsucc3 p r' ?_
    rw [hla]
    exact hp
  refine ⟨hInv3, hsuccA, transfers_comp htr12 htr3, ?_, ?_⟩
  · intro hok
    rcases hok3 hok with ⟨outs', qs', hcont, hpel, hdecl, hfacts⟩
    have hka2' : NoTouch (dictAppend s shell ka va).heap ka
        (CurSh (dictAppend s shell ka va)) := (htr12.2 ka hka1 hka2).1
    have hdka2 : DecV (dictAppend s shell ka va).heap ka ku :=
      (htr12.2 ka hka1 hka2).2 _ hdku
    have hva2' : NoTouch (dictAppend s shell ka va).heap va
        (CurSh (dictAppend s shell ka va)) := (htr12.2 va hva1 hva2).1
    have hdva2 : DecV (dictAppend s shell ka va).heap va vu :=
      (htr12.2 va hva1 hva2).2 vu hdvu
    have hka12 : ka < (dictAppend s shell ka va).nextAddr := by
      rw [hla]
      exact hka1
    have hva12 : va < (dictAppend s shell ka va).nextAddr := by
      rw [hla]
      exact hva1
    refine ⟨(ka, va) :: outs', (ku, vu) :: qs', ?_, .cons hpe hpel, ?_, ?_⟩
    · rw [List.append_assoc] at hcont
      simpa using hcont
    · exact decvd_cons ((htr3.2 ka hka12 hka2').2 _ hdka2)
        ((htr3.2 va hva12 hva2').2 vu hdva2) hdecl
    · intro q hq
      rcases List.mem_cons.1 hq with rfl | hq
      · exact ⟨lt_of_lt_of_le hka12 htr3.1, (htr3.2 ka hka12 hka2').1,
          lt_of_lt_of_le hva12 htr3.1, (htr3.2 va hva12 hva2').1⟩
      · exact hfacts q hq
  · intro e' he'
    rcases herr3 e' he' with ⟨hsh, ks', vu', td', hmem, hlk', hpf⟩
    exact ⟨hsh, ks', vu', td', List.mem_cons_of_mem _ hmem, hlk', hpf⟩

/-- Simulation of the `DictChecker` entry loop without regex rules. -/
theorem sim_dictEntriesInto (rs : String → String → Bool)
    {tenv : Nat → Option TObj} {recurse : Recurse} {F M fd : Nat}
    (hsim : RecSim tenv recurse F) (hfr : RecFrame recurse)
    (htab : RecTab recurse)
    {reqsN optsN : List (String × Nat)} {reqsD optsD : List (String × DTree)}
    (hreq : DecTEH tenv fd reqsN reqsD) (hopt : DecTEH tenv fd optsN optsD)
    (hM : ∀ (td : DTree) (ks : String),
      mergedLookup reqsD optsD ks = some td → sizeOf td ≤ M)
    (hMF : M ≤ F) {shell : Nat} :
    ∀ (ves : List (Nat × Nat)) (ps : List (VTree × VTree))
      (acc : List (Nat × Nat)) (s : Session),
      InvS tenv s → DeepCur tenv s M →
      DecVD s.heap ves ps →
      (∀ p ∈ ves, p.1 < s.nextAddr ∧ NoTouch s.heap p.1 (CurSh s) ∧
        p.2 < s.nextAddr ∧ NoTouch s.heap p.2 (CurSh s)) →
      CurSh s shell → s.heap shell = some (.vdict acc) →
      DictLoopOut tenv reqsD optsD shell ps acc s
        (dictEntriesInto rs recurse shell reqsN optsN [] ves s) := by
  intro ves
  induction ves with
  | nil =>
    intro ps acc s hInv hdc hdps hes hshc hshh
    rw [decvd_nil_inv hdps]
    refine ⟨hInv, fun p r hp => hp, transfers_rfl, ?_, ?_⟩
    · intro _
      refine ⟨[], [], ?_, .nil, decvd_nil, ?_⟩
      · rw [List.append_nil]
        exact hshh
      · intro q hq
        cases hq
    · intro e he
      cases he
  | cons pe rest ih =>
    rcases pe with ⟨ka, va⟩
    intro ps acc s hInv hdc hdps hes hshc hshh
    rcases decvd_cons_inv hdps with ⟨ku, vu, ps', rfl, hdku, hdvu, hdps'⟩
    rcases hes (ka, va) (List.mem_cons_self _ _) with ⟨hka1, hka2, hva1, hva2⟩
    have hes' : ∀ p ∈ rest, p.1 < s.nextAddr ∧
        NoTouch s.heap p.1 (CurSh s) ∧ p.2 < s.nextAddr ∧
        NoTouch s.heap p.2 (CurSh s) :=
      fun p hp => hes p (List.mem_cons_of_mem _ hp)
    have hshn : shell < s.nextAddr := by
      rcases hshc with ⟨p, hp⟩
      exact hInv.2.1 p shell hp
    simp only [dictEntriesInto]
    cases hco : s.heap ka with
    | none =>
      exfalso
      rcases decv_some hdku with ⟨o, ho⟩
      rw [hco] at ho
      cases ho
    | some o =>
      cases o
      case vstr ks =>
        have hkus : ku = .vtS ks := decv_str_eq hdku hco
        subst hkus
        dsimp only
        cases hlk : mergedLookup reqsN optsN ks with
        | some tk =>
          dsimp only
          rcases (merged_bridge hreq hopt ks).2 tk hlk with ⟨td, hlkd, htd⟩
          have hszd : sizeOf td ≤ M := hM td ks hlkd
          have hout := hsim td va tk s vu (le_trans hszd hMF) ⟨fd, htd⟩ hdvu
            hva1 hva2 hInv (deepcur_mono hszd hdc)
          have hext := hfr va tk s s.nextAddr le_rfl
          have htb := htab va tk s
          obtain ⟨hInv1, hsucc1, hok1, herr1⟩ := hout
          have htr1 : Transfers s (recurse va tk s).1 :=
            transfers_frame hInv.1 hext.1 hext.2.1 htb.1
          rcases hrec : recurse va tk s with ⟨s1, res1⟩
          rw [hrec] at hInv1 hsucc1 hok1 herr1 htr1 hext htb
          cases res1 with
          | error er =>
            dsimp only
            refine ⟨hInv1, hsucc1, htr1, ?_, ?_⟩
            · intro hok
              cases hok
            · intro e' he'
              cases he'
              rcases herr1 _ rfl with ⟨hsh, hpf⟩
              exact ⟨hsh, ks, vu, td, List.mem_cons_self _ _, hlkd, hpf⟩
          | ok r =>
            dsimp only at hInv1 hsucc1 hok1 htr1 hext htb ⊢
            obtain ⟨hr1, hrnt, w, hpokw, hdecw⟩ := hok1 r rfl
            have hsh1 : s1.heap shell = some (.vdict acc) := by
              rw [hext.2.1 shell hshn]
              exact hshh
            have hshc1 : CurSh s1 shell := by
              rcases hshc with ⟨p, hp⟩
              exact ⟨p, by rw [htb.1]; exact hp⟩
            have hold : ∀ b ∈ vobjTargets (VObj.vdict acc),
                b < s1.nextAddr := hInv1.1.2 shell _ hsh1
            have hka1' : ka < s1.nextAddr := lt_of_lt_of_le hka1 hext.1
            have htgt : ∀ b ∈ vobjTargets (VObj.vdict (acc ++ [(ka, r)])),
                b < s1.nextAddr := by
              intro b hb
              simp only [vobjTargets, List.map_append, List.mem_append,
                List.map_cons, List.map_nil, List.mem_singleton] at hb
              rcases hb with (hb | hb) | (hb | hb)
              · exact hold b (by
                  simp only [vobjTargets, List.mem_append]
                  exact .inl hb)
              · rcases hb with rfl
                exact hka1'
              · exact hold b (by
                  simp only [vobjTargets, List.mem_append]
                  exact .inr hb)
              · rcases hb with rfl
                exact hr1
            have hla : dictAppend s1 shell ka r =
                writeH s1 shell (.vdict (acc ++ [(ka, r)])) := by
              unfold dictAppend
              rw [hsh1]
            have hInv2 : InvS tenv (dictAppend s1 shell ka r) := by
              rw [hla]
              exact invs_writeH_cursh hInv1 hshc1 htgt
            have htr2 : Transfers s1 (dictAppend s1 shell ka r) := by
              rw [hla]
              exact transfers_write_cursh hshc1
            have htr12 : Transfers s (dictAppend s1 shell ka r) :=
              transfers_comp htr1 htr2
            have hdc2 : DeepCur tenv (dictAppend s1 shell ka r) M := by
              intro p hp d' hd'
              refine hdc p ?_ d' hd'
              rw [hla] at hp
              simp only [writeH] at hp
              rw [htb.1, htb.2] at hp
              exact hp
            have hes2 : ∀ p ∈ rest,
                p.1 < (dictAppend s1 shell ka r).nextAddr ∧
                NoTouch (dictAppend s1 shell ka r).heap p.1
                  (CurSh (dictAppend s1 shell ka r)) ∧
                p.2 < (dictAppend s1 shell ka r).nextAddr ∧
                NoTouch (dictAppend s1 shell ka r).heap p.2
                  (CurSh (dictAppend s1 shell ka r)) := by
              intro p hp
              rcases hes' p hp with ⟨h1, h2, h3, h4⟩
              exact ⟨lt_of_lt_of_le h1 htr12.1, (htr12.2 p.1 h1 h2).1,
                lt_of_lt_of_le h3 htr12.1, (htr12.2 p.2 h3 h4).1⟩
            have hdps2 : DecVD (dictAppend s1 shell ka r).heap rest ps' :=
              decvd_transfer_via htr12 hes' hdps'
            have hshc2 : CurSh (dictAppend s1 shell ka r) shell := by
              rw [hla]
              exact hshc1
            have hshh2 : (dictAppend s1 shell ka r).heap shell =
                some (.vdict (acc ++ [(ka, r)])) := by
              rw [hla]
              simp [writeH]
            have hrecout := ih ps' (acc ++ [(ka, r)])
              (dictAppend s1 shell ka r) hInv2 hdc2 hdps2 hes2 hshc2 hshh2
            obtain ⟨hInv3, hsucc3, htr3, hok3, herr3⟩ := hrecout
            have hsuccA : ∀ p r', s.succeeded p = some r' →
                (dictEntriesInto rs recurse shell reqsN optsN [] rest
                  (dictAppend s1 shell ka r)).1.succeeded p = some r' := by
              intro p r' hp
              refine hsucc3 p r' ?_
              rw [hla]
              exact hsucc1 p r' hp
            refine ⟨hInv3, hsuccA, transfers_comp htr12 htr3, ?_, ?_⟩
            · intro hok
              rcases hok3 hok with ⟨outs', qs', hcont, hpel, hdecl, hfacts⟩
              have hka2' : NoTouch (dictAppend s1 shell ka r).heap ka
                  (CurSh (dictAppend s1 shell ka r)) :=
                (htr12.2 ka hka1 hka2).1
              have hdka2 : DecV (dictAppend s1 shell ka r).heap ka
                  (VTree.vtS ks) := (htr12.2 ka hka1 hka2).2 _ hdku
              have hrlt2 : r < (dictAppend s1 shell ka r).nextAddr := by
                rw [hla]
                exact hr1
              have hrnt2 : NoTouch (dictAppend s1 shell ka r).heap r
                  (CurSh (dictAppend s1 shell ka r)) :=
                (htr2.2 r hr1 hrnt).1
              have hdecw2 : DecV (dictAppend s1 shell ka r).heap r w :=
                (htr2.2 r hr1 hrnt).2 w hdecw
              have hka12 : ka < (dictAppend s1 shell ka r).nextAddr := by
                rw [hla]
                exact hka1'
              refine ⟨(ka, r) :: outs', (VTree.vtS ks, w) :: qs', ?_,
                .cons (.cov hlkd hpokw) hpel, ?_, ?_⟩
              · rw [List.append_assoc] at hcont
                simpa using hcont
              · exact decvd_cons ((htr3.2 ka hka12 hka2').2 _ hdka2)
                  ((htr3.2 r hrlt2 hrnt2).2 w hdecw2) hdecl
              · intro q hq
                rcases List.mem_cons.1 hq with rfl | hq
                · exact ⟨lt_of_lt_of_le hka12 htr3.1,
                    (htr3.2 ka hka12 hka2').1,
                    lt_of_lt_of_le hrlt2 htr3.1,
                    (htr3.2 r hrlt2 hrnt2).1⟩
                · exact hfacts q hq
            · intro e' he'
              rcases herr3 e' he' with ⟨hsh, ks', vu', td', hmem, hlk', hpf⟩
              exact ⟨hsh, ks', vu', td', List.mem_cons_of_mem _ hmem,
                hlk', hpf⟩
        | none =>
          dsimp only
          have hlkd : mergedLookup reqsD optsD ks = none :=
            (merged_bridge hreq hopt ks).1 hlk
          have hrgx : regexFind rs ([] : List (String × Nat)) ks = none := rfl
          rw [hrgx]
          dsimp only
          exact sim_dict_pass rs ih hInv hdc hdps' hes' hshc hshh hdku hdvu
            hka1 hka2 hva1 hva2 (.unc hlkd)
      all_goals {
        dsimp only
        have hstr : isStrT ku = false :=
          decv_isstr_false hdku hco (by intro ks hk; cases hk)
        have hemp : (([] : List (String × Nat)).isEmpty) = true := rfl
        rw [if_pos hemp]
        exact sim_dict_pass rs ih hInv hdc hdps' hes' hshc hshh hdku hdvu
          hka1 hka2 hva1 hva2 (.nonstr hstr)
      }

/-- Everything reachable from a shell-avoiding address is itself
shell-avoiding. -/
theorem notouch_sub {h : Nat → Option VObj} {x y : Nat} {bad : Nat → Prop}
    (hnt : NoTouch h x bad) (hxy : ReachH h x y) : NoTouch h y bad :=
  fun b hb => hnt b (reach_trans hxy hb)

/-- String-tree test. -/
theorem isStrT_iff {w : VTree} : isStrT w = true ↔ ∃ ks, w = .vtS ks := by
  cases w <;> simp [isStrT]

/-- Every entry passes through the empty dict descriptor unchanged. -/
theorem pentryl_empty : ∀ ps : List (VTree × VTree), PEntryL [] [] ps ps := by
  intro ps
  induction ps with
  | nil => exact .nil
  | cons p rest ih =>
    rcases p with ⟨ku, vu⟩
    by_cases hs : isStrT ku = true
    · rcases isStrT_iff.1 hs with ⟨ks, rfl⟩
      exact .cons (.unc rfl) ih
    · exact .cons (.nonstr (by simpa using hs)) ih

/-- A `none` result of `firstMissingReq` means every required key is
present. -/
theorem firstMissing_none {h : Nat → Option VObj} {ves : List (Nat × Nat)}
    {reqs : List (String × Nat)}
    (hn : firstMissingReq h ves reqs = none) :
    ∀ kv ∈ reqs, hasKeyStr h ves kv.1 = true := by
  intro kv hkv
  unfold firstMissingReq at hn
  rcases ho : reqs.find? fun kv => !hasKeyStr h ves kv.1 with _ | p
  · have := List.find?_eq_none.1 ho kv hkv
    simpa using this
  · rw [ho] at hn
    cases hn

/-- A `some` result of `firstMissingReq` names a required key absent from
the input dict. -/
theorem firstMissing_some {h : Nat → Option VObj} {ves : List (Nat × Nat)}
    {reqs : List (String × Nat)} {k : String}
    (hs : firstMissingReq h ves reqs = some k) :
    ∃ kv ∈ reqs, kv.1 = k ∧ hasKeyStr h ves k = false := by
  unfold firstMissingReq at hs
  rcases ho : reqs.find? fun kv => !hasKeyStr h ves kv.1 with _ | p
  · rw [ho] at hs
    cases hs
  · rw [ho] at hs
    cases hs
    have hmem := List.mem_of_find?_eq_some ho
    have hpred := List.find?_some ho
    refine ⟨p, hmem, rfl, ?_⟩
    simpa using hpred

/-- Finishing a successful shell check: the handler moves the pair from
`current_check` into `succeded_check` and the shell is the result. -/
theorem sim_shell_finish {tenv : Nat → Option TObj} {s sFin : Session}
    {v t shell : Nat} {d : DTree} {u w : VTree} {L : Nat × Nat → Bool}
    (hInvF : InvS tenv sFin)
    (hcur2 : sFin.current = updF s.current (v, t) (some shell))
    (hsmono : ∀ p r, s.succeeded p = some r → sFin.succeeded p = some r)
    (hsn : s.succeeded (v, t) = none)
    (hdt : DecT tenv t d)
    (hshl : shell < sFin.nextAddr)
    (hpok : POk d u w) (hwdec : DecV sFin.heap shell w)
    (hshnt : NoTouch sFin.heap shell (CurSh s))
    (hvlt : v < sFin.nextAddr)
    (hvnt : NoTouch sFin.heap v (CurSh s))
    (hvdec : DecV sFin.heap v u) :
    SimOut tenv d u s
      (handler v t s ({ sFin with listLoop := L }, .ok shell)) := by
  unfold handler
  dsimp only
  have hcc : sFin.current (v, t) = some shell := by
    rw [hcur2]
    simp [updF]
  rw [hcc]
  obtain ⟨hwf, hcurb, hsucc, hfail⟩ := hInvF
  have hsubF : ∀ b, (∃ p, updF sFin.current (v, t) none p = some b) →
      CurSh s b := by
    intro b hb
    rcases hb with ⟨p, hp⟩
    unfold updF at hp
    by_cases hpe : p = (v, t)
    · rw [if_pos hpe] at hp
      cases hp
    · rw [if_neg hpe] at hp
      rw [hcur2] at hp
      unfold updF at hp
      rw [if_neg hpe] at hp
      exact ⟨p, hp⟩
  have hsubFin : ∀ b, (∃ p, updF sFin.current (v, t) none p = some b) →
      CurSh sFin b := by
    intro b hb
    exact cursh_clear (k := (v, t)) rfl hb
  refine ⟨⟨hwf, ?_, ?_, ?_⟩, ?_, ?_, ?_⟩
  · intro p a hp
    simp only [updF] at hp
    by_cases hpe : p = (v, t)
    · rw [if_pos hpe] at hp
      cases hp
    · rw [if_neg hpe] at hp
      exact hcurb p a hp
  · intro p r hp
    simp only [updF] at hp
    by_cases hpe : p = (v, t)
    · rw [if_pos hpe] at hp
      cases hp
      subst hpe
      refine ⟨hvlt, hshl, notouch_mono hsubF hvnt, notouch_mono hsubF hshnt,
        ?_⟩
      intro d' u' hdt' hdu'
      rw [dect_unique hdt' hdt, decv_unique hdu' hvdec]
      exact ⟨w, hpok, hwdec⟩
    · rw [if_neg hpe] at hp
      obtain ⟨h1, h2, h3, h4, h5⟩ := hsucc p r hp
      exact ⟨h1, h2, notouch_mono hsubFin h3, notouch_mono hsubFin h4, h5⟩
  · intro p e hp
    obtain ⟨h1, h2, h3, h4⟩ := hfail p e hp
    exact ⟨h1, notouch_mono hsubFin h2, h3, h4⟩
  · intro p r hp
    simp only [updF]
    by_cases hpe : p = (v, t)
    · rw [hpe] at hp
      rw [hsn] at hp
      cases hp
    · rw [if_neg hpe]
      exact hsmono p r hp
  · intro r hr
    cases hr
    exact ⟨hshl, notouch_mono hsubF hshnt, w, hpok, hwdec⟩
  · intro e he
    cases he

/-- Finishing a failed shell check: the succeeded table is rolled back to
its pre-attempt snapshot, the failure recorded, the shell dropped. -/
theorem sim_shell_rollback {tenv : Nat → Option TObj} {s sFin : Session}
    {v t shell : Nat} {d : DTree} {u : VTree} {e : Err}
    {L : Nat × Nat → Bool}
    (hInvF : InvS tenv sFin)
    (hcur2 : sFin.current = updF s.current (v, t) (some shell))
    (hsmono : ∀ p r, s.succeeded p = some r → sFin.succeeded p = some r)
    (hdt : DecT tenv t d)
    (hpf : PFail d u) (hsh : ∃ x y z, e = .mismatch x y z)
    (hvlt : v < sFin.nextAddr)
    (hvnt : NoTouch sFin.heap v (CurSh s))
    (hvdec : DecV sFin.heap v u) :
    SimOut tenv d u s
      (handler v t s
        ({ sFin with succeeded := s.succeeded, listLoop := L }, .error e)) := by
  unfold handler
  dsimp only
  obtain ⟨hwf, hcurb, hsucc, hfail⟩ := hInvF
  have hsubF : ∀ b, (∃ p, updF sFin.current (v, t) none p = some b) →
      CurSh s b := by
    intro b hb
    rcases hb with ⟨p, hp⟩
    unfold updF at hp
    by_cases hpe : p = (v, t)
    · rw [if_pos hpe] at hp
      cases hp
    · rw [if_neg hpe] at hp
      rw [hcur2] at hp
      unfold updF at hp
      rw [if_neg hpe] at hp
      exact ⟨p, hp⟩
  have hsubFin : ∀ b, (∃ p, updF sFin.current (v, t) none p = some b) →
      CurSh sFin b := by
    intro b hb
    exact cursh_clear (k := (v, t)) rfl hb
  refine ⟨⟨hwf, ?_, ?_, ?_⟩, ?_, ?_, ?_⟩
  · intro p a hp
    simp only [updF] at hp
    by_cases hpe : p = (v, t)
    · rw [if_pos hpe] at hp
      cases hp
    · rw [if_neg hpe] at hp
      exact hcurb p a hp
  · intro p r hp
    have hp2 : sFin.succeeded p = some r := hsmono p r hp
    obtain ⟨h1, h2, h3, h4, h5⟩ := hsucc p r hp2
    exact ⟨h1, h2, notouch_mono hsubFin h3, notouch_mono hsubFin h4, h5⟩
  · intro p e' hp
    simp only [updF] at hp
    by_cases hpe : p = (v, t)
    · rw [if_pos hpe] at hp
      cases hp
      subst hpe
      refine ⟨hvlt, notouch_mono hsubF hvnt, hsh, ?_⟩
      intro d' u' hdt' hdu'
      rw [dect_unique hdt' hdt, decv_unique hdu' hvdec]
      exact hpf
    · rw [if_neg hpe] at hp
      obtain ⟨h1, h2, h3, h4⟩ := hfail p e' hp
      exact ⟨h1, notouch_mono hsubFin h2, h3, h4⟩
  · intro p r hp
    exact hp
  · intro r hr
    cases hr
  · intro e' he
    cases he
    exact ⟨hsh, hpf⟩

/-- A non-sequence cell decodes to a non-sequence tree. -/
theorem decv_isseq_false {h : Nat → Option VObj} {va : Nat} {u : VTree}
    {o : VObj} (hd : DecV h va u) (ho : h va = some o)
    (hnl : ∀ es, o ≠ .vlist es) (hnt : ∀ es, o ≠ .vtuple es) :
    isSeqT u = false := by
  rcases hd with ⟨f, hf⟩
  cases hf with
  | dvN _ => rfl
  | dvB _ => rfl
  | dvI _ => rfl
  | dvS _ => rfl
  | dvL hoo _ =>
    rw [ho] at hoo
    cases hoo
    exact absurd rfl (hnl _)
  | dvT hoo _ =>
    rw [ho] at hoo
    cases hoo
    exact absurd rfl (hnt _)
  | dvD _ _ => rfl

/-- Inversion: a list cell decodes to a list tree of its elements. -/
theorem decv_list_inv {h : Nat → Option VObj} {va : Nat} {u : VTree}
    {es : List Nat} (hd : DecV h va u) (ho : h va = some (.vlist es)) :
    ∃ us, u = .vtL us ∧ DecVL h es us := by
  rcases hd with ⟨f, hf⟩
  cases hf with
  | dvN hoo => rw [ho] at hoo; cases hoo
  | dvB hoo => rw [ho] at hoo; cases hoo
  | dvI hoo => rw [ho] at hoo; cases hoo
  | dvS hoo => rw [ho] at hoo; cases hoo
  | dvL hoo hl =>
    rw [ho] at hoo
    cases hoo
    exact ⟨_, rfl, _, hl⟩
  | dvT hoo _ => rw [ho] at hoo; cases hoo
  | dvD hoo _ => rw [ho] at hoo; cases hoo

/-- Inversion: a tuple cell decodes to a tuple tree of its elements. -/
theorem decv_tuple_inv {h : Nat → Option VObj} {va : Nat} {u : VTree}
    {es : List Nat} (hd : DecV h va u) (ho : h va = some (.vtuple es)) :
    ∃ us, u = .vtT us ∧ DecVL h es us := by
  rcases hd with ⟨f, hf⟩
  cases hf with
  | dvN hoo => rw [ho] at hoo; cases hoo
  | dvB hoo => rw [ho] at hoo; cases hoo
  | dvI hoo => rw [ho] at hoo; cases hoo
  | dvS hoo => rw [ho] at hoo; cases hoo
  | dvL hoo _ => rw [ho] at hoo; cases hoo
  | dvT hoo hl =>
    rw [ho] at hoo
    cases hoo
    exact ⟨_, rfl, _, hl⟩
  | dvD hoo _ => rw [ho] at hoo; cases hoo

/-- Inversion: a dict cell decodes to a dict tree of its entries. -/
theorem decv_dict_inv {h : Nat → Option VObj} {va : Nat} {u : VTree}
    {es : List (Nat × Nat)} (hd : DecV h va u) (ho : h va = some (.vdict es)) :
    ∃ ps, u = .vtD ps ∧ DecVD h es ps := by
  rcases hd with ⟨f, hf⟩
  cases hf with
  | dvN hoo => rw [ho] at hoo; cases hoo
  | dvB hoo => rw [ho] at hoo; cases hoo
  | dvI hoo => rw [ho] at hoo; cases hoo
  | dvS hoo => rw [ho] at hoo; cases hoo
  | dvL hoo _ => rw [ho] at hoo; cases hoo
  | dvT hoo _ => rw [ho] at hoo; cases hoo
  | dvD hoo hl =>
    rw [ho] at hoo
    cases hoo
    exact ⟨_, rfl, _, hl⟩

/-- A non-dict cell decodes to a non-dict tree. -/
theorem decv_isdict_false {h : Nat → Option VObj} {va : Nat} {u : VTree}
    {o : VObj} (hd : DecV h va u) (ho : h va = some o)
    (hnd : ∀ es, o ≠ .vdict es) : isDictT u = false := by
  rcases hd with ⟨f, hf⟩
  cases hf with
  | dvN _ => rfl
  | dvB _ => rfl
  | dvI _ => rfl
  | dvS _ => rfl
  | dvL _ _ => rfl
  | dvT _ _ => rfl
  | dvD hoo _ =>
    rw [ho] at hoo
    cases hoo
    exact absurd rfl (hnd _)

/-- The elements of a decoded sequence are reachable subvalues, below the
frontier when the heap is well-formed. -/
theorem seq_elem_facts {h : Nat → Option VObj} {n va : Nat} {es : List Nat}
    {o : VObj} (hwf : WfH h n) (ho : h va = some o)
    (hoe : vobjTargets o = es) {bad : Nat → Prop}
    (hnt : NoTouch h va bad) :
    ∀ e ∈ es, e < n ∧ NoTouch h e bad := by
  intro e he
  have hre : ReachH h va e := .step ho (by rw [hoe]; exact he) .refl
  constructor
  · have hvn : va < n := by
      by_contra hge
      rw [hwf.1 va (by omega)] at ho
      cases ho
    exact reach_lt hwf hvn hre
  · exact notouch_sub hnt hre

/-- Frame transfer of a list decode: all elements below the frontier, heap
unchanged below the frontier. -/
theorem decvl_frame {h h' : Nat → Option VObj} {n : Nat} {es : List Nat}
    {us : List VTree} (hwf : WfH h n) (hes : ∀ e ∈ es, e < n)
    (heq : ∀ b, b < n → h' b = h b) (hd : DecVL h es us) : DecVL h' es us := by
  rcases hd with ⟨f, hf⟩
  refine ⟨f, (dec_transfer f).2.1 _ _ ?_ hf⟩
  intro e he b hb
  exact heq b (reach_lt hwf (hes e he) hb)

/-- Frame transfer of a dict-entry decode. -/
theorem decvd_frame {h h' : Nat → Option VObj} {n : Nat}
    {es : List (Nat × Nat)} {ps : List (VTree × VTree)} (hwf : WfH h n)
    (hes : ∀ p ∈ es, p.1 < n ∧ p.2 < n)
    (heq : ∀ b, b < n → h' b = h b) (hd : DecVD h es ps) : DecVD h' es ps := by
  rcases hd with ⟨f, hf⟩
  refine ⟨f, (dec_transfer f).2.2 _ _ ?_ hf⟩
  intro p hp
  constructor
  · intro b hb
    exact heq b (reach_lt hwf (hes p hp).1 hb)
  · intro b hb
    exact heq b (reach_lt hwf (hes p hp).2 hb)

/-- Simulation of `customizedCheck` for the bare list descriptor `[]`:
sequences are shallow-copied into a fresh list through the shell path,
anything else is wrapped into a fresh singleton list. -/
theorem sim_ck_dL0 (rs : String → String → Bool) {tenv : Nat → Option TObj}
    {recurse : Recurse} {v t : Nat} {s : Session} {u : VTree}
    (hdt : DecT tenv t .dL0)
    (hdu : DecV s.heap v u) (hvlt : v < s.nextAddr)
    (hvnt : NoTouch s.heap v (CurSh s)) (hInv : InvS tenv s)
    (hdc : DeepCur tenv s (sizeOf DTree.dL0))
    (hcurr : s.current (v, t) = none) (hsn : s.succeeded (v, t) = none) :
    SimOut tenv .dL0 u s
      (handler v t s (customizedCheck rs recurse v t (.ckList [] false) s)) := by
  unfold customizedCheck
  cases hll : s.listLoop (v, t) with
  | true =>
    exact absurd (hdc (v, t) (.inr hll) _ hdt) (lt_irrefl _)
  | false =>
    rw [if_neg (by simp)]
    simp only [pre_check_type]
    have hn := hInv.1
    cases hco : s.heap v with
    | none =>
      exfalso
      rcases decv_some hdu with ⟨o, ho⟩
      rw [hco] at ho
      cases ho
    | some o =>
      cases o
      case vlist es =>
        rcases decv_list_inv hdu hco with ⟨us, rfl, hdus⟩
        simp only [alloc]
        try dsimp only
        have hv2 : (fun a => if a = s.nextAddr then some (VObj.vlist [])
            else s.heap a) v = some (.vlist es) := by
          have : v ≠ s.nextAddr := by omega
          simp only [this, if_false]
          exact hco
        have hse : seqElems (fun a => if a = s.nextAddr
            then some (VObj.vlist []) else s.heap a) v = some es := by
          unfold seqElems
          rw [hv2]
        simp only [final_shell, hse]
        simp only [if_true]
        try dsimp only
        simp only [List.nil_append]
        have heselts : ∀ e ∈ es, e < s.nextAddr := by
          intro e he
          exact hn.2 v _ hco e (by simpa [vobjTargets] using he)
        have heqF : ∀ b, b < s.nextAddr →
            (writeH { s with
                heap := fun a => if a = s.nextAddr then some (VObj.vlist [])
                  else s.heap a,
                nextAddr := s.nextAddr + 1,
                current := updF s.current (v, t) (some s.nextAddr),
                listLoop := fun _ => false } s.nextAddr
              (VObj.vlist es)).heap b = s.heap b := by
          intro b hb
          have h1 : b ≠ s.nextAddr := by omega
          simp only [writeH, h1, if_false]
        have hInv2 : InvS tenv { s with
            heap := fun a => if a = s.nextAddr then some (VObj.vlist [])
              else s.heap a,
            nextAddr := s.nextAddr + 1,
            current := updF s.current (v, t) (some s.nextAddr),
            listLoop := fun _ => false } :=
          invs_register (o := .vlist []) hInv rfl
        have hcursh2 : CurSh { s with
            heap := fun a => if a = s.nextAddr then some (VObj.vlist [])
              else s.heap a,
            nextAddr := s.nextAddr + 1,
            current := updF s.current (v, t) (some s.nextAddr),
            listLoop := fun _ => false } s.nextAddr := by
          exact ⟨(v, t), by simp [updF]⟩
        have htgts : ∀ b ∈ vobjTargets (VObj.vlist es), b < s.nextAddr + 1 := by
          intro b hb
          have := heselts b (by simpa [vobjTargets] using hb)
          omega
        have hInvF := invs_writeH_cursh hInv2 hcursh2 htgts
        have hcellF : (writeH { s with
            heap := fun a => if a = s.nextAddr then some (VObj.vlist [])
              else s.heap a,
            nextAddr := s.nextAddr + 1,
            current := updF s.current (v, t) (some s.nextAddr),
            listLoop := fun _ => false } s.nextAddr
              (VObj.vlist es)).heap s.nextAddr = some (.vlist es) := by
          simp [writeH]
        have hdusF := decvl_frame hn heselts heqF hdus
        rcases hdusF with ⟨g, hg⟩
        refine sim_shell_finish hInvF rfl (fun p r hp => hp) hsn hdt
          (Nat.lt_succ_self _) (.pL0l) ⟨g + 1, .dvL hcellF hg⟩ ?_
          (Nat.lt_succ_of_lt hvlt) ?_ ?_
        · intro b hb hbad
          cases hb with
          | refl =>
            rcases hbad with ⟨p, hp⟩
            have := hInv.2.1 p _ hp
            omega
          | step ho hm hrest =>
            rw [hcellF] at ho
            cases ho
            rename_i b'
            have hb' : b' < s.nextAddr := heselts b'
              (by simpa [vobjTargets] using hm)
            have hre := reach_frame hn heqF hrest hb'
            have hnt' : NoTouch s.heap b' (CurSh s) :=
              notouch_sub hvnt (.step hco (by simpa [vobjTargets] using hm)
                .refl)
            exact hnt' b hre.1 hbad
        · exact notouch_frame hn hvlt heqF hvnt
        · exact decv_frame hn hvlt heqF hdu
      case vtuple es =>
        rcases decv_tuple_inv hdu hco with ⟨us, rfl, hdus⟩
        simp only [alloc]
        try dsimp only
        have hv2 : (fun a => if a = s.nextAddr then some (VObj.vlist [])
            else s.heap a) v = some (.vtuple es) := by
          have : v ≠ s.nextAddr := by omega
          simp only [this, if_false]
          exact hco
        have hse : seqElems (fun a => if a = s.nextAddr
            then some (VObj.vlist []) else s.heap a) v = some es := by
          unfold seqElems
          rw [hv2]
        simp only [final_shell, hse]
        simp only [if_true]
        try dsimp only
        simp only [List.nil_append]
        have heselts : ∀ e ∈ es, e < s.nextAddr := by
          intro e he
          exact hn.2 v _ hco e (by simpa [vobjTargets] using he)
        have heqF : ∀ b, b < s.nextAddr →
            (writeH { s with
                heap := fun a => if a = s.nextAddr then some (VObj.vlist [])
                  else s.heap a,
                nextAddr := s.nextAddr + 1,
                current := updF s.current (v, t) (some s.nextAddr),
                listLoop := fun _ => false } s.nextAddr
              (VObj.vlist es)).heap b = s.heap b := by
          intro b hb
          have h1 : b ≠ s.nextAddr := by omega
          simp only [writeH, h1, if_false]
        have hInv2 : InvS tenv { s with
            heap := fun a => if a = s.nextAddr then some (VObj.vlist [])
              else s.heap a,
            nextAddr := s.nextAddr + 1,
            current := updF s.current (v, t) (some s.nextAddr),
            listLoop := fun _ => false } :=
          invs_register (o := .vlist []) hInv rfl
        have hcursh2 : CurSh { s with
            heap := fun a => if a = s.nextAddr then some (VObj.vlist [])
              else s.heap a,
            nextAddr := s.nextAddr + 1,
            current := updF s.current (v, t) (some s.nextAddr),
            listLoop := fun _ => false } s.nextAddr := by
          exact ⟨(v, t), by simp [updF]⟩
        have htgts : ∀ b ∈ vobjTargets (VObj.vlist es), b < s.nextAddr + 1 := by
          intro b hb
          have := heselts b (by simpa [vobjTargets] using hb)
          omega
        have hInvF := invs_writeH_cursh hInv2 hcursh2 htgts
        have hcellF : (writeH { s with
            heap := fun a => if a = s.nextAddr then some (VObj.vlist [])
              else s.heap a,
            nextAddr := s.nextAddr + 1,
            current := updF s.current (v, t) (some s.nextAddr),
            listLoop := fun _ => false } s.nextAddr
              (VObj.vlist es)).heap s.nextAddr = some (.vlist es) := by
          simp [writeH]
        have hdusF := decvl_frame hn heselts heqF hdus
        rcases hdusF with ⟨g, hg⟩
        refine sim_shell_finish hInvF rfl (fun p r hp => hp) hsn hdt
          (Nat.lt_succ_self _) (.pL0t) ⟨g + 1, .dvL hcellF hg⟩ ?_
          (Nat.lt_succ_of_lt hvlt) ?_ ?_
        · intro b hb hbad
          cases hb with
          | refl =>
            rcases hbad with ⟨p, hp⟩
            have := hInv.2.1 p _ hp
            omega
          | step ho hm hrest =>
            rw [hcellF] at ho
            cases ho
            rename_i b'
            have hb' : b' < s.nextAddr := heselts b'
              (by simpa [vobjTargets] using hm)
            have hre := reach_frame hn heqF hrest hb'
            have hnt' : NoTouch s.heap b' (CurSh s) :=
              notouch_sub hvnt (.step hco (by simpa [vobjTargets] using hm)
                .refl)
            exact hnt' b hre.1 hbad
        · exact notouch_frame hn hvlt heqF hvnt
        · exact decv_frame hn hvlt heqF hdu
      all_goals {
        have hseq : isSeqT u = false :=
          decv_isseq_false hdu hco (by intro es h; cases h)
            (by intro es h; cases h)
        rw [if_neg (by simp)]
        try dsimp only
        simp only [final_noshell, alloc]
        try dsimp only
        unfold handler
        try dsimp only
        rw [hcurr]
        try dsimp only
        have heqN : ∀ b, b < s.nextAddr →
            (fun a => if a = s.nextAddr then some (VObj.vlist [v])
              else s.heap a) b = s.heap b := by
          intro b hb
          have h1 : b ≠ s.nextAddr := by omega
          simp only [h1, if_false]
        refine ⟨invs_alloc hInv ?_, fun p r hp => hp, ?_, ?_⟩
        · intro b hb
          simp only [vobjTargets, List.mem_singleton] at hb
          subst hb
          omega
        · intro r hr
          cases hr
          have hcellN : (fun a => if a = s.nextAddr then some (VObj.vlist [v])
              else s.heap a) s.nextAddr = some (.vlist [v]) := by
            simp
          refine ⟨Nat.lt_succ_self _, ?_, .vtL [u], .pL0w hseq, ?_⟩
          · try dsimp only
            intro b hb hbad
            cases hb with
            | refl =>
              rcases hbad with ⟨p, hp⟩
              have := hInv.2.1 p _ hp
              omega
            | step ho hm hrest =>
              rw [if_pos rfl] at ho
              cases ho
              rename_i b'
              simp only [vobjTargets, List.mem_singleton] at hm
              subst hm
              have hre := reach_frame hInv.1 heqN hrest hvlt
              exact hvnt b hre.1 hbad
          · rcases decv_frame hInv.1 hvlt heqN hdu with ⟨g, hg⟩
            exact ⟨g + 1, .dvL hcellN (.cons hg .nil)⟩
        · intro e he
          cases he
      }

/-- Simulation of `customizedCheck` for a one-inner-type list descriptor:
sequences run the element loop into a fresh shell, any other value is
auto-wrapped by recursing on the single inner type. -/
theorem sim_ck_dL1 (rs : String → String → Bool) {tenv : Nat → Option TObj}
    {recurse : Recurse} {F : Nat}
    (hsim : RecSim tenv recurse F) (hfr : RecFrame recurse)
    (htab : RecTab recurse) {v t t1 : Nat} {d1 : DTree} {s : Session}
    {u : VTree}
    (hdt : DecT tenv t (.dL1 d1)) (hd1 : DecT tenv t1 d1)
    (hF : sizeOf d1 ≤ F)
    (hdu : DecV s.heap v u) (hvlt : v < s.nextAddr)
    (hvnt : NoTouch s.heap v (CurSh s)) (hInv : InvS tenv s)
    (hdc : DeepCur tenv s (sizeOf (DTree.dL1 d1)))
    (hcurr : s.current (v, t) = none) (hsn : s.succeeded (v, t) = none) :
    SimOut tenv (.dL1 d1) u s
      (handler v t s
        (customizedCheck rs recurse v t (.ckList [t1] false) s)) := by
  unfold customizedCheck
  cases hll : s.listLoop (v, t) with
  | true =>
    exact absurd (hdc (v, t) (.inr hll) _ hdt) (lt_irrefl _)
  | false =>
    rw [if_neg (by simp)]
    simp only [pre_check_type]
    have hn := hInv.1
    cases hco : s.heap v with
    | none =>
      exfalso
      rcases decv_some hdu with ⟨o, ho⟩
      rw [hco] at ho
      cases ho
    | some o =>
      cases o
      case vlist es =>
        rcases decv_list_inv hdu hco with ⟨us, rfl, hdus⟩
        simp only [alloc]
        try dsimp only
        have hne : v ≠ s.nextAddr := by omega
        have hv2 : (fun a => if a = s.nextAddr then some (VObj.vlist [])
            else s.heap a) v = some (VObj.vlist es) := by
          simp only [hne, if_false]
          exact hco
        have hse : seqElems (fun a => if a = s.nextAddr
            then some (VObj.vlist []) else s.heap a) v = some es := by
          unfold seqElems
          rw [hv2]
        simp only [final_shell, hse]
        have heselts : ∀ e ∈ es, e < s.nextAddr := by
          intro e he
          exact hn.2 v _ hco e (by simpa [vobjTargets] using he)
        have heq2 : ∀ b, b < s.nextAddr →
            (fun a => if a = s.nextAddr then some (VObj.vlist [])
              else s.heap a) b = s.heap b := by
          intro b hb
          have h1 : b ≠ s.nextAddr := by omega
          simp only [h1, if_false]
        have hInv2 : InvS tenv { s with
            heap := fun a => if a = s.nextAddr then some (VObj.vlist [])
              else s.heap a,
            nextAddr := s.nextAddr + 1,
            current := updF s.current (v, t) (some s.nextAddr),
            listLoop := fun _ => false } :=
          invs_register (o := .vlist []) hInv rfl
        have hstep : sizeOf d1 < sizeOf (DTree.dL1 d1) := by simp_arith
        have hdc2 : DeepCur tenv { s with
            heap := fun a => if a = s.nextAddr then some (VObj.vlist [])
              else s.heap a,
            nextAddr := s.nextAddr + 1,
            current := updF s.current (v, t) (some s.nextAddr),
            listLoop := fun _ => false } (sizeOf d1) := by
          intro p hp d' hd'
          rcases hp with hp | hp
          · by_cases hpe : p = (v, t)
            · subst hpe
              have hde : d' = .dL1 d1 := dect_unique hd' hdt
              subst hde
              omega
            · have hp2 : (s.current p).isSome := by
                have h0 : (if p = (v, t) then some s.nextAddr
                    else s.current p).isSome := hp
                rwa [if_neg hpe] at h0
              have := hdc p (.inl hp2) d' hd'
              omega
          · simp at hp
        have hdus2 : DecVL (fun a => if a = s.nextAddr then some (VObj.vlist [])
            else s.heap a) es us := decvl_frame hn heselts heq2 hdus
        have hcse : ∀ b, CurSh { s with
            heap := fun a => if a = s.nextAddr then some (VObj.vlist [])
              else s.heap a,
            nextAddr := s.nextAddr + 1,
            current := updF s.current (v, t) (some s.nextAddr),
            listLoop := fun _ => false } b → b = s.nextAddr ∨ CurSh s b := by
          intro b hb
          rcases hb with ⟨p, hp⟩
          have hp' : (if p = (v, t) then some s.nextAddr else s.current p)
              = some b := hp
          by_cases hpe : p = (v, t)
          · rw [if_pos hpe] at hp'
            cases hp'
            exact .inl rfl
          · rw [if_neg hpe] at hp'
            exact .inr ⟨p, hp'⟩
        have hes2 : ∀ e ∈ es, e < s.nextAddr + 1 ∧
            NoTouch (fun a => if a = s.nextAddr then some (VObj.vlist [])
              else s.heap a) e (CurSh { s with
            heap := fun a => if a = s.nextAddr then some (VObj.vlist [])
              else s.heap a,
            nextAddr := s.nextAddr + 1,
            current := updF s.current (v, t) (some s.nextAddr),
            listLoop := fun _ => false }) := by
          intro e he
          have he1 : e < s.nextAddr := heselts e he
          have hent : NoTouch s.heap e (CurSh s) :=
            notouch_sub hvnt (.step hco (by simpa [vobjTargets] using he) .refl)
          refine ⟨by omega, ?_⟩
          intro b hb hbad
          have hre := reach_frame hn heq2 hb he1
          rcases hcse b hbad with rfl | hb2
          · exact absurd hre.2 (lt_irrefl _)
          · exact hent b hre.1 hb2
        have hshc : CurSh { s with
            heap := fun a => if a = s.nextAddr then some (VObj.vlist [])
              else s.heap a,
            nextAddr := s.nextAddr + 1,
            current := updF s.current (v, t) (some s.nextAddr),
            listLoop := fun _ => false } s.nextAddr := ⟨(v, t), by simp [updF]⟩
        have hshh : ({ s with
            heap := fun a => if a = s.nextAddr then some (VObj.vlist [])
              else s.heap a,
            nextAddr := s.nextAddr + 1,
            current := updF s.current (v, t) (some s.nextAddr),
            listLoop := fun _ => false } : Session).heap s.nextAddr
            = some (VObj.vlist []) := by simp
        have hout := sim_elemsInto hsim hfr htab hd1 hF es us [] _
          hInv2 hdc2 hdus2 hes2 hshc hshh
        rcases hE : elemsInto recurse s.nextAddr t1 es { s with
            heap := fun a => if a = s.nextAddr then some (VObj.vlist [])
              else s.heap a,
            nextAddr := s.nextAddr + 1,
            current := updF s.current (v, t) (some s.nextAddr),
            listLoop := fun _ => false } with ⟨s3, res⟩
        rw [hE] at hout
        try dsimp only at hout
        obtain ⟨hInvE, hsmE, htrE, hokE, herrE⟩ := hout
        have h0 : (elemsInto recurse s.nextAddr t1 es { s with
            heap := fun a => if a = s.nextAddr then some (VObj.vlist [])
              else s.heap a,
            nextAddr := s.nextAddr + 1,
            current := updF s.current (v, t) (some s.nextAddr),
            listLoop := fun _ => false }).1.current
            = ({ s with
            heap := fun a => if a = s.nextAddr then some (VObj.vlist [])
              else s.heap a,
            nextAddr := s.nextAddr + 1,
            current := updF s.current (v, t) (some s.nextAddr),
            listLoop := fun _ => false } : Session).current := (tab_elemsInto htab _ _).1
        rw [hE] at h0
        have hcur2 : s3.current = updF s.current (v, t) (some s.nextAddr) := h0
        have hshl : s.nextAddr < s3.nextAddr :=
          lt_of_lt_of_le (Nat.lt_succ_self _) htrE.1
        have hvlt3 : v < s3.nextAddr := by omega
        have hcsub : ∀ b, CurSh s b → CurSh s3 b := by
          intro b hb
          rcases hb with ⟨p, hp⟩
          have hpe : p ≠ (v, t) := by
            intro hpe
            rw [hpe, hcurr] at hp
            cases hp
          refine ⟨p, ?_⟩
          rw [hcur2]
          show (if p = (v, t) then some s.nextAddr else s.current p) = some b
          rw [if_neg hpe]
          exact hp
        have hvnt2 : NoTouch (fun a => if a = s.nextAddr
            then some (VObj.vlist []) else s.heap a) v (CurSh { s with
            heap := fun a => if a = s.nextAddr then some (VObj.vlist [])
              else s.heap a,
            nextAddr := s.nextAddr + 1,
            current := updF s.current (v, t) (some s.nextAddr),
            listLoop := fun _ => false }) := by
          intro b hb hbad
          have hre := reach_frame hn heq2 hb hvlt
          rcases hcse b hbad with rfl | hb2
          · exact absurd hre.2 (lt_irrefl _)
          · exact hvnt b hre.1 hb2
        have hvd2 : DecV (fun a => if a = s.nextAddr then some (VObj.vlist [])
            else s.heap a) v (.vtL us) := decv_frame hn hvlt heq2 hdu
        rcases htrE.2 v (Nat.lt_succ_of_lt hvlt) hvnt2 with ⟨hvnt3h, hvdec3⟩
        have hvnt3 : NoTouch s3.heap v (CurSh s) := notouch_mono hcsub hvnt3h
        have hvd3 : DecV s3.heap v (.vtL us) := hvdec3 _ hvd2
        cases res with
        | ok u0 =>
          try dsimp only
          rcases hokE rfl with ⟨rsl, ws, hsh3, hpokl, hdecl, hperr⟩
          simp only [List.nil_append] at hsh3
          rcases hdecl with ⟨g, hg⟩
          have hshnt : NoTouch s3.heap s.nextAddr (CurSh s) := by
            intro b hb hbad
            cases hb with
            | refl =>
              rcases hbad with ⟨p, hp⟩
              have := hInv.2.1 p _ hp
              omega
            | step ho hm hrest =>
              rw [hsh3] at ho
              cases ho
              rename_i b'
              have hb' : b' ∈ rsl := by simpa [vobjTargets] using hm
              exact (hperr b' hb').2 b hrest (hcsub b hbad)
          exact sim_shell_finish hInvE hcur2 hsmE hsn hdt hshl (.pL1l hpokl)
            ⟨g + 1, .dvL hsh3 hg⟩ hshnt hvlt3 hvnt3 hvd3
        | error e =>
          try dsimp only
          rcases herrE e rfl with ⟨hshape, u', hmem, hpf⟩
          exact sim_shell_rollback hInvE hcur2 hsmE hdt (.fL1l hmem hpf)
            hshape hvlt3 hvnt3 hvd3
      case vtuple es =>
        rcases decv_tuple_inv hdu hco with ⟨us, rfl, hdus⟩
        simp only [alloc]
        try dsimp only
        have hne : v ≠ s.nextAddr := by omega
        have hv2 : (fun a => if a = s.nextAddr then some (VObj.vlist [])
            else s.heap a) v = some (VObj.vtuple es) := by
          simp only [hne, if_false]
          exact hco
        have hse : seqElems (fun a => if a = s.nextAddr
            then some (VObj.vlist []) else s.heap a) v = some es := by
          unfold seqElems
          rw [hv2]
        simp only [final_shell, hse]
        have heselts : ∀ e ∈ es, e < s.nextAddr := by
          intro e he
          exact hn.2 v _ hco e (by simpa [vobjTargets] using he)
        have heq2 : ∀ b, b < s.nextAddr →
            (fun a => if a = s.nextAddr then some (VObj.vlist [])
              else s.heap a) b = s.heap b := by
          intro b hb
          have h1 : b ≠ s.nextAddr := by omega
          simp only [h1, if_false]
        have hInv2 : InvS tenv { s with
            heap := fun a => if a = s.nextAddr then some (VObj.vlist [])
              else s.heap a,
            nextAddr := s.nextAddr + 1,
            current := updF s.current (v, t) (some s.nextAddr),
            listLoop := fun _ => false } :=
          invs_register (o := .vlist []) hInv rfl
        have hstep : sizeOf d1 < sizeOf (DTree.dL1 d1) := by simp_arith
        have hdc2 : DeepCur tenv { s with
            heap := fun a => if a = s.nextAddr then some (VObj.vlist [])
              else s.heap a,
            nextAddr := s.nextAddr + 1,
            current := updF s.current (v, t) (some s.nextAddr),
            listLoop := fun _ => false } (sizeOf d1) := by
          intro p hp d' hd'
          rcases hp with hp | hp
          · by_cases hpe : p = (v, t)
            · subst hpe
              have hde : d' = .dL1 d1 := dect_unique hd' hdt
              subst hde
              omega
            · have hp2 : (s.current p).isSome := by
                have h0 : (if p = (v, t) then some s.nextAddr
                    else s.current p).isSome := hp
                rwa [if_neg hpe] at h0
              have := hdc p (.inl hp2) d' hd'
              omega
          · simp at hp
        have hdus2 : DecVL (fun a => if a = s.nextAddr then some (VObj.vlist [])
            else s.heap a) es us := decvl_frame hn heselts heq2 hdus
        have hcse : ∀ b, CurSh { s with
            heap := fun a => if a = s.nextAddr then some (VObj.vlist [])
              else s.heap a,
            nextAddr := s.nextAddr + 1,
            current := updF s.current (v, t) (some s.nextAddr),
            listLoop := fun _ => false } b → b = s.nextAddr ∨ CurSh s b := by
          intro b hb
          rcases hb with ⟨p, hp⟩
          have hp' : (if p = (v, t) then some s.nextAddr else s.current p)
              = some b := hp
          by_cases hpe : p = (v, t)
          · rw [if_pos hpe] at hp'
            cases hp'
            exact .inl rfl
          · rw [if_neg hpe] at hp'
            exact .inr ⟨p, hp'⟩
        have hes2 : ∀ e ∈ es, e < s.nextAddr + 1 ∧
            NoTouch (fun a => if a = s.nextAddr then some (VObj.vlist [])
              else s.heap a) e (CurSh { s with
            heap := fun a => if a = s.nextAddr then some (VObj.vlist [])
              else s.heap a,
            nextAddr := s.nextAddr + 1,
            current := updF s.current (v, t) (some s.nextAddr),
            listLoop := fun _ => false }) := by
          intro e he
          have he1 : e < s.nextAddr := heselts e he
          have hent : NoTouch s.heap e (CurSh s) :=
            notouch_sub hvnt (.step hco (by simpa [vobjTargets] using he) .refl)
          refine ⟨by omega, ?_⟩
          intro b hb hbad
          have hre := reach_frame hn heq2 hb he1
          rcases hcse b hbad with rfl | hb2
          · exact absurd hre.2 (lt_irrefl _)
          · exact hent b hre.1 hb2
        have hshc : CurSh { s with
            heap := fun a => if a = s.nextAddr then some (VObj.vlist [])
              else s.heap a,
            nextAddr := s.nextAddr + 1,
            current := updF s.current (v, t) (some s.nextAddr),
            listLoop := fun _ => false } s.nextAddr := ⟨(v, t), by simp [updF]⟩
        have hshh : ({ s with
            heap := fun a => if a = s.nextAddr then some (VObj.vlist [])
              else s.heap a,
            nextAddr := s.nextAddr + 1,
            current := updF s.current (v, t) (some s.nextAddr),
            listLoop := fun _ => false } : Session).heap s.nextAddr
            = some (VObj.vlist []) := by simp
        have hout := sim_elemsInto hsim hfr htab hd1 hF es us [] _
          hInv2 hdc2 hdus2 hes2 hshc hshh
        rcases hE : elemsInto recurse s.nextAddr t1 es { s with
            heap := fun a => if a = s.nextAddr then some (VObj.vlist [])
              else s.heap a,
            nextAddr := s.nextAddr + 1,
            current := updF s.current (v, t) (some s.nextAddr),
            listLoop := fun _ => false } with ⟨s3, res⟩
        rw [hE] at hout
        try dsimp only at hout
        obtain ⟨hInvE, hsmE, htrE, hokE, herrE⟩ := hout
        have h0 : (elemsInto recurse s.nextAddr t1 es { s with
            heap := fun a => if a = s.nextAddr then some (VObj.vlist [])
              else s.heap a,
            nextAddr := s.nextAddr + 1,
            current := updF s.current (v, t) (some s.nextAddr),
            listLoop := fun _ => false }).1.current
            = ({ s with
            heap := fun a => if a = s.nextAddr then some (VObj.vlist [])
              else s.heap a,
            nextAddr := s.nextAddr + 1,
            current := updF s.current (v, t) (some s.nextAddr),
            listLoop := fun _ => false } : Session).current := (tab_elemsInto htab _ _).1
        rw [hE] at h0
        have hcur2 : s3.current = updF s.current (v, t) (some s.nextAddr) := h0
        have hshl : s.nextAddr < s3.nextAddr :=
          lt_of_lt_of_le (Nat.lt_succ_self _) htrE.1
        have hvlt3 : v < s3.nextAddr := by omega
        have hcsub : ∀ b, CurSh s b → CurSh s3 b := by
          intro b hb
          rcases hb with ⟨p, hp⟩
          have hpe : p ≠ (v, t) := by
            intro hpe
            rw [hpe, hcurr] at hp
            cases hp
          refine ⟨p, ?_⟩
          rw [hcur2]
          show (if p = (v, t) then some s.nextAddr else s.current p) = some b
          rw [if_neg hpe]
          exact hp
        have hvnt2 : NoTouch (fun a => if a = s.nextAddr
            then some (VObj.vlist []) else s.heap a) v (CurSh { s with
            heap := fun a => if a = s.nextAddr then some (VObj.vlist [])
              else s.heap a,
            nextAddr := s.nextAddr + 1,
            current := updF s.current (v, t) (some s.nextAddr),
            listLoop := fun _ => false }) := by
          intro b hb hbad
          have hre := reach_frame hn heq2 hb hvlt
          rcases hcse b hbad with rfl | hb2
          · exact absurd hre.2 (lt_irrefl _)
          · exact hvnt b hre.1 hb2
        have hvd2 : DecV (fun a => if a = s.nextAddr then some (VObj.vlist [])
            else s.heap a) v (.vtT us) := decv_frame hn hvlt heq2 hdu
        rcases htrE.2 v (Nat.lt_succ_of_lt hvlt) hvnt2 with ⟨hvnt3h, hvdec3⟩
        have hvnt3 : NoTouch s3.heap v (CurSh s) := notouch_mono hcsub hvnt3h
        have hvd3 : DecV s3.heap v (.vtT us) := hvdec3 _ hvd2
        cases res with
        | ok u0 =>
          try dsimp only
          rcases hokE rfl with ⟨rsl, ws, hsh3, hpokl, hdecl, hperr⟩
          simp only [List.nil_append] at hsh3
          rcases hdecl with ⟨g, hg⟩
          have hshnt : NoTouch s3.heap s.nextAddr (CurSh s) := by
            intro b hb hbad
            cases hb with
            | refl =>
              rcases hbad with ⟨p, hp⟩
              have := hInv.2.1 p _ hp
              omega
            | step ho hm hrest =>
              rw [hsh3] at ho
              cases ho
              rename_i b'
              have hb' : b' ∈ rsl := by simpa [vobjTargets] using hm
              exact (hperr b' hb').2 b hrest (hcsub b hbad)
          exact sim_shell_finish hInvE hcur2 hsmE hsn hdt hshl (.pL1t hpokl)
            ⟨g + 1, .dvL hsh3 hg⟩ hshnt hvlt3 hvnt3 hvd3
        | error e =>
          try dsimp only
          rcases herrE e rfl with ⟨hshape, u', hmem, hpf⟩
          exact sim_shell_rollback hInvE hcur2 hsmE hdt (.fL1t hmem hpf)
            hshape hvlt3 hvnt3 hvd3
      all_goals {
        have hseq : isSeqT u = false :=
          decv_isseq_false hdu hco (by intro es h; cases h)
            (by intro es h; cases h)
        rw [if_neg (by simp)]
        try dsimp only
        simp only [final_noshell]
        try dsimp only
        have hstep : sizeOf d1 < sizeOf (DTree.dL1 d1) := by simp_arith
        have hdc2 : DeepCur tenv { s with
            listLoop := updB s.listLoop (v, t) true } (sizeOf d1) := by
          intro p hp d' hd'
          rcases hp with hp | hp
          · have := hdc p (.inl hp) d' hd'
            omega
          · have hp' : (if p = (v, t) then true else s.listLoop p) = true := hp
            by_cases hpe : p = (v, t)
            · subst hpe
              have hde : d' = .dL1 d1 := dect_unique hd' hdt
              subst hde
              omega
            · rw [if_neg hpe] at hp'
              have := hdc p (.inr hp') d' hd'
              omega
        have hrec := hsim d1 v t1 { s with
            listLoop := updB s.listLoop (v, t) true } u hF hd1 hdu hvlt hvnt
          hInv hdc2
        rcases hR : recurse v t1 { s with
            listLoop := updB s.listLoop (v, t) true } with ⟨s3, res3⟩
        rw [hR] at hrec
        try dsimp only at hrec
        obtain ⟨hInv3, hsm3, hok3, herr3⟩ := hrec
        have hInv3b : InvS tenv s3 := hInv3
        have hext := hfr v t1 { s with
            listLoop := updB s.listLoop (v, t) true } s.nextAddr (le_refl _)
        rw [hR] at hext
        have hnext3 : s.nextAddr ≤ s3.nextAddr := hext.1
        have heq3 : ∀ b, b < s.nextAddr → s3.heap b = s.heap b := hext.2.1
        have htb := htab v t1 { s with listLoop := updB s.listLoop (v, t) true }
        rw [hR] at htb
        have hc3 : s3.current = s.current := htb.1
        have hcs3 : ∀ b, CurSh s3 b → CurSh s b := by
          intro b hb
          rcases hb with ⟨p, hp⟩
          rw [hc3] at hp
          exact ⟨p, hp⟩
        have hvlt3 : v < s3.nextAddr := lt_of_lt_of_le hvlt hnext3
        have hvnt3 : NoTouch s3.heap v (CurSh s3) :=
          notouch_mono hcs3 (notouch_frame hn hvlt heq3 hvnt)
        have hdu3 : DecV s3.heap v u := decv_frame hn hvlt heq3 hdu
        cases res3 with
        | error e =>
          try dsimp only
          rcases herr3 e rfl with ⟨hshape, hpf⟩
          unfold handler
          try dsimp only
          have hsh := sim_handler_err hInv3b hdt hvlt3 hvnt3 hdu3
            (.fL1w hseq hpf) hshape
          refine ⟨hsh.1, ?_, ?_, ?_⟩
          · intro p r hp
            exact hsm3 p r hp
          · intro r hr
            cases hr
          · intro e' he
            cases he
            exact hsh.2
        | ok r =>
          try dsimp only
          simp only [alloc]
          try dsimp only
          unfold handler
          try dsimp only
          have hc3v : s3.current (v, t) = none := by
            rw [hc3]
            exact hcurr
          rw [hc3v]
          try dsimp only
          rcases hok3 r rfl with ⟨hrlt, hrnt, w, hpokr, hdecr⟩
          have hrlt2 : r < s3.nextAddr := hrlt
          have hrnt2 : NoTouch s3.heap r (CurSh s3) := hrnt
          have hdecr2 : DecV s3.heap r w := hdecr
          have heq4 : ∀ b, b < s3.nextAddr →
              (fun a => if a = s3.nextAddr then some (VObj.vlist [r])
                else s3.heap a) b = s3.heap b := by
            intro b hb
            have h1 : b ≠ s3.nextAddr := by omega
            simp only [h1, if_false]
          refine ⟨invs_alloc hInv3b ?_, ?_, ?_, ?_⟩
          · intro b hb
            simp only [vobjTargets, List.mem_singleton] at hb
            subst hb
            omega
          · intro p r2 hp
            exact hsm3 p r2 hp
          · try dsimp only
            intro r2 hr2
            cases hr2
            have hcellN : (fun a => if a = s3.nextAddr
                then some (VObj.vlist [r]) else s3.heap a) s3.nextAddr
                = some (VObj.vlist [r]) := by
              simp
            refine ⟨Nat.lt_succ_self _, ?_, .vtL [w], .pL1w hseq hpokr, ?_⟩
            · intro b hb hbad
              cases hb with
              | refl =>
                rcases hbad with ⟨p, hp⟩
                have := hInv3b.2.1 p _ hp
                omega
              | step ho hm hrest =>
                rw [if_pos rfl] at ho
                cases ho
                rename_i b'
                simp only [vobjTargets, List.mem_singleton] at hm
                subst hm
                have hre := reach_frame hInv3b.1 heq4 hrest hrlt2
                exact hrnt2 b hre.1 hbad
            · rcases decv_frame hInv3b.1 hrlt2 heq4 hdecr2 with ⟨g, hg⟩
              exact ⟨g + 1, .dvL hcellN (.cons hg .nil)⟩
          · intro e' he
            cases he
      }

/-- Simulation of `customizedCheck` for a regex-free dict descriptor:
non-dicts fail the pre-check, an absent required key raises the mismatch,
otherwise the entry loop fills a fresh dict shell. -/
theorem sim_ck_dD (rs : String → String → Bool) {tenv : Nat → Option TObj}
    {recurse : Recurse} {F fd : Nat}
    (hsim : RecSim tenv recurse F) (hfr : RecFrame recurse)
    (htab : RecTab recurse) {v t : Nat} {ents : List (String × Nat)}
    {ds : List (String × DTree)} {s : Session} {u : VTree}
    (hdt : DecT tenv t (.dDict ds)) (hde : DecTEH tenv fd ents ds)
    (hrgx : regexpKeys ents = [])
    (hF : sizeOf (DTree.dDict ds) ≤ F + 1)
    (hdu : DecV s.heap v u) (hvlt : v < s.nextAddr)
    (hvnt : NoTouch s.heap v (CurSh s)) (hInv : InvS tenv s)
    (hdc : DeepCur tenv s (sizeOf (DTree.dDict ds)))
    (hcurr : s.current (v, t) = none) (hsn : s.succeeded (v, t) = none) :
    SimOut tenv (.dDict ds) u s
      (handler v t s (customizedCheck rs recurse v t (.ckDict ents) s)) := by
  unfold customizedCheck
  cases hll : s.listLoop (v, t) with
  | true =>
    exact absurd (hdc (v, t) (.inr hll) _ hdt) (lt_irrefl _)
  | false =>
    rw [if_neg (by simp)]
    simp only [pre_check_type]
    have hn := hInv.1
    cases hco : s.heap v with
    | none =>
      exfalso
      rcases decv_some hdu with ⟨o, ho⟩
      rw [hco] at ho
      cases ho
    | some o =>
      cases o
      case vdict ves =>
        rcases decv_dict_inv hdu hco with ⟨ps, rfl, hdps⟩
        simp only [alloc]
        try dsimp only
        have hne : v ≠ s.nextAddr := by omega
        have hv2 : (if v = s.nextAddr then some (VObj.vdict [])
            else s.heap v) = some (VObj.vdict ves) := by
          rw [if_neg hne]
          exact hco
        simp only [final_shell, hv2]
        have heq2 : ∀ b, b < s.nextAddr →
            (fun a => if a = s.nextAddr then some (VObj.vdict [])
              else s.heap a) b = s.heap b := by
          intro b hb
          have h1 : b ≠ s.nextAddr := by omega
          simp only [h1, if_false]
        have hvelts : ∀ p ∈ ves, p.1 < s.nextAddr ∧ p.2 < s.nextAddr := by
          intro p hp
          constructor
          · exact hn.2 v _ hco p.1 (by
              simp only [vobjTargets]
              exact List.mem_append_left _ (List.mem_map_of_mem _ hp))
          · exact hn.2 v _ hco p.2 (by
              simp only [vobjTargets]
              exact List.mem_append_right _ (List.mem_map_of_mem _ hp))
        have hvntp : ∀ p ∈ ves, NoTouch s.heap p.1 (CurSh s) ∧
            NoTouch s.heap p.2 (CurSh s) := by
          intro p hp
          constructor
          · exact notouch_sub hvnt (.step hco (by
              simp only [vobjTargets]
              exact List.mem_append_left _ (List.mem_map_of_mem _ hp)) .refl)
          · exact notouch_sub hvnt (.step hco (by
              simp only [vobjTargets]
              exact List.mem_append_right _ (List.mem_map_of_mem _ hp)) .refl)
        cases hemp : ents.isEmpty with
        | true =>
          have hent : ents = [] := by
            cases ents with
            | nil => rfl
            | cons a as => simp [List.isEmpty] at hemp
          subst hent
          cases hde
          rw [if_pos rfl]
          have hsh2 : (fun a => if a = s.nextAddr then some (VObj.vdict [])
              else s.heap a) s.nextAddr = some (VObj.vdict []) := by simp
          first
          | rw [hsh2]
          | simp only [if_true]
          try dsimp only
          simp only [List.nil_append]
          have heqF : ∀ b, b < s.nextAddr →
              (writeH { s with
            heap := fun a => if a = s.nextAddr then some (VObj.vdict [])
              else s.heap a,
            nextAddr := s.nextAddr + 1,
            current := updF s.current (v, t) (some s.nextAddr),
            listLoop := fun _ => false } s.nextAddr (VObj.vdict ves)).heap b = s.heap b := by
            intro b hb
            have h1 : b ≠ s.nextAddr := by omega
            simp only [writeH, h1, if_false]
          have hInv2 : InvS tenv { s with
            heap := fun a => if a = s.nextAddr then some (VObj.vdict [])
              else s.heap a,
            nextAddr := s.nextAddr + 1,
            current := updF s.current (v, t) (some s.nextAddr),
            listLoop := fun _ => false } :=
            invs_register (o := .vdict []) hInv rfl
          have hcursh2 : CurSh { s with
            heap := fun a => if a = s.nextAddr then some (VObj.vdict [])
              else s.heap a,
            nextAddr := s.nextAddr + 1,
            current := updF s.current (v, t) (some s.nextAddr),
            listLoop := fun _ => false } s.nextAddr := ⟨(v, t), by simp [updF]⟩
          have htgts : ∀ b ∈ vobjTargets (VObj.vdict ves),
              b < s.nextAddr + 1 := by
            intro b hb
            simp only [vobjTargets, List.mem_append, List.mem_map] at hb
            rcases hb with ⟨q, hq, rfl⟩ | ⟨q, hq, rfl⟩
            · exact Nat.lt_succ_of_lt (hvelts q hq).1
            · exact Nat.lt_succ_of_lt (hvelts q hq).2
          have hInvF := invs_writeH_cursh hInv2 hcursh2 htgts
          have hcellF : (writeH { s with
            heap := fun a => if a = s.nextAddr then some (VObj.vdict [])
              else s.heap a,
            nextAddr := s.nextAddr + 1,
            current := updF s.current (v, t) (some s.nextAddr),
            listLoop := fun _ => false } s.nextAddr
              (VObj.vdict ves)).heap s.nextAddr = some (VObj.vdict ves) := by
            simp [writeH]
          have hdpsF := decvd_frame hn hvelts heqF hdps
          rcases hdpsF with ⟨g, hg⟩
          refine sim_shell_finish hInvF rfl (fun p r hp => hp) hsn hdt
            (Nat.lt_succ_self _)
            (.pD (fun kv hkv => absurd hkv (List.not_mem_nil kv))
              (pentryl_empty ps))
            ⟨g + 1, .dvD hcellF hg⟩ ?_ (Nat.lt_succ_of_lt hvlt) ?_ ?_
          · intro b hb hbad
            cases hb with
            | refl =>
              rcases hbad with ⟨p, hp⟩
              have := hInv.2.1 p _ hp
              omega
            | step ho hm hrest =>
              rw [hcellF] at ho
              cases ho
              rename_i b'
              simp only [vobjTargets, List.mem_append, List.mem_map] at hm
              rcases hm with ⟨q, hq, rfl⟩ | ⟨q, hq, rfl⟩
              · have hre := reach_frame hn heqF hrest (hvelts q hq).1
                exact (hvntp q hq).1 b hre.1 hbad
              · have hre := reach_frame hn heqF hrest (hvelts q hq).2
                exact (hvntp q hq).2 b hre.1 hbad
          · exact notouch_frame hn hvlt heqF hvnt
          · exact decv_frame hn hvlt heqF hdu
        | false =>
          rw [if_neg (by simp)]
          try dsimp only
          have hvnt2s : NoTouch (fun a => if a = s.nextAddr then some (VObj.vdict [])
              else s.heap a) v (CurSh s) := by
            intro b hb hbad
            have hre := reach_frame hn heq2 hb hvlt
            exact hvnt b hre.1 hbad
          have hvd2 : DecV (fun a => if a = s.nextAddr then some (VObj.vdict [])
              else s.heap a) v (.vtD ps) := decv_frame hn hvlt heq2 hdu
          have hInv2 : InvS tenv { s with
            heap := fun a => if a = s.nextAddr then some (VObj.vdict [])
              else s.heap a,
            nextAddr := s.nextAddr + 1,
            current := updF s.current (v, t) (some s.nextAddr),
            listLoop := fun _ => false } :=
            invs_register (o := .vdict []) hInv rfl
          cases hfm : firstMissingReq (fun a => if a = s.nextAddr then some (VObj.vdict [])
              else s.heap a) ves (requiredKeys ents) with
          | some k =>
            try dsimp only
            rcases firstMissing_some hfm with ⟨kv, hkv, hkvk, hmiss⟩
            have hdps2 : DecVD (fun a => if a = s.nextAddr then some (VObj.vdict [])
              else s.heap a) ves ps := decvd_frame hn hvelts heq2 hdps
            rcases hdps2 with ⟨g2, hg2⟩
            rcases dicte_mem (dicte_req hde) kv hkv with ⟨kd, hkd, hkdk, _⟩
            have hnot : ¬ HasKeyT ps kd.1 := by
              rw [hkdk, hkvk]
              intro hcon
              have hcb := (haskey_bridge hg2 k).2 hcon
              rw [hmiss] at hcb
              exact Bool.noConfusion hcb
            exact sim_shell_rollback hInv2 rfl (fun p r hp => hp) hdt
              (.fDreq hkd hnot) ⟨v, t, some (reqMsg k), rfl⟩
              (Nat.lt_succ_of_lt hvlt) hvnt2s hvd2
          | none =>
            rw [hrgx]
            have hposD := dtree_sizeOf_pos (DTree.dDict ds)
            have hdc2 : DeepCur tenv { s with
            heap := fun a => if a = s.nextAddr then some (VObj.vdict [])
              else s.heap a,
            nextAddr := s.nextAddr + 1,
            current := updF s.current (v, t) (some s.nextAddr),
            listLoop := fun _ => false }
                (sizeOf (DTree.dDict ds) - 1) := by
              intro p hp d' hd'
              rcases hp with hp | hp
              · by_cases hpe : p = (v, t)
                · subst hpe
                  have hde2 : d' = .dDict ds := dect_unique hd' hdt
                  subst hde2
                  omega
                · have hp2 : (s.current p).isSome := by
                    have h0 : (if p = (v, t) then some s.nextAddr
                        else s.current p).isSome := hp
                    rwa [if_neg hpe] at h0
                  have := hdc p (.inl hp2) d' hd'
                  omega
              · simp at hp
            have hdps2 : DecVD (fun a => if a = s.nextAddr then some (VObj.vdict [])
              else s.heap a) ves ps := decvd_frame hn hvelts heq2 hdps
            have hcse : ∀ b, CurSh { s with
            heap := fun a => if a = s.nextAddr then some (VObj.vdict [])
              else s.heap a,
            nextAddr := s.nextAddr + 1,
            current := updF s.current (v, t) (some s.nextAddr),
            listLoop := fun _ => false } b → b = s.nextAddr ∨ CurSh s b := by
              intro b hb
              rcases hb with ⟨p, hp⟩
              have hp2 : (if p = (v, t) then some s.nextAddr
                  else s.current p) = some b := hp
              by_cases hpe : p = (v, t)
              · rw [if_pos hpe] at hp2
                cases hp2
                exact .inl rfl
              · rw [if_neg hpe] at hp2
                exact .inr ⟨p, hp2⟩
            have hves2 : ∀ p ∈ ves, p.1 < s.nextAddr + 1 ∧
                NoTouch (fun a => if a = s.nextAddr then some (VObj.vdict [])
              else s.heap a) p.1 (CurSh { s with
            heap := fun a => if a = s.nextAddr then some (VObj.vdict [])
              else s.heap a,
            nextAddr := s.nextAddr + 1,
            current := updF s.current (v, t) (some s.nextAddr),
            listLoop := fun _ => false }) ∧ p.2 < s.nextAddr + 1 ∧
                NoTouch (fun a => if a = s.nextAddr then some (VObj.vdict [])
              else s.heap a) p.2 (CurSh { s with
            heap := fun a => if a = s.nextAddr then some (VObj.vdict [])
              else s.heap a,
            nextAddr := s.nextAddr + 1,
            current := updF s.current (v, t) (some s.nextAddr),
            listLoop := fun _ => false }) := by
              intro p hp
              refine ⟨Nat.lt_succ_of_lt (hvelts p hp).1, ?_,
                Nat.lt_succ_of_lt (hvelts p hp).2, ?_⟩
              · intro b hb hbad
                have hre := reach_frame hn heq2 hb (hvelts p hp).1
                rcases hcse b hbad with rfl | hb2
                · exact absurd hre.2 (lt_irrefl _)
                · exact (hvntp p hp).1 b hre.1 hb2
              · intro b hb hbad
                have hre := reach_frame hn heq2 hb (hvelts p hp).2
                rcases hcse b hbad with rfl | hb2
                · exact absurd hre.2 (lt_irrefl _)
                · exact (hvntp p hp).2 b hre.1 hb2
            have hshc : CurSh { s with
            heap := fun a => if a = s.nextAddr then some (VObj.vdict [])
              else s.heap a,
            nextAddr := s.nextAddr + 1,
            current := updF s.current (v, t) (some s.nextAddr),
            listLoop := fun _ => false } s.nextAddr := ⟨(v, t), by simp [updF]⟩
            have hshh : ({ s with
            heap := fun a => if a = s.nextAddr then some (VObj.vdict [])
              else s.heap a,
            nextAddr := s.nextAddr + 1,
            current := updF s.current (v, t) (some s.nextAddr),
            listLoop := fun _ => false } : Session).heap s.nextAddr
                = some (VObj.vdict []) := by simp
            have hM : ∀ (td : DTree) (ks : String),
                mergedLookup (requiredKeys ds) (optionalKeys ds) ks = some td →
                  sizeOf td ≤ sizeOf (DTree.dDict ds) - 1 := by
              intro td ks hlk
              have := sz_merged hlk
              omega
            have hMF : sizeOf (DTree.dDict ds) - 1 ≤ F := by omega
            have hout := sim_dictEntriesInto rs hsim hfr htab (dicte_req hde)
              (dicte_opt hde) hM hMF ves ps [] _ hInv2 hdc2 hdps2 hves2
              hshc hshh
            rcases hE : dictEntriesInto rs recurse s.nextAddr
              (requiredKeys ents) (optionalKeys ents) [] ves { s with
            heap := fun a => if a = s.nextAddr then some (VObj.vdict [])
              else s.heap a,
            nextAddr := s.nextAddr + 1,
            current := updF s.current (v, t) (some s.nextAddr),
            listLoop := fun _ => false }
              with ⟨s3, res⟩
            rw [hE] at hout
            try dsimp only at hout
            obtain ⟨hInvE, hsmE, htrE, hokE, herrE⟩ := hout
            have h0 : (dictEntriesInto rs recurse s.nextAddr
                (requiredKeys ents) (optionalKeys ents) [] ves { s with
            heap := fun a => if a = s.nextAddr then some (VObj.vdict [])
              else s.heap a,
            nextAddr := s.nextAddr + 1,
            current := updF s.current (v, t) (some s.nextAddr),
            listLoop := fun _ => false }).1.current
                = ({ s with
            heap := fun a => if a = s.nextAddr then some (VObj.vdict [])
              else s.heap a,
            nextAddr := s.nextAddr + 1,
            current := updF s.current (v, t) (some s.nextAddr),
            listLoop := fun _ => false } : Session).current := (tab_dictEntriesInto htab _ _).1
            rw [hE] at h0
            have hcur2 : s3.current = updF s.current (v, t)
                (some s.nextAddr) := h0
            have hshl : s.nextAddr < s3.nextAddr :=
              lt_of_lt_of_le (Nat.lt_succ_self _) htrE.1
            have hvlt3 : v < s3.nextAddr := by omega
            have hcsub : ∀ b, CurSh s b → CurSh s3 b := by
              intro b hb
              rcases hb with ⟨p, hp⟩
              have hpe : p ≠ (v, t) := by
                intro hpe
                rw [hpe, hcurr] at hp
                cases hp
              refine ⟨p, ?_⟩
              rw [hcur2]
              show (if p = (v, t) then some s.nextAddr else s.current p)
                = some b
              rw [if_neg hpe]
              exact hp
            have hvnt2 : NoTouch (fun a => if a = s.nextAddr then some (VObj.vdict [])
              else s.heap a) v (CurSh { s with
            heap := fun a => if a = s.nextAddr then some (VObj.vdict [])
              else s.heap a,
            nextAddr := s.nextAddr + 1,
            current := updF s.current (v, t) (some s.nextAddr),
            listLoop := fun _ => false }) := by
              intro b hb hbad
              have hre := reach_frame hn heq2 hb hvlt
              rcases hcse b hbad with rfl | hb2
              · exact absurd hre.2 (lt_irrefl _)
              · exact hvnt b hre.1 hb2
            rcases htrE.2 v (Nat.lt_succ_of_lt hvlt) hvnt2 with ⟨hvnt3h, hvdec3⟩
            have hvnt3 : NoTouch s3.heap v (CurSh s) :=
              notouch_mono hcsub hvnt3h
            have hvd3 : DecV s3.heap v (.vtD ps) := hvdec3 _ hvd2
            rcases hdps2 with ⟨g2, hg2⟩
            have hreqall : ∀ kv ∈ requiredKeys ds, HasKeyT ps kv.1 := by
              intro kd hkd
              rcases dicte_mem_rev (dicte_req hde) kd hkd
                with ⟨kv, hkv, hkvk, _⟩
              have hhk := firstMissing_none hfm kv hkv
              rw [hkvk] at hhk
              exact (haskey_bridge hg2 kd.1).1 hhk
            cases res with
            | ok u0 =>
              try dsimp only
              rcases hokE rfl with ⟨outs, qs, hsh3, hpel, hdecd, hperr⟩
              simp only [List.nil_append] at hsh3
              rcases hdecd with ⟨g, hg⟩
              have hshnt : NoTouch s3.heap s.nextAddr (CurSh s) := by
                intro b hb hbad
                cases hb with
                | refl =>
                  rcases hbad with ⟨p, hp⟩
                  have := hInv.2.1 p _ hp
                  omega
                | step ho hm hrest =>
                  rw [hsh3] at ho
                  cases ho
                  rename_i b'
                  simp only [vobjTargets, List.mem_append, List.mem_map] at hm
                  rcases hm with ⟨q, hq, rfl⟩ | ⟨q, hq, rfl⟩
                  · exact (hperr q hq).2.1 b hrest (hcsub b hbad)
                  · exact (hperr q hq).2.2.2 b hrest (hcsub b hbad)
              exact sim_shell_finish hInvE hcur2 hsmE hsn hdt hshl
                (.pD hreqall hpel) ⟨g + 1, .dvD hsh3 hg⟩ hshnt hvlt3 hvnt3 hvd3
            | error e =>
              try dsimp only
              rcases herrE e rfl with ⟨hshape, ks, vu, td, hmem, hlk, hpf⟩
              exact sim_shell_rollback hInvE hcur2 hsmE hdt
                (.fDval hmem hlk hpf) hshape hvlt3 hvnt3 hvd3
      all_goals {
        have hnd : isDictT u = false :=
          decv_isdict_false hdu hco (by intro es h; cases h)
        try dsimp only
        exact sim_prim_err hInv hdt hvlt hvnt hdu (.fDpre hnd)
          ⟨v, t, some "allowed types are: dict", rfl⟩
      }

/-- Inversion: a `None` cell decodes to the `None` tree. -/
theorem decv_none_inv {h : Nat → Option VObj} {va : Nat} {u : VTree}
    (hd : DecV h va u) (ho : h va = some .vnone) : u = .vtN := by
  rcases hd with ⟨f, hf⟩
  cases hf with
  | dvN _ => rfl
  | dvB hoo => rw [ho] at hoo; cases hoo
  | dvI hoo => rw [ho] at hoo; cases hoo
  | dvS hoo => rw [ho] at hoo; cases hoo
  | dvL hoo _ => rw [ho] at hoo; cases hoo
  | dvT hoo _ => rw [ho] at hoo; cases hoo
  | dvD hoo _ => rw [ho] at hoo; cases hoo

/-- Inversion: an int cell decodes to the corresponding int tree. -/
theorem decv_int_inv {h : Nat → Option VObj} {va : Nat} {u : VTree}
    {n : Int} (hd : DecV h va u) (ho : h va = some (.vint n)) :
    u = .vtI n := by
  rcases hd with ⟨f, hf⟩
  cases hf with
  | dvN hoo => rw [ho] at hoo; cases hoo
  | dvB hoo => rw [ho] at hoo; cases hoo
  | dvI hoo => rw [ho] at hoo; cases hoo; rfl
  | dvS hoo => rw [ho] at hoo; cases hoo
  | dvL hoo _ => rw [ho] at hoo; cases hoo
  | dvT hoo _ => rw [ho] at hoo; cases hoo
  | dvD hoo _ => rw [ho] at hoo; cases hoo

/-- Inversion: a string cell decodes to the corresponding string tree. -/
theorem decv_strv_inv {h : Nat → Option VObj} {va : Nat} {u : VTree}
    {ks : String} (hd : DecV h va u) (ho : h va = some (.vstr ks)) :
    u = .vtS ks := by
  rcases hd with ⟨f, hf⟩
  cases hf with
  | dvN hoo => rw [ho] at hoo; cases hoo
  | dvB hoo => rw [ho] at hoo; cases hoo
  | dvI hoo => rw [ho] at hoo; cases hoo
  | dvS hoo => rw [ho] at hoo; cases hoo; rfl
  | dvL hoo _ => rw [ho] at hoo; cases hoo
  | dvT hoo _ => rw [ho] at hoo; cases hoo
  | dvD hoo _ => rw [ho] at hoo; cases hoo

/-- Inversion: a bool cell decodes to the corresponding bool tree. -/
theorem decv_bool_inv {h : Nat → Option VObj} {va : Nat} {u : VTree}
    {b : Bool} (hd : DecV h va u) (ho : h va = some (.vbool b)) :
    u = .vtB b := by
  rcases hd with ⟨f, hf⟩
  cases hf with
  | dvN hoo => rw [ho] at hoo; cases hoo
  | dvB hoo => rw [ho] at hoo; cases hoo; rfl
  | dvI hoo => rw [ho] at hoo; cases hoo
  | dvS hoo => rw [ho] at hoo; cases hoo
  | dvL hoo _ => rw [ho] at hoo; cases hoo
  | dvT hoo _ => rw [ho] at hoo; cases hoo
  | dvD hoo _ => rw [ho] at hoo; cases hoo

/-- The engine simulation: with enough fuel relative to the descriptor
size, `_check_type_inner` satisfies the simulation contract on every pair
decoding into the restricted pure grammar. -/
theorem sim_check_type_inner (rs : String → String → Bool)
    (tenv : Nat → Option TObj) :
    ∀ f : Nat, RecSim tenv (check_type_inner rs tenv f) f := by
  intro f
  induction f with
  | zero =>
    intro d v t s u hsz hdt hdu hvlt hvnt hInv hdc
    have := dtree_sizeOf_pos d
    omega
  | succ f ih =>
    intro d v t s u hsz hdt hdu hvlt hvnt hInv hdc
    simp only [check_type_inner]
    cases hsc : s.succeeded (v, t) with
    | some r =>
      try dsimp only
      obtain ⟨hb1, hb2, hnt1, hnt2, hres⟩ := hInv.2.2.1 (v, t) r hsc
      rcases hres d u hdt hdu with ⟨w, hpok, hdw⟩
      refine ⟨hInv, fun p r2 hp => hp, ?_, ?_⟩
      · intro r2 hr
        cases hr
        exact ⟨hb2, hnt2, w, hpok, hdw⟩
      · intro e he
        cases he
    | none =>
      cases hfc : s.failed (v, t) with
      | some e =>
        try dsimp only
        obtain ⟨hb1, hnt1, hshape, hpf⟩ := hInv.2.2.2 (v, t) e hfc
        refine ⟨hInv, fun p r2 hp => hp, ?_, ?_⟩
        · intro r2 hr
          cases hr
        · intro e2 he
          cases he
          exact ⟨hshape, hpf d u hdt hdu⟩
      | none =>
        cases hcc : s.current (v, t) with
        | some r =>
          exact absurd (hdc (v, t) (.inl (by simp [hcc])) d hdt) (lt_irrefl _)
        | none =>
          try dsimp only
          have hfr : RecFrame (check_type_inner rs tenv f) :=
            fun va ta sa n hn => extN_check_type_inner rs tenv f va ta sa n hn
          have htab : RecTab (check_type_inner rs tenv f) :=
            fun va ta sa => tab_check_type_inner rs tenv f va ta sa
          rcases hdt with ⟨fd, hdth⟩
          cases hdth with
          | dtN hte =>
            simp only [dispatch]
            rw [hte]
            try dsimp only
            by_cases hv0 : s.heap v = some .vnone
            · rw [if_pos hv0]
              have hu := decv_none_inv hdu hv0
              subst hu
              exact sim_prim_ok hInv hcc hvlt hvnt hdu .pN
            · rw [if_neg hv0]
              refine sim_prim_err hInv ⟨1, .dtN hte⟩ hvlt hvnt hdu
                (.fN ?_) ⟨v, t, none, rfl⟩
              intro hu
              subst hu
              rcases hdu with ⟨g, hgu⟩
              cases hgu with
              | dvN ho => exact hv0 ho
          | dtNN hte =>
            simp only [dispatch]
            rw [hte]
            try dsimp only
            by_cases hv0 : s.heap v = some .vnone
            · rw [if_pos hv0]
              have hu := decv_none_inv hdu hv0
              subst hu
              exact sim_prim_err hInv ⟨1, .dtNN hte⟩ hvlt hvnt hdu
                .fNN ⟨v, t, none, rfl⟩
            · rw [if_neg hv0]
              refine sim_prim_ok hInv hcc hvlt hvnt hdu (.pNN ?_)
              intro hu
              subst hu
              rcases hdu with ⟨g, hgu⟩
              cases hgu with
              | dvN ho => exact hv0 ho
          | dtI hte =>
            simp only [dispatch]
            rw [hte]
            try dsimp only
            cases hqv : s.heap v with
            | some o =>
              cases o
              case vint n =>
                have hu := decv_int_inv hdu hqv
                subst hu
                try dsimp only
                exact sim_prim_ok hInv hcc hvlt hvnt hdu .pI
              all_goals {
                try dsimp only
                refine sim_prim_err hInv ⟨1, .dtI hte⟩ hvlt hvnt hdu
                  (.fI ?_) ⟨v, t, none, rfl⟩
                intro n hu
                subst hu
                rcases hdu with ⟨g, hgu⟩
                cases hgu with
                | dvI ho =>
                  rw [hqv] at ho
                  cases ho
              }
            | none =>
              try dsimp only
              refine sim_prim_err hInv ⟨1, .dtI hte⟩ hvlt hvnt hdu
                (.fI ?_) ⟨v, t, none, rfl⟩
              intro n hu
              subst hu
              rcases hdu with ⟨g, hgu⟩
              cases hgu with
              | dvI ho =>
                rw [hqv] at ho
                cases ho
          | dtS hte =>
            simp only [dispatch]
            rw [hte]
            try dsimp only
            cases hqv : s.heap v with
            | some o =>
              cases o
              case vstr n =>
                have hu := decv_strv_inv hdu hqv
                subst hu
                try dsimp only
                exact sim_prim_ok hInv hcc hvlt hvnt hdu .pS
              all_goals {
                try dsimp only
                refine sim_prim_err hInv ⟨1, .dtS hte⟩ hvlt hvnt hdu
                  (.fS ?_) ⟨v, t, none, rfl⟩
                intro n hu
                subst hu
                rcases hdu with ⟨g, hgu⟩
                cases hgu with
                | dvS ho =>
                  rw [hqv] at ho
                  cases ho
              }
            | none =>
              try dsimp only
              refine sim_prim_err hInv ⟨1, .dtS hte⟩ hvlt hvnt hdu
                (.fS ?_) ⟨v, t, none, rfl⟩
              intro n hu
              subst hu
              rcases hdu with ⟨g, hgu⟩
              cases hgu with
              | dvS ho =>
                rw [hqv] at ho
                cases ho
          | dtB hte =>
            simp only [dispatch]
            rw [hte]
            try dsimp only
            cases hqv : s.heap v with
            | some o =>
              cases o
              case vbool n =>
                have hu := decv_bool_inv hdu hqv
                subst hu
                try dsimp only
                exact sim_prim_ok hInv hcc hvlt hvnt hdu .pB
              all_goals {
                try dsimp only
                refine sim_prim_err hInv ⟨1, .dtB hte⟩ hvlt hvnt hdu
                  (.fB ?_) ⟨v, t, none, rfl⟩
                intro n hu
                subst hu
                rcases hdu with ⟨g, hgu⟩
                cases hgu with
                | dvB ho =>
                  rw [hqv] at ho
                  cases ho
              }
            | none =>
              try dsimp only
              refine sim_prim_err hInv ⟨1, .dtB hte⟩ hvlt hvnt hdu
                (.fB ?_) ⟨v, t, none, rfl⟩
              intro n hu
              subst hu
              rcases hdu with ⟨g, hgu⟩
              cases hgu with
              | dvB ho =>
                rw [hqv] at ho
                cases ho
          | dtL0 hte =>
            simp only [dispatch]
            rw [hte]
            try dsimp only
            rw [if_neg (by simp)]
            exact sim_ck_dL0 rs ⟨1, .dtL0 hte⟩ hdu hvlt hvnt hInv hdc hcc hsc
          | dtL1 hte hd1 =>
            rename_i t1 d1
            simp only [dispatch]
            rw [hte]
            try dsimp only
            rw [if_neg (by simp)]
            have hstep : sizeOf d1 < sizeOf (DTree.dL1 d1) := by simp_arith
            exact sim_ck_dL1 rs ih hfr htab ⟨_, .dtL1 hte hd1⟩ ⟨_, hd1⟩
              (by omega) hdu hvlt hvnt hInv hdc hcc hsc
          | dtD hte hrgx hdeh =>
            simp only [dispatch]
            rw [hte]
            try dsimp only
            exact sim_ck_dD rs ih hfr htab ⟨_, .dtD hte hrgx hdeh⟩ hdeh hrgx
              hsz hdu hvlt hvnt hInv hdc hcc hsc

/-- The descriptor environment of the amended-C5 witness. -/
def c5wte : Nat → Option TObj := fun a => if a = 0 then some .tInt else none

/-- Session correctness holds at the start of any top-level run on a
well-formed heap. -/
theorem invs_init {tenv : Nat → Option TObj} {h : Nat → Option VObj}
    {nA : Nat} (hwf : WfH h nA) : InvS tenv (initSession h nA) := by
  refine ⟨hwf, ?_, ?_, ?_⟩
  · intro p a hp
    simp [initSession] at hp
  · intro p r hp
    simp [initSession] at hp
  · intro p e hp
    simp [initSession] at hp

/-- No shells are registered at the start of a run. -/
theorem notouch_init {h : Nat → Option VObj} {nA x : Nat} :
    NoTouch h x (CurSh (initSession h nA)) := by
  intro b hb hbad
  rcases hbad with ⟨p, hp⟩
  simp [initSession] at hp

/-- The loop guards are empty at the start of a run. -/
theorem deepcur_init {tenv : Nat → Option TObj} {h : Nat → Option VObj}
    {nA m : Nat} : DeepCur tenv (initSession h nA) m := by
  intro p hp d' hd'
  rcases hp with hp | hp
  · simp [initSession] at hp
  · simp [initSession] at hp

/-- C5 (amended): on the alternation-free restricted grammar — `None`,
`int`, `str`, `bool`, the not-`None` type `()`, the empty list type `[]`,
one-inner-type non-strict lists and regex-free dicts — a successful
`check_type(value, type)` is idempotent: re-checking the returned result
against the same type descriptor in a fresh session succeeds, and the new
result is structurally equal to the first one (both decode to the same
pure value tree, namely the pure checker's result, which is a fixed point
of the pure checker). -/
theorem c5_idempotent_restricted (rs : String → String → Bool)
    (tenv : Nat → Option TObj) {h : Nat → Option VObj} {nA v t : Nat}
    {d : DTree} {u : VTree} {f1 f2 : Nat}
    (hwf : WfH h nA) (hv : v < nA)
    (hdt : DecT tenv t d) (hdu : DecV h v u)
    (hf1 : sizeOf d ≤ f1) (hf2 : sizeOf d ≤ f2)
    {s1 : Session} {r1 : Nat}
    (hrun1 : check_type rs tenv f1 h nA v t = (s1, .ok r1)) :
    ∃ s2 r2, check_type rs tenv f2 s1.heap s1.nextAddr r1 t = (s2, .ok r2) ∧
      ∃ w, POk d u w ∧ DecV s1.heap r1 w ∧ DecV s2.heap r2 w := by
  have hrun1b : check_type_inner rs tenv f1 v t (initSession h nA)
      = (s1, .ok r1) := hrun1
  have hout := sim_check_type_inner rs tenv f1 d v t (initSession h nA) u
    hf1 hdt hdu hv notouch_init (invs_init hwf) deepcur_init
  rw [hrun1b] at hout
  obtain ⟨hInv1, hsm1, hok1, herr1⟩ := hout
  rcases hok1 r1 rfl with ⟨hr1lt, hr1nt, w, hpok, hdw⟩
  have hr1lt2 : r1 < s1.nextAddr := hr1lt
  have hdw2 : DecV s1.heap r1 w := hdw
  have hInv1b : InvS tenv s1 := hInv1
  have hpok2 : POk d w w := pok_idem hpok
  have hout2 := sim_check_type_inner rs tenv f2 d r1 t
    (initSession s1.heap s1.nextAddr) w hf2 hdt hdw2 hr1lt2 notouch_init
    (invs_init hInv1b.1) deepcur_init
  rcases hr2 : check_type_inner rs tenv f2 r1 t
    (initSession s1.heap s1.nextAddr) with ⟨s2, res2⟩
  rw [hr2] at hout2
  obtain ⟨hInv2, hsm2, hok2, herr2⟩ := hout2
  cases res2 with
  | error e =>
    exfalso
    rcases herr2 e rfl with ⟨_, hpf⟩
    exact pok_pfail_excl hpok2 hpf
  | ok r2 =>
    rcases hok2 r2 rfl with ⟨hr2lt, hr2nt, w2, hpok22, hdw22⟩
    have hw2 : w2 = w := pok_det hpok22 hpok2
    subst hw2
    have hdw22b : DecV s2.heap r2 w2 := hdw22
    exact ⟨s2, r2, hr2, w2, hpok, hdw2, hdw22b⟩

/-- Witness for the amended C5 theorem: checking the integer `5` against
`int` succeeds, and re-checking the result succeeds with an equal value. -/
theorem c5_idempotent_restricted_witness :
    ∃ s2 r2, check_type wrs c5wte 1 c5h 1 0 0 = (s2, .ok r2) ∧
      ∃ w, POk .dI (.vtI 5) w ∧ DecV c5h 0 w ∧ DecV s2.heap r2 w :=
  @c5_idempotent_restricted wrs c5wte c5h 1 0 0 .dI (.vtI 5) 1 1
    (by
      constructor
      · intro a ha
        unfold c5h
        rw [if_neg (by omega)]
      · intro a o hao b hb
        unfold c5h at hao
        by_cases h0 : a = 0
        · rw [if_pos h0] at hao
          cases hao
          simp [vobjTargets] at hb
        · rw [if_neg h0] at hao
          cases hao)
    (by decide) ⟨1, .dtI rfl⟩ ⟨1, .dvI rfl⟩ (by decide) (by decide)
    (initSession c5h 1) 0 rfl

end PyCheck
